import Mathlib

/-!
# amazon-ecs-render-task-definition: the transformation performed by `run`

A shallow embedding of `src/index.js`, lines 26-109: the in-memory edit of a task
definition document (container resolution, image injection, environment merge,
secret merge).  Reading the action inputs (lines 9-14), loading the file (lines
17-23) and writing the result (lines 112-121) are the adapter around it.  The
function `run` below takes the loaded document and the four input strings as
`core.getInput` returned them, and returns either the failure whose message line 124
passes to `core.setFailed`, or the document that line 119 serialises.

Modelling conventions

* A document is a JSON value (`Json`).  JavaScript objects are association lists in
  property order; an assignment to an existing property keeps its position, an
  assignment to a new property appends it (none of the property names written by the
  program is an array index, so this is the order `JSON.stringify` prints).
* Numbers matter to the program only through their truthiness; they are carried as
  integers.
* JavaScript strings are `String`s; `indexOf`, `substring`, `split` and `trim` are
  defined on the character list.  The separators `=` and the newline are single
  code units, so cutting at them agrees with the UTF-16 view of the source.
* The file is not in strict mode: assigning a property to a number, string or
  boolean is silently dropped, and reading a property of `null` raises a
  `TypeError`.
* The program mutates the document in place and throws on failure.  Here every step
  returns the new value, and a failure (`Except.error`) discards the edits made so
  far, as no file is written on that path.
* The comparison `e.name == variable.name` of line 67 is exact for a name that is a
  string, `null` or missing.  For a name that is a number, boolean, array or object
  JavaScript converts the operands first, and the conversion of an object or array
  can throw a `TypeError`; the outcome of the comparison is the parameter `coerceEq`
  (`none` when it throws), and every theorem holds for every choice of it.
* The optional inputs are read through `core.getInput`, which returns the value with
  leading and trailing whitespace removed (`getInput`).
-/

namespace RenderTaskDef

/-! ## Data model -/

/-- JSON values, as produced by loading the task definition file. -/
inductive Json where
  | null
  | bool (b : Bool)
  | num (n : Int)
  | str (s : String)
  | arr (xs : List Json)
  | obj (kvs : List (String × Json))

/-- The failures `run` can end with; `message` gives the text passed to `core.setFailed`
for those the program raises itself. -/
inductive Err where
  | invalidFormat
  | notFound
  | envParse (trimmedLine : String)
  | secretParse (trimmedLine : String)
  | typeError
  deriving DecidableEq, Repr

/-- The `error.message` of each failure the program raises itself (lines 27, 37, 58,
92).  The text of a `TypeError` is the engine's and is not fixed by the program:
`none`. -/
def Err.message : Err → Option String
  | .invalidFormat =>
    some ("Invalid task definition format: "
      ++ "containerDefinitions section is not present or is not an array")
  | .notFound =>
    some "Invalid task definition: Could not find container definition with matching name"
  | .envParse trimmedLine =>
    some ("Cannot parse the environment variable '" ++ trimmedLine
      ++ "'. Environment variable pairs must be of the form NAME=value.")
  | .secretParse trimmedLine =>
    some ("Cannot parse the secret variable '" ++ trimmedLine
      ++ "'. Secret variable pairs must be of the form NAME=value.")
  | .typeError => none

/-! ## JavaScript strings -/

/-- The characters `String.prototype.trim` removes: ECMAScript WhiteSpace and
LineTerminator code points. -/
def isWhiteSpace (c : Char) : Bool :=
  decide (c.toNat ∈ [0x9, 0xA, 0xB, 0xC, 0xD, 0x20, 0xA0, 0x1680, 0x2028, 0x2029, 0x202F,
      0x205F, 0x3000, 0xFEFF])
    || (decide (0x2000 ≤ c.toNat) && decide (c.toNat ≤ 0x200A))

/-- The method `s.trim()`. -/
def trim (s : String) : String :=
  ⟨(s.data.dropWhile isWhiteSpace).rdropWhile isWhiteSpace⟩

/-- Position of the first occurrence of `c` in a character list. -/
def indexOfList (c : Char) : List Char → Option Nat
  | [] => none
  | d :: ds => if d = c then some 0 else (indexOfList c ds).map (· + 1)

/-- The method `s.indexOf(c)` for a one-character needle; `none` stands for `-1`. -/
def indexOf (s : String) (c : Char) : Option Nat :=
  indexOfList c s.data

/-- The method `s.substring(0, stop)`. -/
def substringTo (s : String) (stop : Nat) : String :=
  ⟨s.data.take stop⟩

/-- The method `s.substring(start)`. -/
def substringFrom (s : String) (start : Nat) : String :=
  ⟨s.data.drop start⟩

/-- Pieces of a character list between occurrences of `sep`. -/
def splitList (sep : Char) : List Char → List (List Char)
  | [] => [[]]
  | c :: cs =>
    if c = sep then [] :: splitList sep cs
    else
      match splitList sep cs with
      | [] => [[c]]
      | piece :: pieces => (c :: piece) :: pieces

/-- The method `s.split(sep)` for a one-character separator. -/
def split (s : String) (sep : Char) : List String :=
  (splitList sep s.data).map String.mk

/-! ## JavaScript values and property access -/

/-- Truthiness of a JSON value (`!v` is its negation). -/
def truthy : Json → Bool
  | .null => false
  | .bool b => b
  | .num n => n != 0
  | .str s => s != ""
  | .arr _ => true
  | .obj _ => true

/-- Own property `key` of an object given by its property list. -/
def lookup (key : String) : List (String × Json) → Option Json
  | [] => none
  | (k, v) :: rest => if k = key then some v else lookup key rest

/-- Property list after the assignment of `v` to property `key`. -/
def setKey (key : String) (v : Json) : List (String × Json) → List (String × Json)
  | [] => [(key, v)]
  | (k, w) :: rest => if k = key then (k, v) :: rest else (k, w) :: setKey key v rest

/-- The read `v.key`, for the property names the program reads (none of them is
defined on a prototype): `none` is `undefined`, and reading from `null` throws. -/
def getProp (v : Json) (key : String) : Except Err (Option Json) :=
  match v with
  | .null => .error .typeError
  | .obj kvs => .ok (lookup key kvs)
  | _ => .ok none

/-- The assignment `v.key = x` as far as serialisation and later reads of the
program can see it: it changes an object and nothing else. -/
def assign (v : Json) (key : String) (x : Json) : Json :=
  match v with
  | .obj kvs => .obj (setKey key x kvs)
  | other => other

/-- The call `xs.find(p)` with a callback that may throw: the first element
satisfying `p`, with its index (the model's stand-in for the reference). -/
def find (p : Json → Except Err Bool) : List Json → Except Err (Option (Nat × Json))
  | [] => .ok none
  | e :: rest =>
    match p e with
    | .error err => .error err
    | .ok true => .ok (some (0, e))
    | .ok false =>
      match find p rest with
      | .error err => .error err
      | .ok none => .ok none
      | .ok (some (i, x)) => .ok (some (i + 1, x))

/-- The test `v === s` for a string `s`. -/
def strictEqStr : Option Json → String → Bool
  | some (.str t), s => decide (t = s)
  | _, _ => false

/-- The test `v == s` for a string `s`.  When `v` is neither missing, `null` nor a
string, JavaScript converts the operands: `coerceEq v s` is the outcome of the
comparison then, `none` when the conversion throws a `TypeError` (an object or array
whose conversion to a primitive fails). -/
def looseEqStr (coerceEq : Json → String → Option Bool) :
    Option Json → String → Except Err Bool
  | none, _ => .ok false
  | some .null, _ => .ok false
  | some (.str t), s => .ok (decide (t = s))
  | some v, s =>
    match coerceEq v s with
    | some b => .ok b
    | none => .error .typeError

/-- The callback `element => element.name === name` (lines 30 and 101). -/
def nameIs (name : String) (element : Json) : Except Err Bool :=
  match getProp element "name" with
  | .error err => .error err
  | .ok n => .ok (strictEqStr n name)

/-- The callback `e => e.name == name` (line 67). -/
def nameLooselyIs (coerceEq : Json → String → Option Bool) (name : String) (e : Json) :
    Except Err Bool :=
  match getProp e "name" with
  | .error err => .error err
  | .ok n => looseEqStr coerceEq n name

/-! ## The object `containerDef` -/

/-- The value the variable `containerDef` refers to while `run` edits it. -/
inductive Target where
  /-- A JSON object with its own properties. -/
  | record (kvs : List (String × Json))
  /-- A JSON array; `props` are the named properties assigned to it, which
  `JSON.stringify` does not print. -/
  | array (xs : List Json) (props : List (String × Json))
  /-- A number, string or boolean: assignments to it are dropped. -/
  | prim (v : Json)

/-- The target an element of `containerDefinitions` becomes. -/
def toTarget : Json → Target
  | .obj kvs => .record kvs
  | .arr xs => .array xs []
  | v => .prim v

/-- The read `containerDef.key`. -/
def Target.get : Target → String → Option Json
  | .record kvs, key => lookup key kvs
  | .array _ props, key => lookup key props
  | .prim _, _ => none

/-- The assignment `containerDef.key = v`. -/
def Target.set : Target → String → Json → Target
  | .record kvs, key, v => .record (setKey key v kvs)
  | .array xs props, key, v => .array xs (setKey key v props)
  | .prim p, _, _ => .prim p

/-- Truthiness of `containerDef`. -/
def Target.truthy : Target → Bool
  | .record _ => true
  | .array _ _ => true
  | .prim v => RenderTaskDef.truthy v

/-- What `JSON.stringify` sees at the position of the target. -/
def Target.toJson : Target → Json
  | .record kvs => .obj kvs
  | .array xs _ => .arr xs
  | .prim v => v

/-! ## Container resolution (lines 29-38) -/

/-- Lines 29-38: the index of the container to edit and the object found there.
Line 29 searches by name; lines 32-35 fall back to a single element without a
`name`, giving it the name; line 36 rejects a missing (falsy) result. -/
def resolveContainer (cds : List Json) (containerName : String) : Except Err (Nat × Target) :=
  match find (nameIs containerName) cds with
  | .error err => .error err
  | .ok found =>
    let containerDef : Option (Nat × Target) := found.map fun ie => (ie.1, toTarget ie.2)
    let truthyDef : Option (Nat × Target) → Bool := fun d =>
      match d with
      | none => false
      | some it => it.2.truthy
    let afterFallback : Except Err (Option (Nat × Target)) :=
      match truthyDef containerDef, cds with
      | false, [e] =>
        match getProp e "name" with
        | .error err => .error err
        | .ok none => .ok (some (0, (toTarget e).set "name" (.str containerName)))
        | .ok (some _) => .ok containerDef
      | _, _ => .ok containerDef
    match afterFallback with
    | .error err => .error err
    | .ok d =>
      match d with
      | some it => if truthyDef d then .ok it else .error .notFound
      | none => .error .notFound

/-! ## Environment merge (lines 41-76) -/

/-- Lines 51-64: the pair a line stands for; `none` for a line that is skipped. -/
def parseEnvLine (line : String) : Except Err (Option (String × String)) :=
  let trimmedLine := trim line
  if trimmedLine.length = 0 then .ok none
  else
    match indexOf trimmedLine '=' with
    | none => .error (.envParse trimmedLine)
    | some separatorIdx =>
      .ok (some (substringTo trimmedLine separatorIdx, substringFrom trimmedLine (separatorIdx + 1)))

/-- Lines 66-74: update the first entry with that name, or append a new entry. -/
def upsertEnv (coerceEq : Json → String → Option Bool) (environment : List Json)
    (name value : String) : Except Err (List Json) :=
  match find (nameLooselyIs coerceEq name) environment with
  | .error err => .error err
  | .ok (some (i, variableDef)) =>
    if truthy variableDef then .ok (environment.set i (assign variableDef "value" (.str value)))
    else .ok (environment ++ [.obj [("name", .str name), ("value", .str value)]])
  | .ok none => .ok (environment ++ [.obj [("name", .str name), ("value", .str value)]])

/-- Lines 49-75, one iteration of the loop over the lines. -/
def envLine (coerceEq : Json → String → Option Bool) (containerDef : Target) (line : String) :
    Except Err Target :=
  match parseEnvLine line with
  | .error err => .error err
  | .ok none => .ok containerDef
  | .ok (some (name, value)) =>
    match containerDef.get "environment" with
    | some (.arr environment) =>
      match upsertEnv coerceEq environment name value with
      | .error err => .error err
      | .ok environment1 => .ok (containerDef.set "environment" (.arr environment1))
    | _ => .error .typeError

/-- Lines 41-76: nothing for an empty input; otherwise make sure `environment` is
an array and process the lines in order. -/
def mergeEnvironment (coerceEq : Json → String → Option Bool) (containerDef : Target)
    (environmentVariables : String) : Except Err Target :=
  if environmentVariables = "" then .ok containerDef
  else
    let prepared : Target :=
      match containerDef.get "environment" with
      | some (.arr _) => containerDef
      | _ => containerDef.set "environment" (.arr [])
    (split environmentVariables '\n').foldlM (envLine coerceEq) prepared

/-! ## Secret merge (lines 79-109) -/

/-- Lines 84-98: the pair a line stands for; both parts are trimmed. -/
def parseSecretLine (line : String) : Except Err (Option (String × String)) :=
  let trimmedLine := trim line
  if trimmedLine.length = 0 then .ok none
  else
    match indexOf trimmedLine '=' with
    | none => .error (.secretParse trimmedLine)
    | some separatorIdx =>
      .ok (some (trim (substringTo trimmedLine separatorIdx),
        trim (substringFrom trimmedLine (separatorIdx + 1))))

/-- Lines 100-107: update the first secret with that name, or append a new one. -/
def upsertSecret (secrets : List Json) (name valueFrom : String) : Except Err (List Json) :=
  match find (nameIs name) secrets with
  | .error err => .error err
  | .ok (some (i, secretDef)) =>
    if truthy secretDef then .ok (secrets.set i (assign secretDef "valueFrom" (.str valueFrom)))
    else .ok (secrets ++ [.obj [("name", .str name), ("valueFrom", .str valueFrom)]])
  | .ok none => .ok (secrets ++ [.obj [("name", .str name), ("valueFrom", .str valueFrom)]])

/-- Lines 83-108, one iteration of the loop over the lines. -/
def secretLine (containerDef : Target) (line : String) : Except Err Target :=
  match parseSecretLine line with
  | .error err => .error err
  | .ok none => .ok containerDef
  | .ok (some (name, valueFrom)) =>
    match containerDef.get "secrets" with
    | some (.arr secrets) =>
      match upsertSecret secrets name valueFrom with
      | .error err => .error err
      | .ok secrets1 => .ok (containerDef.set "secrets" (.arr secrets1))
    | _ => .error .typeError

/-- Lines 79-109: nothing for an empty input; otherwise `secrets` becomes
`containerDef.secrets || []` and the lines are processed in order. -/
def mergeSecrets (containerDef : Target) (secretVariables : String) : Except Err Target :=
  if secretVariables = "" then .ok containerDef
  else
    let current : Json :=
      match containerDef.get "secrets" with
      | some v => if truthy v then v else .arr []
      | none => .arr []
    (split secretVariables '\n').foldlM secretLine (containerDef.set "secrets" current)

/-! ## The whole transformation (lines 26-109) -/

/-- Lines 26-109 of `run`.  The result is the failure reported through
`core.setFailed` (no file is written, no output is set), or the document that
line 119 serialises into the output file. -/
def run (coerceEq : Json → String → Option Bool) (taskDefContents : Json)
    (containerName imageURI environmentVariables secretVariables : String) : Except Err Json :=
  match getProp taskDefContents "containerDefinitions" with
  | .error err => .error err
  | .ok (some (.arr (c :: cs))) =>
    match resolveContainer (c :: cs) containerName with
    | .error err => .error err
    | .ok (i, containerDef) =>
      match mergeEnvironment coerceEq (containerDef.set "image" (.str imageURI))
          environmentVariables with
      | .error err => .error err
      | .ok withEnvironment =>
        match mergeSecrets withEnvironment secretVariables with
        | .error err => .error err
        | .ok edited =>
          .ok (assign taskDefContents "containerDefinitions"
            (.arr ((c :: cs).set i edited.toJson)))
  | .ok _ => .error .invalidFormat

/-- No conversion: a coercion parameter under which a name that is not a string
never equals a spec name, and no comparison throws. -/
def noCoercion : Json → String → Option Bool :=
  fun _ _ => some false


/-! ## Notions used to state the properties -/

/-- The entry a merge appends for a new name: `{ name, value }` for the
environment (`valueKey = "value"`), `{ name, valueFrom }` for the secrets. -/
def entry (valueKey name value : String) : Json :=
  .obj [("name", .str name), (valueKey, .str value)]

/-- The string a property value is, if it is one. -/
def stringOf : Option Json → Option String
  | some (.str s) => some s
  | _ => none

/-- The name of an entry, when the entry is an object whose `name` is a string. -/
def entryName : Json → Option String
  | .obj kvs => stringOf (lookup "name" kvs)
  | _ => none

/-- Entries on which a name comparison neither throws nor converts its operands:
any value but `null`, whose `name`, if it is an object, is missing, `null` or a string. -/
def plainName : Json → Bool
  | .null => false
  | .obj kvs =>
    match lookup "name" kvs with
    | some (.bool _) => false
    | some (.num _) => false
    | some (.arr _) => false
    | some (.obj _) => false
    | _ => true
  | _ => true

/-- The upsert read as a recursion over the entries: overwrite `valueKey` in the
first entry called `name`, or append a new entry when there is none. -/
def upsertNamed (valueKey name value : String) : List Json → List Json
  | [] => [entry valueKey name value]
  | e :: rest =>
    if entryName e = some name then assign e valueKey (.str value) :: rest
    else e :: upsertNamed valueKey name value rest

/-- The search-then-update of lines 66-74 and 100-107 for an arbitrary search
callback `p` and value property `valueKey`. -/
def upsertWith (p : Json → Except Err Bool) (valueKey name value : String)
    (entries : List Json) : Except Err (List Json) :=
  match find p entries with
  | .error err => .error err
  | .ok (some (i, found)) =>
    if truthy found then .ok (entries.set i (assign found valueKey (.str value)))
    else .ok (entries ++ [entry valueKey name value])
  | .ok none => .ok (entries ++ [entry valueKey name value])

/-- One iteration of the environment loop, on the array `containerDef.environment`. -/
def envStep (coerceEq : Json → String → Option Bool) (environment : List Json) (line : String) :
    Except Err (List Json) :=
  match parseEnvLine line with
  | .error err => .error err
  | .ok none => .ok environment
  | .ok (some (name, value)) => upsertEnv coerceEq environment name value

/-- One iteration of the secrets loop, on the array `containerDef.secrets`. -/
def secretStep (secrets : List Json) (line : String) : Except Err (List Json) :=
  match parseSecretLine line with
  | .error err => .error err
  | .ok none => .ok secrets
  | .ok (some (name, valueFrom)) => upsertSecret secrets name valueFrom

/-- A line is blank when nothing is left of it after trimming. -/
def isBlank (line : String) : Bool :=
  (trim line).length = 0

/-- The `(name, value)` pair of a line of the environment spec, if the line has one. -/
def envPairOf (line : String) : Option (String × String) :=
  match parseEnvLine line with
  | .ok (some pair) => some pair
  | _ => none

/-- The `(name, value)` pairs of the environment spec, in line order. -/
def envPairs (spec : String) : List (String × String) :=
  (split spec '\n').filterMap envPairOf

/-- Every line of the spec is blank or contains `=`. -/
def Parsable (spec : String) : Prop :=
  ∀ line ∈ split spec '\n', isBlank line = false → '=' ∈ line.data

instance (spec : String) : Decidable (Parsable spec) :=
  inferInstanceAs (Decidable (∀ line ∈ split spec '\n', isBlank line = false → '=' ∈ line.data))

/-- The distinct elements of a list, in order of first occurrence: keep the head
and drop its later copies. -/
def firstOccurrences : List String → List String
  | [] => []
  | name :: rest => name :: (firstOccurrences rest).filter (fun other => other ≠ name)

/-- The value of the last pair carrying `name`, if a pair carries it. -/
def lastValue (name : String) : List (String × String) → Option String
  | [] => none
  | pair :: rest =>
    match lastValue name rest with
    | some value => some value
    | none => if pair.1 = name then some pair.2 else none

/-- The upserts of a list of pairs, applied in order. -/
def mergeNamed (valueKey : String) (entries : List Json) (pairs : List (String × String)) :
    List Json :=
  pairs.foldl (fun acc pair => upsertNamed valueKey pair.1 pair.2 acc) entries

/-- The entries of the array under `key` in a record (none when there is no such array). -/
def fieldEntries (key : String) (kvs : List (String × Json)) : List Json :=
  match lookup key kvs with
  | some (.arr entries) => entries
  | _ => []

/-! ## Sample documents -/

/-- Two containers, `db` and `app`, each with an image. -/
def sampleContainers : List Json :=
  [.obj [("name", .str "db"), ("image", .str "old")],
    .obj [("name", .str "app"), ("image", .str "old")]]

/-- A task definition with a `family` and the two sample containers. -/
def sampleDoc : Json :=
  .obj [("family", .str "web"), ("containerDefinitions", .arr sampleContainers)]

/-- The sample task definition after rendering `app` with image `repo/img:1`. -/
def sampleRendered : Json :=
  .obj [("family", .str "web"), ("containerDefinitions",
    .arr [.obj [("name", .str "db"), ("image", .str "old")],
      .obj [("name", .str "app"), ("image", .str "repo/img:1")]])]

/-- A task definition with a single container that has no name. -/
def unnamedDoc : Json :=
  .obj [("family", .str "web"), ("containerDefinitions", .arr [.obj [("cpu", .num 256)]])]

/-- The `(name, valueFrom)` pair of a line of the secrets spec, if the line has one. -/
def secretPairOf (line : String) : Option (String × String) :=
  match parseSecretLine line with
  | .ok (some pair) => some pair
  | _ => none

/-- The `(name, valueFrom)` pairs of the secrets spec, in line order. -/
def secretPairs (spec : String) : List (String × String) :=
  (split spec '\n').filterMap secretPairOf

/-! ## The action as a whole (lines 6-126) -/

/-- What the program does to the world outside it. -/
inductive Effect where
  /-- The call `tmp.fileSync` created the file `name` (line 112). -/
  | createFile (name : String)
  /-- The call `fs.writeFileSync` wrote the serialised document to `name` (line 120). -/
  | writeFile (name : String) (contents : Json)
  /-- The call `core.setOutput(key, value)` (line 121). -/
  | setOutput (key value : String)
  /-- The call `core.setFailed(message)` (line 124). -/
  | setFailed (message : String)

/-- Whether an effect reports the end of the run to the pipeline. -/
def Effect.isReport : Effect → Bool
  | .setOutput _ _ => true
  | .setFailed _ => true
  | _ => false

/-- Whether an effect creates or writes a file. -/
def Effect.touchesFile : Effect → Bool
  | .createFile _ => true
  | .writeFile _ _ => true
  | _ => false

/-- The call `core.getInput(name, { required: false })` on the value `raw` the workflow
gives the input (the empty string when it gives none): the library returns the value
with leading and trailing whitespace removed (`val.trim()`), as lines 13-14 do not set
`trimWhitespace`. -/
def getInput (raw : String) : String :=
  trim raw

/-- The outcomes of the calls that `run` makes into the runner, the path library and
the file system; a failed call carries the message of the error it throws. -/
structure World where
  /-- The call `core.getInput('task-definition', { required: true })`. -/
  taskDefinition : Except String String
  /-- The call `core.getInput('container-name', { required: true })`. -/
  containerName : Except String String
  /-- The call `core.getInput('image', { required: true })`. -/
  image : Except String String
  /-- The value the workflow gives the input `environment-variables`, read on line 13. -/
  environmentVariables : String
  /-- The value the workflow gives the input `secrets`, read on line 14. -/
  secrets : String
  /-- The test `path.isAbsolute(taskDefinitionFile)`. -/
  isAbsolute : String → Bool
  /-- The call `path.join(process.env.GITHUB_WORKSPACE, taskDefinitionFile)`. -/
  joinWorkspace : String → Except String String
  /-- The test `fs.existsSync(taskDefPath)`. -/
  fileExists : String → Bool
  /-- The call `require(taskDefPath)`. -/
  load : String → Except String Json
  /-- The call `tmp.fileSync(...)`: the name of the file it created. -/
  tmpFile : Except String String
  /-- The call `fs.writeFileSync(name, newTaskDefContents)`. -/
  write : String → Json → Except String Unit
  /-- The call `core.setOutput(key, value)` (line 121, inside the `try` block). -/
  setOutput : String → String → Except String Unit
  /-- The `error.message` of the `TypeError` the engine raises in lines 26-109, when it
  raises one. -/
  faultMessage : String

/-- The body of the `try` block (lines 8-121): the effects it performed, and the
message of the error it threw, if it threw one. -/
def tryBlock (coerceEq : Json → String → Option Bool) (w : World) :
    List Effect × Option String :=
  match w.taskDefinition with
  | .error message => ([], some message)
  | .ok taskDefinitionFile =>
    match w.containerName with
    | .error message => ([], some message)
    | .ok containerName =>
      match w.image with
      | .error message => ([], some message)
      | .ok imageURI =>
        match (if w.isAbsolute taskDefinitionFile then .ok taskDefinitionFile
            else w.joinWorkspace taskDefinitionFile) with
        | .error message => ([], some message)
        | .ok taskDefPath =>
          if w.fileExists taskDefPath = false then
            ([], some ("Task definition file does not exist: " ++ taskDefinitionFile))
          else
            match w.load taskDefPath with
            | .error message => ([], some message)
            | .ok taskDefContents =>
              match run coerceEq taskDefContents containerName imageURI
                  (getInput w.environmentVariables) (getInput w.secrets) with
              | .error err => ([], some (err.message.getD w.faultMessage))
              | .ok newTaskDefContents =>
                match w.tmpFile with
                | .error message => ([], some message)
                | .ok name =>
                  match w.write name newTaskDefContents with
                  | .error message => ([.createFile name], some message)
                  | .ok _ =>
                    match w.setOutput "task-definition" name with
                    | .error message =>
                      ([.createFile name, .writeFile name newTaskDefContents], some message)
                    | .ok _ =>
                      ([.createFile name, .writeFile name newTaskDefContents,
                        .setOutput "task-definition" name], none)

/-- The whole of the source function `run` (lines 6-126), as the list of its effects:
those of the `try` block, followed by `core.setFailed` when the block threw. -/
def runAction (coerceEq : Json → String → Option Bool) (w : World) : List Effect :=
  match tryBlock coerceEq w with
  | (effects, some message) => effects ++ [.setFailed message]
  | (effects, none) => effects

/-- A world in which the three required inputs are given, the file `taskdef.json`
exists and loads as `doc`, and creating the temporary file, writing it and setting the
output succeed. -/
def sampleWorld (doc : Json) (environmentVariables secrets : String) : World where
  taskDefinition := .ok "/work/taskdef.json"
  containerName := .ok "app"
  image := .ok "repo/img:1"
  environmentVariables := environmentVariables
  secrets := secrets
  isAbsolute := fun _ => true
  joinWorkspace := fun file => .ok file
  fileExists := fun _ => true
  load := fun _ => .ok doc
  tmpFile := .ok "/tmp/task-definition-1.json"
  write := fun _ _ => .ok ()
  setOutput := fun _ _ => .ok ()
  faultMessage := "Cannot read properties of null"

/-- The sample world with empty optional inputs, except that `core.setOutput` throws. -/
def outputFailsWorld (doc : Json) : World where
  taskDefinition := .ok "/work/taskdef.json"
  containerName := .ok "app"
  image := .ok "repo/img:1"
  environmentVariables := ""
  secrets := ""
  isAbsolute := fun _ => true
  joinWorkspace := fun file => .ok file
  fileExists := fun _ => true
  load := fun _ => .ok doc
  tmpFile := .ok "/tmp/task-definition-1.json"
  write := fun _ _ => .ok ()
  setOutput := fun _ _ => .error "Unable to find environment variable for file command"
  faultMessage := "Cannot read properties of null"

/-! ## The secret merge against the environment merge -/

/-- A property name under the renaming `value` <-> `valueFrom`. -/
def swapKey (key : String) : String :=
  if key = "value" then "valueFrom" else if key = "valueFrom" then "value" else key

/-- An entry under the renaming `value` <-> `valueFrom` of its properties. -/
def swapEntry : Json → Json
  | .obj kvs => .obj (kvs.map fun kv => (swapKey kv.1, kv.2))
  | other => other

/-- A line with the whitespace around its name part and around its value part
removed: the parts are those left and right of the first `=` of the trimmed line.  A
line without `=` is kept as it is. -/
def trimParts (line : String) : String :=
  match indexOf (trim line) '=' with
  | none => line
  | some separatorIdx =>
    trim (substringTo (trim line) separatorIdx) ++ "="
      ++ trim (substringFrom (trim line) (separatorIdx + 1))

/-- Lines put together with a newline between them (`lines.join('\n')`). -/
def joinLines : List String → String
  | [] => ""
  | [line] => line
  | line :: rest => line ++ "\n" ++ joinLines rest

/-- The spec obtained by trimming the parts of every line. -/
def trimPartsSpec (spec : String) : String :=
  joinLines ((split spec '\n').map trimParts)

/-- The failure of the secret merge that corresponds to a failure of the
environment merge: the same line, reported as a secret. -/
def asSecretFailure : Err → Err
  | .envParse trimmedLine => .secretParse trimmedLine
  | err => err

/-- The entries a merge leaves under `key`, or its failure. -/
def mergedEntries (key : String) (merged : Except Err Target) : Except Err (List Json) :=
  match merged with
  | .error err => .error err
  | .ok target =>
    match target.get key with
    | some (.arr entries) => .ok entries
    | _ => .ok []

/-- The outcome of an environment merge read as the outcome of a secret merge:
entries renamed, failure reported as a secret. -/
def asSecretOutcome (outcome : Except Err (List Json)) : Except Err (List Json) :=
  match outcome with
  | .error err => .error (asSecretFailure err)
  | .ok entries => .ok (entries.map swapEntry)

/-! ## Notions for running the merges twice -/

/-- One iteration of either loop on the array, for an arbitrary line parser `parse`,
search callback `p` and value property `valueKey`. -/
def stepWith (parse : String → Except Err (Option (String × String)))
    (p : String → Json → Except Err Bool) (valueKey : String) (entries : List Json)
    (line : String) : Except Err (List Json) :=
  match parse line with
  | .error err => .error err
  | .ok none => .ok entries
  | .ok (some (name, value)) => upsertWith (p name) valueKey name value entries

/-- What the loops rely on in a search callback: an assignment to the value property
does not change what the callback answers, a freshly appended entry is found under
its own name, and what the callback accepts is truthy. -/
structure Stable (p : String → Json → Except Err Bool) (valueKey : String) : Prop where
  /-- Assigning the value property changes no answer of the callback. -/
  assign_eq : ∀ name e x, p name (assign e valueKey x) = p name e
  /-- The entry appended for a name is found under that name. -/
  entry_ok : ∀ name value, p name (entry valueKey name value) = .ok true
  /-- An accepted entry is truthy. -/
  truthy_of_ok : ∀ name e, p name e = .ok true → truthy e = true
  /-- The value property is not the name. -/
  key_ne : valueKey ≠ "name"

/-- Two entries that the callback cannot tell apart and that become equal as soon as
their value property is assigned. -/
def SameUpToValue (p : String → Json → Except Err Bool) (valueKey : String)
    (x y : Json) : Prop :=
  (∀ name, p name x = p name y) ∧ ∀ v, assign x valueKey v = assign y valueKey v

/-! ## Names of entries -/

/-- The value of `e.name` for an entry `e` of an array: `none` is `undefined`, which is
also what an entry that is no object answers. -/
def nameOf : Json → Option Json
  | .obj kvs => lookup "name" kvs
  | _ => none

/-! ## Property lists -/

theorem lookup_setKey_self (key : String) (v : Json) (kvs : List (String × Json)) :
    lookup key (setKey key v kvs) = some v := by
  induction kvs with
  | nil => simp [setKey, lookup]
  | cons kv rest ih =>
    obtain ⟨k, w⟩ := kv
    by_cases h : k = key
    · simp [setKey, lookup, h]
    · simp [setKey, lookup, h, ih]

theorem lookup_setKey_ne {key other : String} (h : other ≠ key) (v : Json)
    (kvs : List (String × Json)) : lookup other (setKey key v kvs) = lookup other kvs := by
  induction kvs with
  | nil => simp [setKey, lookup, Ne.symm h]
  | cons kv rest ih =>
    obtain ⟨k, w⟩ := kv
    by_cases hk : k = key
    · subst hk
      simp [setKey, lookup, Ne.symm h]
    · by_cases ho : k = other
      · subst ho
        simp [setKey, lookup, hk]
      · simp [setKey, lookup, hk, ho, ih]

theorem setKey_setKey (key : String) (v w : Json) (kvs : List (String × Json)) :
    setKey key w (setKey key v kvs) = setKey key w kvs := by
  induction kvs with
  | nil => simp [setKey]
  | cons kv rest ih =>
    obtain ⟨k, x⟩ := kv
    by_cases hk : k = key
    · simp [setKey, hk]
    · simp [setKey, hk, ih]

theorem setKey_of_lookup {key : String} {v : Json} {kvs : List (String × Json)}
    (h : lookup key kvs = some v) : setKey key v kvs = kvs := by
  induction kvs with
  | nil => simp [lookup] at h
  | cons kv rest ih =>
    obtain ⟨k, x⟩ := kv
    by_cases hk : k = key
    · simp [lookup, hk] at h
      simp [setKey, hk, h]
    · simp [lookup, hk] at h
      simp [setKey, hk, ih h]

theorem map_fst_setKey_of_lookup {key : String} {w : Json} (v : Json) {kvs : List (String × Json)}
    (h : lookup key kvs = some w) : (setKey key v kvs).map Prod.fst = kvs.map Prod.fst := by
  induction kvs with
  | nil => simp [lookup] at h
  | cons kv rest ih =>
    obtain ⟨k, x⟩ := kv
    by_cases hk : k = key
    · simp [setKey, hk]
    · simp [lookup, hk] at h
      simp [setKey, hk, ih h]

/-! ## The target object -/

theorem Target.set_set (t : Target) (key : String) (v w : Json) :
    (t.set key v).set key w = t.set key w := by
  cases t <;> simp [Target.set, setKey_setKey]

theorem Target.get_set_ne (t : Target) {key other : String} (h : other ≠ key) (v : Json) :
    (t.set key v).get other = t.get other := by
  cases t <;> simp [Target.set, Target.get, lookup_setKey_ne h]

theorem Target.set_of_get {t : Target} {key : String} {v : Json} (h : t.get key = some v) :
    t.set key v = t := by
  cases t with
  | record kvs => simp [Target.set, setKey_of_lookup (show lookup key kvs = some v from h)]
  | array xs props => simp [Target.set, setKey_of_lookup (show lookup key props = some v from h)]
  | prim p => rfl

theorem Target.get_set_self {t : Target} {key : String} {w : Json} (h : t.get key = some w)
    (v : Json) : (t.set key v).get key = some v := by
  cases t with
  | record kvs => simp [Target.set, Target.get, lookup_setKey_self]
  | array xs props => simp [Target.set, Target.get, lookup_setKey_self]
  | prim p => simp [Target.get] at h

theorem Target.getProp_toJson_set_ne (t : Target) {key other : String} (h : other ≠ key)
    (v : Json) : getProp (t.set key v).toJson other = getProp t.toJson other := by
  cases t with
  | record kvs => simp [Target.set, Target.toJson, getProp, lookup_setKey_ne h]
  | array xs props => simp [Target.set, Target.toJson]
  | prim p => simp [Target.set, Target.toJson]

/-! ## Strings -/

theorem indexOfList_eq_none {c : Char} {l : List Char} :
    indexOfList c l = none ↔ c ∉ l := by
  induction l with
  | nil => simp [indexOfList]
  | cons d ds ih =>
    by_cases h : d = c
    · simp [indexOfList, h]
    · simp [indexOfList, h, ih, Ne.symm h]

theorem indexOfList_some {c : Char} {l : List Char} {i : Nat} (h : indexOfList c l = some i) :
    l = l.take i ++ c :: l.drop (i + 1) ∧ c ∉ l.take i := by
  induction l generalizing i with
  | nil => simp [indexOfList] at h
  | cons d ds ih =>
    by_cases hd : d = c
    · simp [indexOfList, hd] at h
      subst h
      simp [hd]
    · cases hj : indexOfList c ds with
      | none => simp [indexOfList, hd, hj] at h
      | some j =>
      simp [indexOfList, hd, hj] at h
      subst h
      obtain ⟨h1, h2⟩ := ih hj
      refine ⟨?_, ?_⟩
      · simp only [List.take_succ_cons, List.drop_succ_cons, List.cons_append]
        rw [← h1]
      · simp only [List.take_succ_cons, List.mem_cons, not_or]
        exact ⟨Ne.symm hd, h2⟩

theorem mem_dropWhile_of_not {p : Char → Bool} {c : Char} (hc : p c = false) {l : List Char}
    (h : c ∈ l) : c ∈ l.dropWhile p := by
  induction l with
  | nil => simp at h
  | cons d ds ih =>
    by_cases hd : p d = true
    · have hne : c ≠ d := by
        rintro rfl
        simp [hc] at hd
      simp only [List.dropWhile_cons, hd, if_true]
      rcases List.mem_cons.mp h with h | h
      · exact absurd h hne
      · exact ih h
    · simp only [List.dropWhile_cons, hd]
      simpa using h

theorem mem_rdropWhile_of_not {p : Char → Bool} {c : Char} (hc : p c = false) {l : List Char}
    (h : c ∈ l) : c ∈ l.rdropWhile p := by
  unfold List.rdropWhile
  rw [List.mem_reverse]
  exact mem_dropWhile_of_not hc (List.mem_reverse.mpr h)

theorem mem_trim_of_mem {c : Char} (hc : isWhiteSpace c = false) {s : String}
    (h : c ∈ s.data) : c ∈ (trim s).data := by
  unfold trim
  exact mem_rdropWhile_of_not hc (mem_dropWhile_of_not hc h)

theorem isWhiteSpace_eq : isWhiteSpace '=' = false := by decide

/-! ## Searching and upserting -/

theorem upsertEnv_eq_upsertWith (coerceEq : Json → String → Option Bool) (environment : List Json)
    (name value : String) :
    upsertEnv coerceEq environment name value
      = upsertWith (nameLooselyIs coerceEq name) "value" name value environment := rfl

theorem upsertSecret_eq_upsertWith (secrets : List Json) (name valueFrom : String) :
    upsertSecret secrets name valueFrom
      = upsertWith (nameIs name) "valueFrom" name valueFrom secrets := rfl

theorem upsertWith_nil (p : Json → Except Err Bool) (valueKey name value : String) :
    upsertWith p valueKey name value [] = .ok [entry valueKey name value] := rfl

theorem upsertWith_cons_true {p : Json → Except Err Bool} {e : Json} (hp : p e = .ok true)
    (ht : truthy e = true) (valueKey name value : String) (rest : List Json) :
    upsertWith p valueKey name value (e :: rest)
      = .ok (assign e valueKey (.str value) :: rest) := by
  simp [upsertWith, find, hp, ht]

theorem upsertWith_cons_false {p : Json → Except Err Bool} {e : Json} (hp : p e = .ok false)
    (valueKey name value : String) (rest : List Json) :
    upsertWith p valueKey name value (e :: rest)
      = (upsertWith p valueKey name value rest).map (e :: ·) := by
  unfold upsertWith
  simp only [find, hp]
  cases hf : find p rest with
  | error err => rfl
  | ok r =>
    cases r with
    | none => rfl
    | some ix =>
      obtain ⟨i, x⟩ := ix
      by_cases ht : truthy x = true
      · simp [ht, Except.map]
      · simp [ht, Except.map]

theorem upsertWith_cons_error {p : Json → Except Err Bool} {e : Json} {err : Err}
    (hp : p e = .error err) (valueKey name value : String) (rest : List Json) :
    upsertWith p valueKey name value (e :: rest) = .error err := by
  simp [upsertWith, find, hp]

theorem entryName_some {e : Json} {name : String} (h : entryName e = some name) :
    ∃ kvs, e = .obj kvs ∧ lookup "name" kvs = some (.str name) := by
  cases e with
  | obj kvs =>
    refine ⟨kvs, rfl, ?_⟩
    simp only [entryName] at h
    cases hl : lookup "name" kvs with
    | none => simp [hl, stringOf] at h
    | some v => cases v <;> simp_all [stringOf]
  | _ => simp [entryName] at h

theorem strictEqStr_eq (x : Option Json) (name : String) :
    strictEqStr x name = decide (stringOf x = some name) := by
  cases x with
  | none => simp [strictEqStr, stringOf]
  | some v => cases v <;> simp [strictEqStr, stringOf]

theorem looseEqStr_eq (coerceEq : Json → String → Option Bool) (x : Option Json) (name : String)
    (hx : ∀ v, x = some v → (∃ s, v = .str s) ∨ v = .null) :
    looseEqStr coerceEq x name = .ok (decide (stringOf x = some name)) := by
  cases x with
  | none => simp [looseEqStr, stringOf]
  | some v =>
    rcases hx v rfl with ⟨s, rfl⟩ | rfl
    · simp [looseEqStr, stringOf]
    · simp [looseEqStr, stringOf]

theorem nameIs_eq {e : Json} (he : e ≠ .null) (name : String) :
    nameIs name e = .ok (decide (entryName e = some name)) := by
  cases e with
  | null => exact absurd rfl he
  | obj kvs =>
    simp only [nameIs, getProp, entryName, strictEqStr_eq]
  | _ => simp [nameIs, getProp, entryName, strictEqStr]

theorem nameLooselyIs_eq (coerceEq : Json → String → Option Bool) {e : Json}
    (he : plainName e = true) (name : String) :
    nameLooselyIs coerceEq name e = .ok (decide (entryName e = some name)) := by
  cases e with
  | null => simp [plainName] at he
  | obj kvs =>
    simp only [nameLooselyIs, getProp, entryName]
    rw [looseEqStr_eq]
    intro v hv
    simp only [plainName, hv] at he
    cases v <;> simp_all
  | _ => simp [nameLooselyIs, getProp, entryName, looseEqStr]

/-- On entries whose comparison is plain, the search-then-update is `upsertNamed`. -/
theorem upsertWith_eq_upsertNamed {p : Json → Except Err Bool} {name : String}
    (valueKey value : String) (entries : List Json)
    (hp : ∀ e ∈ entries, p e = .ok (decide (entryName e = some name))) :
    upsertWith p valueKey name value entries = .ok (upsertNamed valueKey name value entries) := by
  induction entries with
  | nil => rfl
  | cons e rest ih =>
    have he := hp e (List.mem_cons_self _ _)
    by_cases hn : entryName e = some name
    · obtain ⟨kvs, rfl, -⟩ := entryName_some hn
      rw [upsertWith_cons_true (by simpa [hn] using he) (by simp [truthy])]
      simp [upsertNamed, hn]
    · rw [upsertWith_cons_false (by simpa [hn] using he),
        ih (fun x hx => hp x (List.mem_cons_of_mem _ hx))]
      simp [upsertNamed, hn, Except.map]

theorem upsertEnv_eq_upsertNamed (coerceEq : Json → String → Option Bool) (name value : String)
    {environment : List Json} (h : ∀ e ∈ environment, plainName e = true) :
    upsertEnv coerceEq environment name value
      = .ok (upsertNamed "value" name value environment) :=
  upsertWith_eq_upsertNamed "value" value environment
    (fun e he => nameLooselyIs_eq coerceEq (h e he) name)

theorem upsertSecret_eq_upsertNamed (name valueFrom : String) {secrets : List Json}
    (h : ∀ e ∈ secrets, e ≠ .null) :
    upsertSecret secrets name valueFrom
      = .ok (upsertNamed "valueFrom" name valueFrom secrets) :=
  upsertWith_eq_upsertNamed "valueFrom" valueFrom secrets (fun e he => nameIs_eq (h e he) name)

/-! ## From the loop over `containerDef` to a loop over the array -/

theorem envLine_eq (coerceEq : Json → String → Option Bool) {t : Target} {environment : List Json}
    (h : t.get "environment" = some (.arr environment)) (line : String) :
    envLine coerceEq t line
      = (envStep coerceEq environment line).map (fun m => t.set "environment" (.arr m)) := by
  unfold envLine envStep
  cases hp : parseEnvLine line with
  | error err => rfl
  | ok r =>
    cases r with
    | none => simp [Except.map, Target.set_of_get h]
    | some nv =>
      obtain ⟨name, value⟩ := nv
      simp only [h]
      cases upsertEnv coerceEq environment name value <;> rfl

theorem secretLine_eq {t : Target} {secrets : List Json}
    (h : t.get "secrets" = some (.arr secrets)) (line : String) :
    secretLine t line = (secretStep secrets line).map (fun m => t.set "secrets" (.arr m)) := by
  unfold secretLine secretStep
  cases hp : parseSecretLine line with
  | error err => rfl
  | ok r =>
    cases r with
    | none => simp [Except.map, Target.set_of_get h]
    | some nv =>
      obtain ⟨name, value⟩ := nv
      simp only [h]
      cases upsertSecret secrets name value <;> rfl

/-- A loop whose iterations read and write one array-valued property of the target
is the loop over that array. -/
theorem foldlM_field {key : String} {f : Target → String → Except Err Target}
    {g : List Json → String → Except Err (List Json)}
    (hfg : ∀ (t : Target) (entries : List Json) (line : String),
      t.get key = some (.arr entries) →
        f t line = (g entries line).map (fun m => t.set key (.arr m)))
    (lines : List String) (t : Target) (entries : List Json)
    (h : t.get key = some (.arr entries)) :
    lines.foldlM f t = (lines.foldlM g entries).map (fun m => t.set key (.arr m)) := by
  induction lines generalizing t entries with
  | nil => simp [Except.map, pure, Except.pure, Target.set_of_get h]
  | cons line rest ih =>
    simp only [List.foldlM_cons, hfg t entries line h]
    cases hg : g entries line with
    | error err => rfl
    | ok m =>
      simp only [Except.map, bind, Except.bind]
      rw [ih (t.set key (.arr m)) m (Target.get_set_self h _)]
      cases rest.foldlM g m with
      | error err => rfl
      | ok m2 => simp [Except.map, Target.set_set]

theorem foldlM_envLine (coerceEq : Json → String → Option Bool) (lines : List String) {t : Target}
    {environment : List Json} (h : t.get "environment" = some (.arr environment)) :
    lines.foldlM (envLine coerceEq) t
      = (lines.foldlM (envStep coerceEq) environment).map
          (fun m => t.set "environment" (.arr m)) :=
  foldlM_field (fun _ _ line ht => envLine_eq coerceEq ht line) lines t environment h

theorem foldlM_secretLine (lines : List String) {t : Target} {secrets : List Json}
    (h : t.get "secrets" = some (.arr secrets)) :
    lines.foldlM secretLine t
      = (lines.foldlM secretStep secrets).map (fun m => t.set "secrets" (.arr m)) :=
  foldlM_field (fun _ _ line ht => secretLine_eq ht line) lines t secrets h

/-- The environment merge of a record, as a loop over its `environment` array. -/
theorem mergeEnvironment_record (coerceEq : Json → String → Option Bool) (kvs : List (String × Json))
    (spec : String) :
    mergeEnvironment coerceEq (.record kvs) spec
      = if spec = "" then .ok (.record kvs)
        else ((split spec '\n').foldlM (envStep coerceEq) (fieldEntries "environment" kvs)).map
          (fun m => .record (setKey "environment" (.arr m) kvs)) := by
  unfold mergeEnvironment
  by_cases hs : spec = ""
  · simp [hs]
  · simp only [hs, if_false]
    cases hl : lookup "environment" kvs with
    | none =>
      have hg : (Target.record (setKey "environment" (.arr []) kvs)).get "environment"
          = some (.arr []) := by simp [Target.get, lookup_setKey_self]
      simp only [Target.get, hl, Target.set, fieldEntries]
      rw [foldlM_envLine coerceEq _ hg]
      simp [Target.set, setKey_setKey]
    | some v =>
      cases v with
      | arr entries =>
        have hg : (Target.record kvs).get "environment" = some (.arr entries) := hl
        simp only [Target.get, hl, fieldEntries]
        rw [foldlM_envLine coerceEq _ hg]
        simp [Target.set]
      | _ =>
        have hg : (Target.record (setKey "environment" (.arr []) kvs)).get "environment"
            = some (.arr []) := by simp [Target.get, lookup_setKey_self]
        simp only [Target.get, hl, Target.set, fieldEntries]
        rw [foldlM_envLine coerceEq _ hg]
        simp [Target.set, setKey_setKey]

/-- The secret merge of a record whose `secrets` is missing, falsy or an array, as a
loop over that array. -/
theorem mergeSecrets_record (kvs : List (String × Json)) (spec : String)
    (h : ∀ v, lookup "secrets" kvs = some v → truthy v = false ∨ ∃ entries, v = .arr entries) :
    mergeSecrets (.record kvs) spec
      = if spec = "" then .ok (.record kvs)
        else ((split spec '\n').foldlM secretStep (fieldEntries "secrets" kvs)).map
          (fun m => .record (setKey "secrets" (.arr m) kvs)) := by
  unfold mergeSecrets
  by_cases hs : spec = ""
  · simp [hs]
  · simp only [hs, if_false]
    have key : ∀ entries : List Json,
        (split spec '\n').foldlM secretLine (.record (setKey "secrets" (.arr entries) kvs))
          = ((split spec '\n').foldlM secretStep entries).map
              (fun m => .record (setKey "secrets" (.arr m) kvs)) := by
      intro entries
      have hg : (Target.record (setKey "secrets" (.arr entries) kvs)).get "secrets"
          = some (.arr entries) := by simp [Target.get, lookup_setKey_self]
      rw [foldlM_secretLine _ hg]
      simp [Target.set, setKey_setKey]
    cases hl : lookup "secrets" kvs with
    | none => simpa [Target.get, hl, Target.set, fieldEntries] using key []
    | some v =>
      rcases h v hl with hv | ⟨entries, rfl⟩
      · have hne : ∀ entries, v ≠ .arr entries := by
          rintro entries rfl
          simp [truthy] at hv
        have hf : fieldEntries "secrets" kvs = [] := by
          simp only [fieldEntries, hl]
          cases v <;> simp_all
        simpa [Target.get, hl, Target.set, hv, hf] using key []
      · simpa [Target.get, hl, Target.set, fieldEntries, truthy] using key entries

/-! ## What the merges leave alone -/

theorem foldlM_frame {key : String} {f : Target → String → Except Err Target}
    (hf : ∀ (t : Target) (line : String) (t1 : Target),
      f t line = .ok t1 → t1 = t ∨ ∃ v, t1 = t.set key v)
    (lines : List String) (t t1 : Target) (h : lines.foldlM f t = .ok t1) :
    t1 = t ∨ ∃ v, t1 = t.set key v := by
  induction lines generalizing t with
  | nil =>
    simp only [List.foldlM_nil, pure, Except.pure, Except.ok.injEq] at h
    exact Or.inl h.symm
  | cons line rest ih =>
    simp only [List.foldlM_cons, bind, Except.bind] at h
    cases hl : f t line with
    | error err => simp [hl] at h
    | ok t2 =>
      simp only [hl] at h
      rcases hf t line t2 hl with rfl | ⟨v, rfl⟩
      · exact ih _ h
      · rcases ih _ h with rfl | ⟨w, rfl⟩
        · exact Or.inr ⟨v, rfl⟩
        · exact Or.inr ⟨w, Target.set_set _ _ _ _⟩

theorem envLine_frame (coerceEq : Json → String → Option Bool) (t : Target) (line : String)
    (t1 : Target) (h : envLine coerceEq t line = .ok t1) :
    t1 = t ∨ ∃ v, t1 = t.set "environment" v := by
  unfold envLine at h
  split at h
  · simp at h
  · simp only [Except.ok.injEq] at h
    exact Or.inl h.symm
  · split at h
    · split at h
      · simp at h
      · simp only [Except.ok.injEq] at h
        exact Or.inr ⟨_, h.symm⟩
    · simp at h

theorem secretLine_frame (t : Target) (line : String) (t1 : Target)
    (h : secretLine t line = .ok t1) : t1 = t ∨ ∃ v, t1 = t.set "secrets" v := by
  unfold secretLine at h
  split at h
  · simp at h
  · simp only [Except.ok.injEq] at h
    exact Or.inl h.symm
  · split at h
    · split at h
      · simp at h
      · simp only [Except.ok.injEq] at h
        exact Or.inr ⟨_, h.symm⟩
    · simp at h

theorem mergeEnvironment_frame {coerceEq : Json → String → Option Bool} {t t1 : Target}
    {spec : String} (h : mergeEnvironment coerceEq t spec = .ok t1) :
    t1 = t ∨ ∃ v, t1 = t.set "environment" v := by
  unfold mergeEnvironment at h
  by_cases hs : spec = ""
  · simp only [hs, if_true, Except.ok.injEq] at h
    exact Or.inl h.symm
  · simp only [hs, if_false] at h
    rcases foldlM_frame (envLine_frame coerceEq) _ _ _ h with h1 | ⟨v, h1⟩
    · rw [h1]
      split
      · exact Or.inl rfl
      · exact Or.inr ⟨_, rfl⟩
    · rw [h1]
      split
      · exact Or.inr ⟨_, rfl⟩
      · exact Or.inr ⟨v, Target.set_set _ _ _ _⟩

theorem mergeSecrets_frame {t t1 : Target} {spec : String}
    (h : mergeSecrets t spec = .ok t1) : t1 = t ∨ ∃ v, t1 = t.set "secrets" v := by
  unfold mergeSecrets at h
  by_cases hs : spec = ""
  · simp only [hs, if_true, Except.ok.injEq] at h
    exact Or.inl h.symm
  · simp only [hs, if_false] at h
    rcases foldlM_frame secretLine_frame _ _ _ h with h1 | ⟨v, h1⟩
    · exact Or.inr ⟨_, h1⟩
    · exact Or.inr ⟨v, by rw [h1, Target.set_set]⟩

/-! ## The search `find` -/

theorem find_some {p : Json → Except Err Bool} {xs : List Json} {i : Nat} {e : Json}
    (h : find p xs = .ok (some (i, e))) :
    xs[i]? = some e ∧ p e = .ok true ∧ ∀ j, j < i → ∃ x, xs[j]? = some x ∧ p x = .ok false := by
  induction xs generalizing i with
  | nil => simp [find] at h
  | cons x rest ih =>
    unfold find at h
    cases hp : p x with
    | error err => simp [hp] at h
    | ok b =>
      cases b with
      | true =>
        simp only [hp, Except.ok.injEq, Option.some.injEq, Prod.mk.injEq] at h
        obtain ⟨rfl, rfl⟩ := h
        exact ⟨by simp, hp, fun j hj => absurd hj (Nat.not_lt_zero j)⟩
      | false =>
        simp only [hp] at h
        cases hf : find p rest with
        | error err => simp [hf] at h
        | ok r =>
          cases r with
          | none => simp [hf] at h
          | some kx =>
            obtain ⟨k, y⟩ := kx
            simp only [hf, Except.ok.injEq, Option.some.injEq, Prod.mk.injEq] at h
            obtain ⟨rfl, rfl⟩ := h
            obtain ⟨h1, h2, h3⟩ := ih hf
            refine ⟨by simpa using h1, h2, ?_⟩
            intro j hj
            cases j with
            | zero => exact ⟨x, by simp, hp⟩
            | succ j =>
              obtain ⟨y, hy1, hy2⟩ := h3 j (Nat.lt_of_succ_lt_succ hj)
              exact ⟨y, by simpa using hy1, hy2⟩

theorem find_none {p : Json → Except Err Bool} {xs : List Json} :
    find p xs = .ok none ↔ ∀ x ∈ xs, p x = .ok false := by
  induction xs with
  | nil => simp [find]
  | cons x rest ih =>
    unfold find
    cases hp : p x with
    | error err => simp [hp]
    | ok b =>
      cases b with
      | true => simp [hp]
      | false =>
        cases hf : find p rest with
        | error err =>
          simp only [hf, false_iff, reduceCtorEq] at ih ⊢
          intro hall
          exact ih (fun y hy => hall y (List.mem_cons_of_mem _ hy))
        | ok r =>
          cases r with
          | none =>
            simp only [hf, true_iff] at ih
            simpa [hp] using ih
          | some kx =>
            simp only [hf, false_iff, reduceCtorEq, Except.ok.injEq] at ih ⊢
            intro hall
            exact ih (fun y hy => hall y (List.mem_cons_of_mem _ hy))

theorem find_total {p : Json → Except Err Bool} {xs : List Json}
    (h : ∀ x ∈ xs, ∃ b, p x = .ok b) : ∃ r, find p xs = .ok r := by
  induction xs with
  | nil => exact ⟨none, rfl⟩
  | cons x rest ih =>
    obtain ⟨b, hb⟩ := h x (List.mem_cons_self _ _)
    obtain ⟨r, hr⟩ := ih (fun y hy => h y (List.mem_cons_of_mem _ hy))
    unfold find
    cases b with
    | true => exact ⟨some (0, x), by simp [hb]⟩
    | false =>
      cases r with
      | none => exact ⟨none, by simp [hb, hr]⟩
      | some kx => exact ⟨some (kx.1 + 1, kx.2), by simp [hb, hr]⟩

theorem nameIs_true {name : String} {e : Json} (h : nameIs name e = .ok true) :
    ∃ kvs, e = .obj kvs ∧ lookup "name" kvs = some (.str name) := by
  have he : e ≠ .null := by
    rintro rfl
    simp [nameIs, getProp] at h
  rw [nameIs_eq he] at h
  simp only [Except.ok.injEq, decide_eq_true_eq] at h
  exact entryName_some h

theorem stringOf_eq_some {x : Option Json} {name : String} :
    stringOf x = some name ↔ x = some (.str name) := by
  cases x with
  | none => simp [stringOf]
  | some v => cases v <;> simp [stringOf]

theorem nameIs_obj_true {name : String} {kvs : List (String × Json)} :
    nameIs name (.obj kvs) = .ok true ↔ lookup "name" kvs = some (.str name) := by
  rw [nameIs_eq (by simp)]
  simp [entryName, stringOf_eq_some]

theorem nameIs_obj_false {name : String} {kvs : List (String × Json)} :
    nameIs name (.obj kvs) = .ok false ↔ lookup "name" kvs ≠ some (.str name) := by
  rw [nameIs_eq (by simp)]
  simp [entryName, stringOf_eq_some]

/-! ## Container resolution -/

theorem Target.truthy_set (t : Target) (key : String) (v : Json) :
    (t.set key v).truthy = t.truthy := by
  cases t <;> rfl

theorem resolveContainer_of_found {cds : List Json} {containerName : String} {i : Nat}
    {e : Json} (h : find (nameIs containerName) cds = .ok (some (i, e))) :
    ∃ kvs, e = .obj kvs ∧ lookup "name" kvs = some (.str containerName)
      ∧ resolveContainer cds containerName = .ok (i, .record kvs) := by
  obtain ⟨kvs, rfl, hn⟩ := nameIs_true (find_some h).2.1
  refine ⟨kvs, rfl, hn, ?_⟩
  simp [resolveContainer, h, toTarget, Target.truthy]

theorem resolveContainer_of_error {cds : List Json} {containerName : String} {err : Err}
    (h : find (nameIs containerName) cds = .error err) :
    resolveContainer cds containerName = .error err := by
  simp [resolveContainer, h]

theorem resolveContainer_single {containerName : String} {e : Json}
    (h : find (nameIs containerName) [e] = .ok none) :
    resolveContainer [e] containerName
      = match getProp e "name" with
        | .error err => .error err
        | .ok none =>
          if (toTarget e).truthy then .ok (0, (toTarget e).set "name" (.str containerName))
          else .error .notFound
        | .ok (some _) => .error .notFound := by
  simp only [resolveContainer, h, Option.map_none']
  cases hg : getProp e "name" with
  | error err => rfl
  | ok r =>
    cases r with
    | none => simp [Target.truthy_set]
    | some v => rfl

theorem resolveContainer_of_none {cds : List Json} {containerName : String}
    (h : find (nameIs containerName) cds = .ok none) (hlen : cds.length ≠ 1) :
    resolveContainer cds containerName = .error .notFound := by
  simp only [resolveContainer, h, Option.map_none']
  cases cds with
  | nil => rfl
  | cons a rest =>
    cases rest with
    | nil => simp at hlen
    | cons b rest2 => rfl

/-- How a successful resolution came about: by name (line 29), or by the fallback of
lines 32-35 on a single element without a name. -/
theorem resolveContainer_ok {cds : List Json} {containerName : String} {i : Nat} {t : Target}
    (h : resolveContainer cds containerName = .ok (i, t)) :
    (∃ kvs, find (nameIs containerName) cds = .ok (some (i, .obj kvs)) ∧ t = .record kvs
        ∧ lookup "name" kvs = some (.str containerName)) ∨
    (∃ e, find (nameIs containerName) cds = .ok none ∧ cds = [e] ∧ i = 0
        ∧ getProp e "name" = .ok none ∧ t = (toTarget e).set "name" (.str containerName)) := by
  cases hf : find (nameIs containerName) cds with
  | error err => simp [resolveContainer_of_error hf] at h
  | ok r =>
    cases r with
    | some ie =>
      obtain ⟨k, e⟩ := ie
      obtain ⟨kvs, rfl, hn, hr⟩ := resolveContainer_of_found hf
      rw [hr] at h
      simp only [Except.ok.injEq, Prod.mk.injEq] at h
      obtain ⟨rfl, rfl⟩ := h
      exact Or.inl ⟨kvs, rfl, rfl, hn⟩
    | none =>
      by_cases hlen : cds.length = 1
      · obtain ⟨e, rfl⟩ := List.length_eq_one.mp hlen
        rw [resolveContainer_single hf] at h
        cases hg : getProp e "name" with
        | error err => simp [hg] at h
        | ok r =>
          cases r with
          | some v => simp [hg] at h
          | none =>
            simp only [hg] at h
            split at h
            · simp only [Except.ok.injEq, Prod.mk.injEq] at h
              exact Or.inr ⟨e, rfl, rfl, h.1.symm, hg, h.2.symm⟩
            · simp at h
      · simp [resolveContainer_of_none hf hlen] at h

/-- Inversion of a successful run into its stages. -/
theorem run_ok {coerceEq : Json → String → Option Bool} {doc result : Json}
    {containerName imageURI environmentVariables secretVariables : String}
    (h : run coerceEq doc containerName imageURI environmentVariables secretVariables
      = .ok result) :
    ∃ kvs cds i t t1 t2, doc = .obj kvs ∧ lookup "containerDefinitions" kvs = some (.arr cds)
      ∧ resolveContainer cds containerName = .ok (i, t)
      ∧ mergeEnvironment coerceEq (t.set "image" (.str imageURI)) environmentVariables = .ok t1
      ∧ mergeSecrets t1 secretVariables = .ok t2
      ∧ result = .obj (setKey "containerDefinitions" (.arr (cds.set i t2.toJson)) kvs) := by
  unfold run at h
  split at h
  · simp at h
  · next c cs hg =>
    cases doc with
    | obj kvs =>
      simp only [getProp, Except.ok.injEq] at hg
      split at h
      · simp at h
      · next i t hr =>
        split at h
        · simp at h
        · next t1 h1 =>
          split at h
          · simp at h
          · next t2 h2 =>
            simp only [Except.ok.injEq] at h
            exact ⟨kvs, c :: cs, i, t, t1, t2, rfl, hg, hr, h1, h2, by rw [← h]; rfl⟩
    | _ => simp [getProp] at hg
  · simp at h

/-- A run over a record document with a non-empty `containerDefinitions` array, as
the composition of its stages. -/
theorem run_obj (coerceEq : Json → String → Option Bool) {kvs : List (String × Json)}
    {cds : List Json} (hl : lookup "containerDefinitions" kvs = some (.arr cds))
    (hne : cds ≠ []) (containerName imageURI environmentVariables secretVariables : String) :
    run coerceEq (.obj kvs) containerName imageURI environmentVariables secretVariables
      = match resolveContainer cds containerName with
        | .error err => .error err
        | .ok (i, t) =>
          match mergeEnvironment coerceEq (t.set "image" (.str imageURI))
              environmentVariables with
          | .error err => .error err
          | .ok t1 =>
            match mergeSecrets t1 secretVariables with
            | .error err => .error err
            | .ok t2 =>
              .ok (.obj (setKey "containerDefinitions" (.arr (cds.set i t2.toJson)) kvs)) := by
  cases cds with
  | nil => exact absurd rfl hne
  | cons c cs =>
    simp only [run, getProp, hl]
    rfl

/-! ## Which stage raises which failure -/

theorem find_error {p : Json → Except Err Bool} {xs : List Json} {err : Err}
    (h : find p xs = .error err) : ∃ x ∈ xs, p x = .error err := by
  induction xs with
  | nil => simp [find] at h
  | cons x rest ih =>
    unfold find at h
    cases hp : p x with
    | error e2 =>
      simp only [hp, Except.error.injEq] at h
      exact ⟨x, List.mem_cons_self _ _, by rw [hp, h]⟩
    | ok b =>
      cases b with
      | true => simp [hp] at h
      | false =>
        simp only [hp] at h
        cases hf : find p rest with
        | error e2 =>
          simp only [hf, Except.error.injEq] at h
          obtain ⟨y, hy, hpy⟩ := ih (by rw [hf, h])
          exact ⟨y, List.mem_cons_of_mem _ hy, hpy⟩
        | ok r => cases r <;> simp [hf] at h

theorem getProp_error {v : Json} {key : String} {err : Err} (h : getProp v key = .error err) :
    v = .null ∧ err = .typeError := by
  cases v <;> simp_all [getProp]

theorem nameIs_error {name : String} {e : Json} {err : Err} (h : nameIs name e = .error err) :
    e = .null ∧ err = .typeError := by
  unfold nameIs at h
  cases hg : getProp e "name" with
  | error e2 =>
    simp only [hg, Except.error.injEq] at h
    obtain ⟨h1, h2⟩ := getProp_error hg
    exact ⟨h1, by rw [← h, h2]⟩
  | ok r => simp [hg] at h

theorem looseEqStr_error {coerceEq : Json → String → Option Bool} {x : Option Json}
    {name : String} {err : Err} (h : looseEqStr coerceEq x name = .error err) :
    err = .typeError := by
  unfold looseEqStr at h
  split at h
  · simp at h
  · simp at h
  · simp at h
  · split at h
    · simp at h
    · simp only [Except.error.injEq] at h
      exact h.symm

theorem nameLooselyIs_error {coerceEq : Json → String → Option Bool} {name : String} {e : Json}
    {err : Err} (h : nameLooselyIs coerceEq name e = .error err) : err = .typeError := by
  unfold nameLooselyIs at h
  cases hg : getProp e "name" with
  | error e2 =>
    simp only [hg, Except.error.injEq] at h
    obtain ⟨-, h2⟩ := getProp_error hg
    rw [← h, h2]
  | ok r =>
    simp only [hg] at h
    exact looseEqStr_error h

theorem resolveContainer_error {cds : List Json} {containerName : String} {err : Err}
    (h : resolveContainer cds containerName = .error err) :
    err = .typeError ∨ err = .notFound := by
  cases hf : find (nameIs containerName) cds with
  | error e2 =>
    rw [resolveContainer_of_error hf] at h
    obtain ⟨x, -, hx⟩ := find_error hf
    simp only [Except.error.injEq] at h
    exact Or.inl (h ▸ (nameIs_error hx).2)
  | ok r =>
    cases r with
    | some ie =>
      obtain ⟨kvs, -, -, hr⟩ := resolveContainer_of_found (i := ie.1) (e := ie.2) hf
      simp [hr] at h
    | none =>
      by_cases hlen : cds.length = 1
      · obtain ⟨e, rfl⟩ := List.length_eq_one.mp hlen
        rw [resolveContainer_single hf] at h
        cases hg : getProp e "name" with
        | error e2 =>
          simp only [hg, Except.error.injEq] at h
          exact Or.inl (h ▸ (getProp_error hg).2)
        | ok r =>
          cases r with
          | some v =>
            simp only [hg, Except.error.injEq] at h
            exact Or.inr h.symm
          | none =>
            simp only [hg] at h
            split at h
            · simp at h
            · simp only [Except.error.injEq] at h
              exact Or.inr h.symm
      · rw [resolveContainer_of_none hf hlen] at h
        simp only [Except.error.injEq] at h
        exact Or.inr h.symm

theorem parseEnvLine_error {line : String} {err : Err} (h : parseEnvLine line = .error err) :
    err = .envParse (trim line) := by
  unfold parseEnvLine at h
  simp only at h
  split at h
  · simp at h
  · split at h
    · simp only [Except.error.injEq] at h
      exact h.symm
    · simp at h

theorem parseSecretLine_error {line : String} {err : Err}
    (h : parseSecretLine line = .error err) : err = .secretParse (trim line) := by
  unfold parseSecretLine at h
  simp only at h
  split at h
  · simp at h
  · split at h
    · simp only [Except.error.injEq] at h
      exact h.symm
    · simp at h

theorem upsertWith_error {p : Json → Except Err Bool} {valueKey name value : String}
    {entries : List Json} {err : Err}
    (h : upsertWith p valueKey name value entries = .error err) :
    ∃ x ∈ entries, p x = .error err := by
  unfold upsertWith at h
  cases hf : find p entries with
  | error e2 =>
    simp only [hf, Except.error.injEq] at h
    exact h ▸ find_error hf
  | ok r =>
    cases r with
    | none => simp [hf] at h
    | some ie =>
      simp only [hf] at h
      split at h <;> simp at h

theorem envLine_error {coerceEq : Json → String → Option Bool} {t : Target} {line : String}
    {err : Err} (h : envLine coerceEq t line = .error err) :
    err = .typeError ∨ err = .envParse (trim line) := by
  unfold envLine at h
  cases hp : parseEnvLine line with
  | error e2 =>
    simp only [hp, Except.error.injEq] at h
    exact Or.inr (h ▸ parseEnvLine_error hp)
  | ok r =>
    cases r with
    | none => simp [hp] at h
    | some nv =>
      simp only [hp] at h
      split at h
      · next environment hg =>
        cases hu : upsertEnv coerceEq environment nv.1 nv.2 with
        | error e2 =>
          simp only [hu, Except.error.injEq] at h
          rw [upsertEnv_eq_upsertWith] at hu
          obtain ⟨x, -, hx⟩ := upsertWith_error hu
          exact Or.inl (h ▸ nameLooselyIs_error hx)
        | ok m => simp [hu] at h
      · simp only [Except.error.injEq] at h
        exact Or.inl h.symm

theorem secretLine_error {t : Target} {line : String} {err : Err}
    (h : secretLine t line = .error err) :
    err = .typeError ∨ err = .secretParse (trim line) := by
  unfold secretLine at h
  cases hp : parseSecretLine line with
  | error e2 =>
    simp only [hp, Except.error.injEq] at h
    exact Or.inr (h ▸ parseSecretLine_error hp)
  | ok r =>
    cases r with
    | none => simp [hp] at h
    | some nv =>
      simp only [hp] at h
      split at h
      · next secrets hg =>
        cases hu : upsertSecret secrets nv.1 nv.2 with
        | error e2 =>
          simp only [hu, Except.error.injEq] at h
          rw [upsertSecret_eq_upsertWith] at hu
          obtain ⟨x, -, hx⟩ := upsertWith_error hu
          exact Or.inl (h ▸ (nameIs_error hx).2)
        | ok m => simp [hu] at h
      · simp only [Except.error.injEq] at h
        exact Or.inl h.symm

theorem foldlM_error {σ : Type} {f : σ → String → Except Err σ} {lines : List String}
    {s : σ} {err : Err} (h : lines.foldlM f s = .error err) :
    ∃ s1, ∃ line ∈ lines, f s1 line = .error err := by
  induction lines generalizing s with
  | nil => simp [pure, Except.pure] at h
  | cons line rest ih =>
    simp only [List.foldlM_cons, bind, Except.bind] at h
    cases hl : f s line with
    | error e2 =>
      simp only [hl, Except.error.injEq] at h
      exact ⟨s, line, List.mem_cons_self _ _, by rw [hl, h]⟩
    | ok s2 =>
      simp only [hl] at h
      obtain ⟨s1, l, hl1, hl2⟩ := ih h
      exact ⟨s1, l, List.mem_cons_of_mem _ hl1, hl2⟩

theorem mergeEnvironment_error {coerceEq : Json → String → Option Bool} {t : Target}
    {spec : String}
    {err : Err} (h : mergeEnvironment coerceEq t spec = .error err) :
    err = .typeError ∨ ∃ line, err = .envParse line := by
  unfold mergeEnvironment at h
  split at h
  · simp at h
  · obtain ⟨s1, line, -, hl⟩ := foldlM_error h
    rcases envLine_error hl with h1 | h1
    · exact Or.inl h1
    · exact Or.inr ⟨_, h1⟩

theorem mergeSecrets_error {t : Target} {spec : String} {err : Err}
    (h : mergeSecrets t spec = .error err) :
    err = .typeError ∨ ∃ line, err = .secretParse line := by
  unfold mergeSecrets at h
  split at h
  · simp at h
  · obtain ⟨s1, line, -, hl⟩ := foldlM_error h
    rcases secretLine_error hl with h1 | h1
    · exact Or.inl h1
    · exact Or.inr ⟨_, h1⟩

/-! ## The edited target -/

/-- After both merges the target is the one with the image set, up to the values of
`environment` and `secrets`. -/
theorem merges_frame {coerceEq : Json → String → Option Bool} {t0 t1 t2 : Target}
    {environmentVariables secretVariables : String}
    (h1 : mergeEnvironment coerceEq t0 environmentVariables = .ok t1)
    (h2 : mergeSecrets t1 secretVariables = .ok t2) :
    (∀ key, key ≠ "environment" → key ≠ "secrets" → t2.get key = t0.get key)
      ∧ (∀ key, key ≠ "environment" → key ≠ "secrets" →
          getProp t2.toJson key = getProp t0.toJson key)
      ∧ (∀ kvs, t0 = .record kvs → ∃ kvs2, t2 = .record kvs2)
      ∧ ((∀ kvs, t0 ≠ .record kvs) → t2.toJson = t0.toJson) := by
  have step : ∀ (key : String) (a b : Target), (b = a ∨ ∃ v, b = a.set key v) →
      (∀ other, other ≠ key → b.get other = a.get other)
        ∧ (∀ other, other ≠ key → getProp b.toJson other = getProp a.toJson other)
        ∧ (∀ kvs, a = .record kvs → ∃ kvs2, b = .record kvs2)
        ∧ ((∀ kvs, a ≠ .record kvs) → b.toJson = a.toJson ∧ ∀ kvs, b ≠ .record kvs) := by
    intro key a b hab
    rcases hab with rfl | ⟨v, rfl⟩
    · exact ⟨fun _ _ => rfl, fun _ _ => rfl, fun kvs hk => ⟨kvs, hk⟩, fun hn => ⟨rfl, hn⟩⟩
    · refine ⟨fun other ho => Target.get_set_ne a ho v,
        fun other ho => Target.getProp_toJson_set_ne a ho v, ?_, ?_⟩
      · rintro kvs rfl
        exact ⟨_, rfl⟩
      · intro hn
        cases a with
        | record kvs => exact absurd rfl (hn kvs)
        | array xs props => exact ⟨rfl, fun kvs hk => by simp [Target.set] at hk⟩
        | prim p => exact ⟨rfl, fun kvs hk => by simp [Target.set] at hk⟩
  obtain ⟨a1, a2, a3, a4⟩ := step "environment" t0 t1 (mergeEnvironment_frame h1)
  obtain ⟨b1, b2, b3, b4⟩ := step "secrets" t1 t2 (mergeSecrets_frame h2)
  refine ⟨fun key he hs => (b1 key hs).trans (a1 key he),
    fun key he hs => (b2 key hs).trans (a2 key he), ?_, ?_⟩
  · intro kvs hk
    obtain ⟨kvs1, hk1⟩ := a3 kvs hk
    exact b3 kvs1 hk1
  · intro hn
    obtain ⟨c1, c2⟩ := a4 hn
    exact (b4 c2).1.trans c1

theorem getElem?_set_toJson {cds : List Json} {i : Nat} (hi : i < cds.length) (v : Json) :
    (cds.set i v).length = cds.length ∧ (cds.set i v)[i]? = some v
      ∧ ∀ j, j ≠ i → (cds.set i v)[j]? = cds[j]? := by
  refine ⟨by simp, by simp [hi], ?_⟩
  intro j hj
  simp [List.getElem?_set, Ne.symm hj]

theorem lt_length_of_getElem? {α : Type} {l : List α} {i : Nat} {a : α} (h : l[i]? = some a) :
    i < l.length := by
  by_contra hcon
  rw [List.getElem?_eq_none (Nat.le_of_not_lt hcon)] at h
  simp at h

/-! ## Parsing a line -/

theorem not_mem_trim {c : Char} {s : String} (h : c ∉ s.data) : c ∉ (trim s).data := by
  intro hc
  apply h
  unfold trim at hc
  have h1 : c ∈ s.data.dropWhile isWhiteSpace :=
    (List.rdropWhile_prefix _ _).subset hc
  exact (List.dropWhile_suffix _).subset h1

theorem isBlank_eq_false {line : String} :
    isBlank line = false ↔ (trim line).length ≠ 0 := by
  simp [isBlank]

theorem isBlank_of_mem {line : String} (h : '=' ∈ line.data) : isBlank line = false := by
  rw [isBlank_eq_false]
  have := mem_trim_of_mem isWhiteSpace_eq h
  intro h0
  have h1 : (trim line).data = [] := List.length_eq_zero.mp h0
  rw [h1] at this
  simp at this

theorem parseEnvLine_blank {line : String} (h : isBlank line = true) :
    parseEnvLine line = .ok none := by
  simp only [isBlank, decide_eq_true_eq] at h
  simp [parseEnvLine, h]

theorem parseSecretLine_blank {line : String} (h : isBlank line = true) :
    parseSecretLine line = .ok none := by
  simp only [isBlank, decide_eq_true_eq] at h
  simp [parseSecretLine, h]

theorem parseEnvLine_of_mem {line : String} (h : '=' ∈ line.data) :
    ∃ i, indexOf (trim line) '=' = some i
      ∧ parseEnvLine line
        = .ok (some (substringTo (trim line) i, substringFrom (trim line) (i + 1))) := by
  have hb := isBlank_eq_false.mp (isBlank_of_mem h)
  have hm := mem_trim_of_mem isWhiteSpace_eq h
  cases hi : indexOf (trim line) '=' with
  | none => exact absurd hm (indexOfList_eq_none.mp hi)
  | some i => exact ⟨i, rfl, by simp [parseEnvLine, hb, hi]⟩

theorem parseSecretLine_of_mem {line : String} (h : '=' ∈ line.data) :
    ∃ i, indexOf (trim line) '=' = some i
      ∧ parseSecretLine line
        = .ok (some (trim (substringTo (trim line) i),
            trim (substringFrom (trim line) (i + 1)))) := by
  have hb := isBlank_eq_false.mp (isBlank_of_mem h)
  have hm := mem_trim_of_mem isWhiteSpace_eq h
  cases hi : indexOf (trim line) '=' with
  | none => exact absurd hm (indexOfList_eq_none.mp hi)
  | some i => exact ⟨i, rfl, by simp [parseSecretLine, hb, hi]⟩

theorem parseEnvLine_of_not_mem {line : String} (hb : isBlank line = false)
    (h : '=' ∉ line.data) : parseEnvLine line = .error (.envParse (trim line)) := by
  have hi : indexOf (trim line) '=' = none := indexOfList_eq_none.mpr (not_mem_trim h)
  simp [parseEnvLine, isBlank_eq_false.mp hb, hi]

theorem parseSecretLine_of_not_mem {line : String} (hb : isBlank line = false)
    (h : '=' ∉ line.data) : parseSecretLine line = .error (.secretParse (trim line)) := by
  have hi : indexOf (trim line) '=' = none := indexOfList_eq_none.mpr (not_mem_trim h)
  simp [parseSecretLine, isBlank_eq_false.mp hb, hi]

theorem splitList_of_not_mem {sep : Char} {l : List Char} (h : sep ∉ l) :
    splitList sep l = [l] := by
  induction l with
  | nil => rfl
  | cons c cs ih =>
    simp only [List.mem_cons, not_or] at h
    simp [splitList, Ne.symm h.1, ih h.2]

theorem split_of_not_mem {sep : Char} {s : String} (h : sep ∉ s.data) : split s sep = [s] := by
  simp [split, splitList_of_not_mem h]

/-! ## Merges that cannot fault -/

theorem assign_ne_null {e : Json} (h : e ≠ .null) (key : String) (v : Json) :
    assign e key v ≠ .null := by
  cases e <;> simp_all [assign]

theorem upsertWith_total {p : Json → Except Err Bool} (valueKey name value : String)
    {entries : List Json} (hp : ∀ e ∈ entries, ∃ b, p e = .ok b)
    (hnn : ∀ e ∈ entries, e ≠ .null) :
    ∃ m, upsertWith p valueKey name value entries = .ok m ∧ ∀ e ∈ m, e ≠ .null := by
  obtain ⟨r, hr⟩ := find_total hp
  have happ : ∀ e ∈ entries ++ [entry valueKey name value], e ≠ .null := by
    intro e he
    rcases List.mem_append.mp he with h | h
    · exact hnn e h
    · simp only [List.mem_singleton] at h
      subst h
      simp [entry]
  unfold upsertWith
  cases r with
  | none => exact ⟨entries ++ [entry valueKey name value], by simp [hr], happ⟩
  | some ix =>
    obtain ⟨i, x⟩ := ix
    by_cases ht : truthy x = true
    · refine ⟨entries.set i (assign x valueKey (.str value)), by simp [hr, ht], ?_⟩
      intro e he
      rcases List.mem_or_eq_of_mem_set he with h | h
      · exact hnn e h
      · rw [h]
        exact assign_ne_null (hnn x (List.getElem?_mem (find_some hr).1)) _ _
    · exact ⟨entries ++ [entry valueKey name value], by simp [hr, ht], happ⟩

theorem nameLooselyIs_total (coerceEq : Json → String → Option Bool) {e : Json}
    (h : plainName e = true) (name : String) : ∃ b, nameLooselyIs coerceEq name e = .ok b :=
  ⟨_, nameLooselyIs_eq coerceEq h name⟩

theorem nameLooselyIs_assign (coerceEq : Json → String → Option Bool) (name : String)
    (e x : Json) :
    nameLooselyIs coerceEq name (assign e "value" x) = nameLooselyIs coerceEq name e := by
  cases e with
  | obj kvs =>
    simp [nameLooselyIs, assign, getProp, lookup_setKey_ne (show "name" ≠ "value" by decide)]
  | _ => rfl

theorem nameLooselyIs_entry (coerceEq : Json → String → Option Bool)
    (other name value : String) :
    nameLooselyIs coerceEq other (entry "value" name value) = .ok (decide (name = other)) := by
  simp [nameLooselyIs, entry, getProp, lookup, looseEqStr]

theorem nameIs_total (name : String) {e : Json} (h : e ≠ .null) :
    ∃ b, nameIs name e = .ok b := by
  cases e <;> simp_all [nameIs, getProp]

/-- One iteration of the environment loop succeeds on a blank or parsable line when the
comparison of line 67 throws on no entry, and the same holds of the entries it leaves. -/
theorem envStep_total (coerceEq : Json → String → Option Bool) {entries : List Json}
    (hcmp : ∀ e ∈ entries, ∀ name, ∃ b, nameLooselyIs coerceEq name e = .ok b)
    {line : String} (hline : isBlank line = true ∨ '=' ∈ line.data) :
    ∃ m, envStep coerceEq entries line = .ok m
      ∧ ∀ e ∈ m, ∀ name, ∃ b, nameLooselyIs coerceEq name e = .ok b := by
  unfold envStep
  rcases hline with h | h
  · exact ⟨entries, by simp [parseEnvLine_blank h], hcmp⟩
  · obtain ⟨i, -, hp⟩ := parseEnvLine_of_mem h
    simp only [hp, upsertEnv_eq_upsertWith]
    generalize substringTo (trim line) i = name
    generalize substringFrom (trim line) (i + 1) = value
    obtain ⟨r, hr⟩ := find_total (fun e he => hcmp e he name)
    have happ : ∀ e ∈ entries ++ [entry "value" name value], ∀ other,
        ∃ b, nameLooselyIs coerceEq other e = .ok b := by
      intro e he other
      rcases List.mem_append.mp he with h1 | h1
      · exact hcmp e h1 other
      · simp only [List.mem_singleton] at h1
        subst h1
        exact ⟨_, nameLooselyIs_entry coerceEq other name value⟩
    unfold upsertWith
    cases r with
    | none => exact ⟨entries ++ [entry "value" name value], by simp [hr], happ⟩
    | some ix =>
      obtain ⟨k, x⟩ := ix
      by_cases ht : truthy x = true
      · refine ⟨entries.set k (assign x "value" (.str value)), by simp [hr, ht], ?_⟩
        intro e he other
        rcases List.mem_or_eq_of_mem_set he with h1 | h1
        · exact hcmp e h1 other
        · rw [h1, nameLooselyIs_assign]
          exact hcmp x (List.getElem?_mem (find_some hr).1) other
      · exact ⟨entries ++ [entry "value" name value], by simp [hr, ht], happ⟩

theorem secretStep_total {entries : List Json} (hnn : ∀ e ∈ entries, e ≠ .null)
    {line : String} (hline : isBlank line = true ∨ '=' ∈ line.data) :
    ∃ m, secretStep entries line = .ok m ∧ ∀ e ∈ m, e ≠ .null := by
  unfold secretStep
  rcases hline with h | h
  · exact ⟨entries, by simp [parseSecretLine_blank h], hnn⟩
  · obtain ⟨i, -, hp⟩ := parseSecretLine_of_mem h
    simp only [hp, upsertSecret_eq_upsertWith]
    exact upsertWith_total _ _ _ (fun e he => nameIs_total _ (hnn e he)) hnn

/-- A loop whose steps succeed on the good lines, keeping an invariant, succeeds. -/
theorem foldlM_total (step : List Json → String → Except Err (List Json))
    (good : String → Prop) (inv : List Json → Prop)
    (hstep : ∀ entries line, inv entries → good line →
      ∃ m, step entries line = .ok m ∧ inv m)
    (lines : List String) (entries : List Json) (hinv : inv entries)
    (hgood : ∀ line ∈ lines, good line) :
    ∃ m, lines.foldlM step entries = .ok m ∧ inv m := by
  induction lines generalizing entries with
  | nil => exact ⟨entries, rfl, hinv⟩
  | cons line rest ih =>
    obtain ⟨m, hm, hinvm⟩ := hstep entries line hinv (hgood line (List.mem_cons_self _ _))
    obtain ⟨m2, hm2, hinv2⟩ := ih m hinvm (fun l hl => hgood l (List.mem_cons_of_mem _ hl))
    exact ⟨m2, by simp [List.foldlM_cons, hm, hm2, bind, Except.bind], hinv2⟩

/-- A loop that succeeds on the lines before `bad` and fails at `bad` fails with
the failure of `bad`. -/
theorem foldlM_fails_at (step : List Json → String → Except Err (List Json))
    (good : String → Prop) (inv : List Json → Prop)
    (hstep : ∀ entries line, inv entries → good line →
      ∃ m, step entries line = .ok m ∧ inv m)
    (bad : String) (err : Err) (hbad : ∀ entries, step entries bad = .error err)
    (before after : List String) (entries : List Json) (hinv : inv entries)
    (hgood : ∀ line ∈ before, good line) :
    (before ++ bad :: after).foldlM step entries = .error err := by
  obtain ⟨m, hm, -⟩ := foldlM_total step good inv hstep before entries hinv hgood
  simp [List.foldlM_append, hm, hbad, bind, Except.bind]

theorem fieldEntries_setKey_ne {key other : String} (h : other ≠ key) (v : Json)
    (kvs : List (String × Json)) :
    fieldEntries other (setKey key v kvs) = fieldEntries other kvs := by
  simp [fieldEntries, lookup_setKey_ne h]

theorem split_ne_of_bad_line {spec bad : String} {before after : List String}
    (hs : split spec '\n' = before ++ bad :: after) (hb : isBlank bad = false) :
    spec ≠ "" := by
  rintro rfl
  have h0 : split "" '\n' = [""] := rfl
  rw [h0] at hs
  cases before with
  | nil =>
    simp only [List.nil_append, List.cons.injEq] at hs
    rw [← hs.1] at hb
    exact absurd hb (by decide)
  | cons b bs =>
    simp only [List.cons_append, List.cons.injEq] at hs
    have := hs.2
    cases bs <;> simp at this

theorem good_of_parsable {spec : String} (h : Parsable spec) :
    ∀ line ∈ split spec '\n', isBlank line = true ∨ '=' ∈ line.data := by
  intro line hl
  cases hb : isBlank line with
  | true => exact Or.inl rfl
  | false => exact Or.inr (h line hl hb)

/-- The environment merge of a record succeeds on a parsable spec when the comparison of
line 67 throws on no entry of an existing `environment` array; it changes `environment`
only. -/
theorem mergeEnvironment_parsable (coerceEq : Json → String → Option Bool)
    {kvs : List (String × Json)} {spec : String}
    (hcmp : ∀ e ∈ fieldEntries "environment" kvs, ∀ name,
      ∃ b, nameLooselyIs coerceEq name e = .ok b)
    (hp : Parsable spec) :
    ∃ kvs1, mergeEnvironment coerceEq (.record kvs) spec = .ok (.record kvs1)
      ∧ ∀ key, key ≠ "environment" → lookup key kvs1 = lookup key kvs := by
  rw [mergeEnvironment_record]
  by_cases hs : spec = ""
  · exact ⟨kvs, by simp [hs], fun _ _ => rfl⟩
  · obtain ⟨m, hm, -⟩ := foldlM_total (envStep coerceEq)
      (fun line => isBlank line = true ∨ '=' ∈ line.data)
      (fun entries => ∀ e ∈ entries, ∀ name, ∃ b, nameLooselyIs coerceEq name e = .ok b)
      (fun entries line hinv hgood => envStep_total coerceEq hinv hgood)
      (split spec '\n') _ hcmp (good_of_parsable hp)
    exact ⟨setKey "environment" (.arr m) kvs, by simp [hs, hm, Except.map],
      fun key hk => lookup_setKey_ne hk _ _⟩


/-! ## First occurrences and last values -/

theorem firstOccurrences_filter (q : String → Bool) (l : List String) :
    firstOccurrences (l.filter q) = (firstOccurrences l).filter q := by
  induction l with
  | nil => rfl
  | cons x rest ih =>
    by_cases hq : q x = true
    · simp only [List.filter_cons, hq, if_true, firstOccurrences, ih]
      congr 1
      simp only [List.filter_filter]
      apply List.filter_congr
      intro y _
      exact Bool.and_comm _ _
    · have hq2 : q x = false := by simpa using hq
      simp only [List.filter_cons, hq2, firstOccurrences, ih, List.filter_filter,
        Bool.false_eq_true, if_false]
      apply List.filter_congr
      intro y _
      by_cases hy : q y = true
      · have : y ≠ x := by
          rintro rfl
          exact hq hy
        simp [hy, this]
      · simp [hy]

theorem mem_firstOccurrences {x : String} {l : List String} :
    x ∈ firstOccurrences l ↔ x ∈ l := by
  induction l with
  | nil => simp [firstOccurrences]
  | cons y rest ih =>
    simp only [firstOccurrences, List.mem_cons, List.mem_filter, ih, decide_eq_true_eq]
    constructor
    · rintro (h | ⟨h, -⟩)
      · exact Or.inl h
      · exact Or.inr h
    · rintro (h | h)
      · exact Or.inl h
      · by_cases hxy : x = y
        · exact Or.inl hxy
        · exact Or.inr ⟨h, hxy⟩

theorem nodup_firstOccurrences (l : List String) : (firstOccurrences l).Nodup := by
  induction l with
  | nil => simp [firstOccurrences]
  | cons y rest ih =>
    simp only [firstOccurrences, List.nodup_cons, List.mem_filter, decide_eq_true_eq]
    exact ⟨fun h => h.2 rfl, ih.filter _⟩

theorem lastValue_eq_none {name : String} {pairs : List (String × String)} :
    lastValue name pairs = none ↔ ∀ p ∈ pairs, p.1 ≠ name := by
  induction pairs with
  | nil => simp [lastValue]
  | cons p rest ih =>
    simp only [lastValue, List.mem_cons, forall_eq_or_imp]
    cases hl : lastValue name rest with
    | some v =>
      simp only [hl, reduceCtorEq, false_iff] at ih ⊢
      exact fun h => ih h.2
    | none =>
      simp only [hl, true_iff] at ih
      by_cases hp : p.1 = name
      · simp [hp]
      · simpa [hp] using ih

theorem lastValue_isSome_of_mem {name : String} {pairs : List (String × String)}
    (h : name ∈ pairs.map Prod.fst) : ∃ v, lastValue name pairs = some v := by
  cases hl : lastValue name pairs with
  | some v => exact ⟨v, rfl⟩
  | none =>
    obtain ⟨p, hp, hpn⟩ := List.mem_map.mp h
    exact absurd hpn (lastValue_eq_none.mp hl p hp)

/-! ## One upsert -/

theorem entryName_assign {key : String} (hk : key ≠ "name") (e v : Json) :
    entryName (assign e key v) = entryName e := by
  cases e with
  | obj kvs => simp [assign, entryName, lookup_setKey_ne (Ne.symm hk)]
  | _ => rfl

theorem assign_assign (e : Json) (key : String) (v w : Json) :
    assign (assign e key v) key w = assign e key w := by
  cases e with
  | obj kvs => simp [assign, setKey_setKey]
  | _ => rfl

theorem entryName_entry (valueKey name value : String) :
    entryName (entry valueKey name value) = some name := by
  simp [entry, entryName, lookup, stringOf]

theorem assign_entry {valueKey : String} (hk : valueKey ≠ "name") (name value w : String) :
    assign (entry valueKey name value) valueKey (.str w) = entry valueKey name w := by
  simp [entry, assign, setKey, Ne.symm hk]

theorem plainName_of_entryName {e : Json} {name : String} (h : entryName e = some name) :
    plainName e = true := by
  obtain ⟨kvs, rfl, hl⟩ := entryName_some h
  simp [plainName, hl]

theorem plainName_assign {key : String} (hk : key ≠ "name") {e : Json}
    (h : plainName e = true) (v : Json) : plainName (assign e key v) = true := by
  cases e with
  | obj kvs => simpa [assign, plainName, lookup_setKey_ne (Ne.symm hk)] using h
  | _ => exact h

theorem plainName_upsertNamed {valueKey : String} (hk : valueKey ≠ "name")
    (name value : String) {entries : List Json} (h : ∀ e ∈ entries, plainName e = true) :
    ∀ e ∈ upsertNamed valueKey name value entries, plainName e = true := by
  induction entries with
  | nil =>
    intro e he
    simp only [upsertNamed, List.mem_singleton] at he
    subst he
    exact plainName_of_entryName (entryName_entry _ _ _)
  | cons x rest ih =>
    intro e he
    by_cases hx : entryName x = some name
    · simp only [upsertNamed, hx, if_true, List.mem_cons] at he
      rcases he with rfl | he
      · exact plainName_assign hk (h x (List.mem_cons_self _ _)) _
      · exact h e (List.mem_cons_of_mem _ he)
    · simp only [upsertNamed, hx, if_false, List.mem_cons] at he
      rcases he with rfl | he
      · exact h e (List.mem_cons_self _ _)
      · exact ih (fun y hy => h y (List.mem_cons_of_mem _ hy)) e he

/-- Names after one upsert: the old names, and the new name at the end if it is new. -/
theorem map_entryName_upsertNamed {valueKey : String} (hk : valueKey ≠ "name")
    (name value : String) (entries : List Json) :
    (upsertNamed valueKey name value entries).map entryName
      = entries.map entryName
        ++ (if some name ∈ entries.map entryName then [] else [some name]) := by
  induction entries with
  | nil => simp [upsertNamed, entryName_entry]
  | cons x rest ih =>
    by_cases hx : entryName x = some name
    · simp [upsertNamed, hx, entryName_assign hk]
    · have hne : ¬ some name = entryName x := fun h => hx h.symm
      simp only [upsertNamed, hx, if_false, List.map_cons, ih, List.mem_cons, hne, false_or,
        List.cons_append]

theorem upsertNamed_of_not_mem {valueKey name value : String} {entries : List Json}
    (h : some name ∉ entries.map entryName) :
    upsertNamed valueKey name value entries = entries ++ [entry valueKey name value] := by
  induction entries with
  | nil => rfl
  | cons x rest ih =>
    simp only [List.map_cons, List.mem_cons, not_or] at h
    have hx : ¬ entryName x = some name := fun hx => h.1 hx.symm
    simp [upsertNamed, hx, ih h.2]

theorem length_upsertNamed_of_mem {valueKey name value : String} {entries : List Json}
    (h : some name ∈ entries.map entryName) :
    (upsertNamed valueKey name value entries).length = entries.length := by
  induction entries with
  | nil => simp at h
  | cons x rest ih =>
    by_cases hx : entryName x = some name
    · simp [upsertNamed, hx]
    · have hne : ¬ some name = entryName x := fun h => hx h.symm
      simp only [List.map_cons, List.mem_cons, hne, false_or] at h
      simp [upsertNamed, hx, ih h]

theorem getElem?_upsertNamed_of_ne (valueKey : String) {name : String} (value : String)
    {entries : List Json} {i : Nat} {e : Json} (he : entries[i]? = some e) (hn : entryName e ≠ some name) :
    (upsertNamed valueKey name value entries)[i]? = some e := by
  induction entries generalizing i with
  | nil => simp at he
  | cons x rest ih =>
    cases i with
    | zero =>
      simp only [List.getElem?_cons_zero, Option.some.injEq] at he
      subst he
      simp [upsertNamed, hn]
    | succ j =>
      simp only [List.getElem?_cons_succ] at he
      by_cases hx : entryName x = some name
      · simp [upsertNamed, hx, he]
      · simp [upsertNamed, hx, ih he]

theorem getElem?_upsertNamed_of_first (valueKey : String) {name : String} (value : String)
    {entries : List Json} {i : Nat} {e : Json} (he : entries[i]? = some e) (hn : entryName e = some name)
    (hfirst : ∀ j, j < i → (entries.map entryName)[j]? ≠ some (some name)) :
    (upsertNamed valueKey name value entries)[i]? = some (assign e valueKey (.str value)) := by
  induction entries generalizing i with
  | nil => simp at he
  | cons x rest ih =>
    cases i with
    | zero =>
      simp only [List.getElem?_cons_zero, Option.some.injEq] at he
      subst he
      simp [upsertNamed, hn]
    | succ j =>
      simp only [List.getElem?_cons_succ] at he
      have hx : ¬ entryName x = some name := by
        intro hx
        exact hfirst 0 (Nat.succ_pos j) (by simp [hx])
      simp only [upsertNamed, hx, if_false, List.getElem?_cons_succ]
      apply ih he
      intro k hkj
      have := hfirst (k + 1) (Nat.succ_lt_succ hkj)
      simpa using this

/-! ## A sequence of upserts -/

theorem mergeNamed_cons (valueKey : String) (entries : List Json) (p : String × String)
    (ps : List (String × String)) :
    mergeNamed valueKey entries (p :: ps)
      = mergeNamed valueKey (upsertNamed valueKey p.1 p.2 entries) ps := rfl

/-- Names after the upserts: the old names, then the new names in order of first
occurrence. -/
theorem map_entryName_mergeNamed (valueKey : String) (hk : valueKey ≠ "name")
    (entries : List Json) (pairs : List (String × String)) :
    (mergeNamed valueKey entries pairs).map entryName
      = entries.map entryName
        ++ (firstOccurrences ((pairs.map Prod.fst).filter
            (fun name => decide (some name ∉ entries.map entryName)))).map some := by
  induction pairs generalizing entries with
  | nil => simp [mergeNamed, firstOccurrences]
  | cons p ps ih =>
    rw [mergeNamed_cons, ih, map_entryName_upsertNamed hk]
    by_cases hp : some p.1 ∈ entries.map entryName
    · rw [if_pos hp, List.append_nil, List.map_cons, List.filter_cons,
        if_neg (by simpa using hp)]
    · rw [if_neg hp, List.map_cons, List.filter_cons, if_pos (by simpa using hp)]
      simp only [firstOccurrences, List.map_cons, List.append_assoc, List.singleton_append]
      congr 2
      rw [← firstOccurrences_filter, List.filter_filter]
      congr 2
      apply List.filter_congr
      intro name _
      by_cases hn : name = p.1
      · subst hn
        simp
      · have hn2 : ¬ p.1 = name := fun h => hn h.symm
        simp [hn, hn2]

theorem getElem?_mergeNamed_of_unmentioned {valueKey : String} {entries : List Json}
    {pairs : List (String × String)} {i : Nat} {e : Json} (he : entries[i]? = some e)
    (hn : ∀ p ∈ pairs, entryName e ≠ some p.1) :
    (mergeNamed valueKey entries pairs)[i]? = some e := by
  induction pairs generalizing entries with
  | nil => exact he
  | cons p ps ih =>
    rw [mergeNamed_cons]
    exact ih (getElem?_upsertNamed_of_ne valueKey p.2 he (hn p (List.mem_cons_self _ _)))
      (fun q hq => hn q (List.mem_cons_of_mem _ hq))

theorem first_upsertNamed {valueKey : String} (hk : valueKey ≠ "name") (name value : String)
    {entries : List Json} {i : Nat} {target : String} (hi : i < entries.length)
    (hfirst : ∀ j, j < i → (entries.map entryName)[j]? ≠ some (some target)) :
    ∀ j, j < i →
      ((upsertNamed valueKey name value entries).map entryName)[j]? ≠ some (some target) := by
  intro j hj
  rw [map_entryName_upsertNamed hk, List.getElem?_append_left (by
    simp only [List.length_map]
    exact Nat.lt_trans hj hi)]
  exact hfirst j hj

/-- The first entry carrying a name ends with the last value given for that name. -/
theorem getElem?_mergeNamed_of_first {valueKey : String} (hk : valueKey ≠ "name")
    {entries : List Json} {pairs : List (String × String)} {i : Nat} {e : Json}
    {name value : String} (he : entries[i]? = some e) (hn : entryName e = some name)
    (hfirst : ∀ j, j < i → (entries.map entryName)[j]? ≠ some (some name))
    (hv : lastValue name pairs = some value) :
    (mergeNamed valueKey entries pairs)[i]? = some (assign e valueKey (.str value)) := by
  induction pairs generalizing entries e with
  | nil => simp [lastValue] at hv
  | cons p ps ih =>
    rw [mergeNamed_cons]
    have hi := lt_length_of_getElem? he
    have hfirst1 := first_upsertNamed hk p.1 p.2 hi hfirst
    simp only [lastValue] at hv
    cases hl : lastValue name ps with
    | some w =>
      simp only [hl, Option.some.injEq] at hv
      subst hv
      by_cases hp : p.1 = name
      · have h1 := getElem?_upsertNamed_of_first valueKey p.2 he (hp ▸ hn) (hp ▸ hfirst)
        rw [ih h1 (by rw [entryName_assign hk, hn]) hfirst1 hl, assign_assign]
      · have h1 := getElem?_upsertNamed_of_ne valueKey p.2 he
          (show entryName e ≠ some p.1 by
            rw [hn]
            intro h
            exact hp (Option.some.inj h).symm)
        exact ih h1 hn hfirst1 hl
    | none =>
      simp only [hl] at hv
      by_cases hp : p.1 = name
      · simp only [hp, if_true, Option.some.injEq] at hv
        subst hv
        have h1 := getElem?_upsertNamed_of_first valueKey p.2 he (hp ▸ hn) (hp ▸ hfirst)
        apply getElem?_mergeNamed_of_unmentioned h1
        intro q hq
        rw [entryName_assign hk, hn]
        intro h
        exact lastValue_eq_none.mp hl q hq (Option.some.inj h).symm
      · simp [hp] at hv

/-- Every entry beyond the old ones is a fresh entry holding the last value given
for its name. -/
theorem getElem?_mergeNamed_of_ge {valueKey : String} (hk : valueKey ≠ "name")
    {entries : List Json} {pairs : List (String × String)} {i : Nat} {e : Json}
    (hi : entries.length ≤ i) (he : (mergeNamed valueKey entries pairs)[i]? = some e) :
    ∃ name value, e = entry valueKey name value ∧ lastValue name pairs = some value := by
  induction pairs generalizing entries with
  | nil =>
    simp only [mergeNamed, List.foldl_nil] at he
    rw [List.getElem?_eq_none hi] at he
    simp at he
  | cons p ps ih =>
    rw [mergeNamed_cons] at he
    have later : ∀ name value, lastValue name ps = some value →
        lastValue name (p :: ps) = some value := by
      intro name value h
      simp [lastValue, h]
    by_cases hp : some p.1 ∈ entries.map entryName
    · obtain ⟨name, value, h1, h2⟩ := ih (by rw [length_upsertNamed_of_mem hp]; exact hi) he
      exact ⟨name, value, h1, later name value h2⟩
    · rw [upsertNamed_of_not_mem hp] at he
      by_cases hlt : entries.length < i
      · obtain ⟨name, value, h1, h2⟩ := ih (by simp; omega) he
        exact ⟨name, value, h1, later name value h2⟩
      · have hieq : i = entries.length := Nat.le_antisymm (Nat.le_of_not_lt hlt) hi
        subst hieq
        have hat : (entries ++ [entry valueKey p.1 p.2])[entries.length]?
            = some (entry valueKey p.1 p.2) := by simp
        have hfirst : ∀ j, j < entries.length →
            ((entries ++ [entry valueKey p.1 p.2]).map entryName)[j]? ≠ some (some p.1) := by
          intro j hj h
          rw [List.map_append, List.getElem?_append_left (by simpa using hj)] at h
          exact hp (List.getElem?_mem h)
        cases hl : lastValue p.1 ps with
        | some w =>
          rw [getElem?_mergeNamed_of_first hk hat (entryName_entry _ _ _) hfirst hl,
            assign_entry hk] at he
          simp only [Option.some.injEq] at he
          exact ⟨p.1, w, he.symm, later _ _ hl⟩
        | none =>
          rw [getElem?_mergeNamed_of_unmentioned hat (by
            intro q hq
            rw [entryName_entry]
            intro h
            exact lastValue_eq_none.mp hl q hq (Option.some.inj h).symm)] at he
          simp only [Option.some.injEq] at he
          exact ⟨p.1, p.2, he.symm, by simp [lastValue, hl]⟩

theorem plainName_mergeNamed {valueKey : String} (hk : valueKey ≠ "name")
    {entries : List Json} (h : ∀ e ∈ entries, plainName e = true)
    (pairs : List (String × String)) :
    ∀ e ∈ mergeNamed valueKey entries pairs, plainName e = true := by
  induction pairs generalizing entries with
  | nil => exact h
  | cons p ps ih =>
    rw [mergeNamed_cons]
    exact ih (plainName_upsertNamed hk p.1 p.2 h)

/-! ## The environment loop as a sequence of upserts -/

theorem foldlM_envStep_eq (coerceEq : Json → String → Option Bool) (lines : List String)
    (entries : List Json) (hplain : ∀ e ∈ entries, plainName e = true)
    (hgood : ∀ line ∈ lines, isBlank line = true ∨ '=' ∈ line.data) :
    lines.foldlM (envStep coerceEq) entries
      = .ok (mergeNamed "value" entries (lines.filterMap envPairOf)) := by
  induction lines generalizing entries with
  | nil => rfl
  | cons line rest ih =>
    have hrest : ∀ l ∈ rest, isBlank l = true ∨ '=' ∈ l.data :=
      fun l hl => hgood l (List.mem_cons_of_mem _ hl)
    rcases hgood line (List.mem_cons_self _ _) with hb | heq
    · have hp := parseEnvLine_blank hb
      simp only [List.foldlM_cons, envStep, hp, bind, Except.bind, List.filterMap_cons,
        envPairOf]
      exact ih entries hplain hrest
    · obtain ⟨i, -, hp⟩ := parseEnvLine_of_mem heq
      simp only [List.foldlM_cons, envStep, hp, bind, Except.bind, List.filterMap_cons,
        envPairOf, upsertEnv_eq_upsertNamed coerceEq _ _ hplain]
      rw [ih _ (plainName_upsertNamed (by decide) _ _ hplain) hrest]
      rfl

/-- The environment merge of a record with plain entries, on a parsable spec. -/
theorem mergeEnvironment_eq_mergeNamed (coerceEq : Json → String → Option Bool)
    (kvs : List (String × Json)) (spec : String)
    (hplain : ∀ e ∈ fieldEntries "environment" kvs, plainName e = true)
    (hp : Parsable spec) :
    mergeEnvironment coerceEq (.record kvs) spec
      = if spec = "" then .ok (.record kvs)
        else .ok (.record (setKey "environment"
          (.arr (mergeNamed "value" (fieldEntries "environment" kvs) (envPairs spec))) kvs)) := by
  rw [mergeEnvironment_record]
  by_cases hs : spec = ""
  · simp [hs]
  · simp only [hs, if_false]
    rw [foldlM_envStep_eq coerceEq _ _ hplain (good_of_parsable hp)]
    rfl

theorem envPairs_empty : envPairs "" = [] := by decide

/-! ## The secrets loop as a sequence of upserts -/

theorem foldlM_secretStep_eq (lines : List String) (entries : List Json)
    (hnn : ∀ e ∈ entries, plainName e = true)
    (hgood : ∀ line ∈ lines, isBlank line = true ∨ '=' ∈ line.data) :
    lines.foldlM secretStep entries
      = .ok (mergeNamed "valueFrom" entries (lines.filterMap secretPairOf)) := by
  induction lines generalizing entries with
  | nil => rfl
  | cons line rest ih =>
    have hrest : ∀ l ∈ rest, isBlank l = true ∨ '=' ∈ l.data :=
      fun l hl => hgood l (List.mem_cons_of_mem _ hl)
    have hnull : ∀ e ∈ entries, e ≠ .null := by
      intro e he hnull
      have := hnn e he
      rw [hnull] at this
      simp [plainName] at this
    rcases hgood line (List.mem_cons_self _ _) with hb | heq
    · have hp := parseSecretLine_blank hb
      simp only [List.foldlM_cons, secretStep, hp, bind, Except.bind, List.filterMap_cons,
        secretPairOf]
      exact ih entries hnn hrest
    · obtain ⟨i, -, hp⟩ := parseSecretLine_of_mem heq
      simp only [List.foldlM_cons, secretStep, hp, bind, Except.bind, List.filterMap_cons,
        secretPairOf, upsertSecret_eq_upsertNamed _ _ hnull]
      rw [ih _ (plainName_upsertNamed (by decide) _ _ hnn) hrest]
      rfl

/-- The secret merge of a record with plain entries, on a parsable spec. -/
theorem mergeSecrets_eq_mergeNamed (kvs : List (String × Json)) (spec : String)
    (hfield : ∀ v, lookup "secrets" kvs = some v →
      truthy v = false ∨ ∃ entries, v = .arr entries)
    (hplain : ∀ e ∈ fieldEntries "secrets" kvs, plainName e = true)
    (hp : Parsable spec) :
    mergeSecrets (.record kvs) spec
      = if spec = "" then .ok (.record kvs)
        else .ok (.record (setKey "secrets"
          (.arr (mergeNamed "valueFrom" (fieldEntries "secrets" kvs) (secretPairs spec)))
          kvs)) := by
  rw [mergeSecrets_record kvs spec hfield]
  by_cases hs : spec = ""
  · simp [hs]
  · simp only [hs, if_false]
    rw [foldlM_secretStep_eq _ _ hplain (good_of_parsable hp)]
    rfl

theorem secretPairs_empty : secretPairs "" = [] := by decide

/-- Names stay pairwise distinct under a sequence of upserts, and only then. -/
theorem nodup_map_entryName_mergeNamed (valueKey : String) (hk : valueKey ≠ "name")
    (entries : List Json) (pairs : List (String × String)) :
    ((mergeNamed valueKey entries pairs).map entryName).Nodup
      ↔ (entries.map entryName).Nodup := by
  rw [map_entryName_mergeNamed valueKey hk, List.nodup_append]
  constructor
  · exact fun h => h.1
  · intro h
    refine ⟨h, (nodup_firstOccurrences _).map (Option.some_injective _), ?_⟩
    intro x hx hy
    obtain ⟨name, hname, rfl⟩ := List.mem_map.mp hy
    rw [mem_firstOccurrences, List.mem_filter] at hname
    exact (of_decide_eq_true hname.2) hx

theorem named_mergeNamed (valueKey : String) (hk : valueKey ≠ "name")
    (entries : List Json) (pairs : List (String × String))
    (h : ∀ e ∈ entries, (entryName e).isSome = true) :
    ∀ e ∈ mergeNamed valueKey entries pairs, (entryName e).isSome = true := by
  intro e he
  have hmem : entryName e ∈ (mergeNamed valueKey entries pairs).map entryName :=
    List.mem_map_of_mem _ he
  rw [map_entryName_mergeNamed valueKey hk, List.mem_append] at hmem
  rcases hmem with hm | hm
  · obtain ⟨x, hx, hxe⟩ := List.mem_map.mp hm
    rw [← hxe]
    exact h x hx
  · obtain ⟨name, -, hn⟩ := List.mem_map.mp hm
    rw [← hn]
    rfl

theorem plainName_of_isSome {e : Json} (h : (entryName e).isSome = true) :
    plainName e = true := by
  cases hn : entryName e with
  | none => simp [hn] at h
  | some name => exact plainName_of_entryName hn

/-! ## Trimmed strings -/

theorem dropWhile_eq_self_of_head {p : Char → Bool} {l : List Char}
    (h : ∀ c, l.head? = some c → p c = false) : l.dropWhile p = l := by
  cases l with
  | nil => rfl
  | cons c cs => simp [List.dropWhile_cons, h c rfl]

theorem rdropWhile_eq_self_of_getLast {p : Char → Bool} {l : List Char}
    (h : ∀ c, l.getLast? = some c → p c = false) : l.rdropWhile p = l := by
  unfold List.rdropWhile
  rw [dropWhile_eq_self_of_head (by simpa using h), List.reverse_reverse]

theorem trim_eq_self {l : List Char} (hhead : ∀ c, l.head? = some c → isWhiteSpace c = false)
    (hlast : ∀ c, l.getLast? = some c → isWhiteSpace c = false) :
    trim ⟨l⟩ = ⟨l⟩ := by
  simp only [trim]
  rw [dropWhile_eq_self_of_head hhead, rdropWhile_eq_self_of_getLast hlast]

theorem head?_dropWhile_false (p : Char → Bool) (l : List Char) :
    ∀ c, (l.dropWhile p).head? = some c → p c = false := by
  induction l with
  | nil => simp
  | cons d ds ih =>
    intro c hc
    by_cases hd : p d = true
    · simp only [List.dropWhile_cons, hd, if_true] at hc
      exact ih c hc
    · simp only [List.dropWhile_cons, hd] at hc
      simp only [Bool.false_eq_true, if_false, List.head?_cons, Option.some.injEq] at hc
      subst hc
      simpa using hd

theorem head?_of_initial {l m : List Char} (h : l <+: m) :
    ∀ c, l.head? = some c → m.head? = some c := by
  obtain ⟨t, rfl⟩ := h
  intro c hc
  cases l with
  | nil => simp at hc
  | cons d ds => simpa using hc

theorem head?_trim (s : String) :
    ∀ c, (trim s).data.head? = some c → isWhiteSpace c = false := by
  intro c hc
  exact head?_dropWhile_false isWhiteSpace s.data c
    (head?_of_initial (List.rdropWhile_prefix _ _) c hc)

theorem getLast?_rdropWhile_false (p : Char → Bool) (l : List Char) :
    ∀ c, (l.rdropWhile p).getLast? = some c → p c = false := by
  intro c hc
  unfold List.rdropWhile at hc
  rw [List.getLast?_reverse] at hc
  exact head?_dropWhile_false p l.reverse c hc

theorem getLast?_trim (s : String) :
    ∀ c, (trim s).data.getLast? = some c → isWhiteSpace c = false :=
  getLast?_rdropWhile_false isWhiteSpace _

theorem indexOfList_append_of_not_mem {c : Char} {l : List Char} (h : c ∉ l)
    (rest : List Char) : indexOfList c (l ++ c :: rest) = some l.length := by
  induction l with
  | nil => simp [indexOfList]
  | cons d ds ih =>
    simp only [List.mem_cons, not_or] at h
    simp [indexOfList, Ne.symm h.1, ih h.2]

/-- A name without `=` and a value, both trimmed, written as `name=value`, parse back
to that name and that value. -/
theorem parseEnvLine_of_trimmed (x y : String) (hx : '=' ∉ (trim x).data) :
    parseEnvLine (trim x ++ "=" ++ trim y) = .ok (some (trim x, trim y)) := by
  have hdata : (trim x ++ "=" ++ trim y).data = (trim x).data ++ '=' :: (trim y).data := by
    simp [String.data_append]
  have htrim : trim (trim x ++ "=" ++ trim y) = trim x ++ "=" ++ trim y := by
    have h := trim_eq_self (l := (trim x).data ++ '=' :: (trim y).data) (by
        intro c hc
        cases hn : (trim x).data with
        | nil =>
          simp only [hn, List.nil_append, List.head?_cons, Option.some.injEq] at hc
          subst hc
          decide
        | cons d ds =>
          simp only [hn, List.cons_append, List.head?_cons, Option.some.injEq] at hc
          subst hc
          exact head?_trim x d (by simp [hn]))
      (by
        intro c hc
        rw [List.getLast?_append_of_ne_nil _ (by simp)] at hc
        cases hv : (trim y).data with
        | nil =>
          simp only [hv, List.getLast?_singleton, Option.some.injEq] at hc
          subst hc
          decide
        | cons d ds =>
          rw [hv, List.getLast?_cons_cons] at hc
          exact getLast?_trim y c (by rw [hv]; exact hc))
    rw [← hdata] at h
    exact h
  have hidx : indexOf (trim x ++ "=" ++ trim y) '=' = some (trim x).data.length := by
    simp only [indexOf, hdata]
    exact indexOfList_append_of_not_mem hx _
  have hne : (trim x ++ "=" ++ trim y).length ≠ 0 := by
    show (trim x ++ "=" ++ trim y).data.length ≠ 0
    rw [hdata]
    simp
  have htake : ∀ a b : List Char, (a ++ '=' :: b).take a.length = a := by
    intro a b
    simp
  have hdrop : ∀ a b : List Char, (a ++ '=' :: b).drop (a.length + 1) = b := by
    intro a b
    induction a with
    | nil => rfl
    | cons d ds ih => simp
  simp only [parseEnvLine, htrim, hne, if_false, hidx]
  congr 3
  · apply String.ext
    simp only [substringTo, hdata]
    exact htake _ _
  · apply String.ext
    simp only [substringFrom, hdata]
    exact hdrop _ _

/-! ## Renaming `value` and `valueFrom` -/

theorem swapKey_swapKey (key : String) : swapKey (swapKey key) = key := by
  unfold swapKey
  by_cases h1 : key = "value"
  · subst h1
    decide
  · by_cases h2 : key = "valueFrom"
    · subst h2
      decide
    · simp [h1, h2]

theorem swapKey_eq_iff {a b : String} : swapKey a = swapKey b ↔ a = b := by
  constructor
  · intro h
    have := congrArg swapKey h
    rwa [swapKey_swapKey, swapKey_swapKey] at this
  · intro h
    rw [h]

theorem lookup_map_swapKey (key : String) (kvs : List (String × Json)) :
    lookup (swapKey key) (kvs.map fun kv => (swapKey kv.1, kv.2)) = lookup key kvs := by
  induction kvs with
  | nil => rfl
  | cons kv rest ih =>
    obtain ⟨k, v⟩ := kv
    simp only [List.map_cons, lookup, swapKey_eq_iff, ih]

theorem setKey_map_swapKey (key : String) (x : Json) (kvs : List (String × Json)) :
    (setKey key x kvs).map (fun kv => (swapKey kv.1, kv.2))
      = setKey (swapKey key) x (kvs.map fun kv => (swapKey kv.1, kv.2)) := by
  induction kvs with
  | nil => rfl
  | cons kv rest ih =>
    obtain ⟨k, v⟩ := kv
    by_cases hk : k = key
    · simp [setKey, hk]
    · simp [setKey, hk, swapKey_eq_iff, ih]

theorem entryName_swapEntry (e : Json) : entryName (swapEntry e) = entryName e := by
  cases e with
  | obj kvs =>
    have h := lookup_map_swapKey "name" kvs
    simp only [entryName, swapEntry]
    rw [show swapKey "name" = "name" by decide] at h
    rw [h]
  | _ => rfl

theorem swapEntry_assign_value (e x : Json) :
    swapEntry (assign e "value" x) = assign (swapEntry e) "valueFrom" x := by
  cases e with
  | obj kvs =>
    simp only [assign, swapEntry, setKey_map_swapKey]
    rfl
  | _ => rfl

theorem swapEntry_entry (name value : String) :
    swapEntry (entry "value" name value) = entry "valueFrom" name value := by
  simp only [entry, swapEntry, List.map_cons, List.map_nil]
  rfl

theorem upsertNamed_map_swapEntry (name value : String) (entries : List Json) :
    upsertNamed "valueFrom" name value (entries.map swapEntry)
      = (upsertNamed "value" name value entries).map swapEntry := by
  induction entries with
  | nil => simp [upsertNamed, swapEntry_entry]
  | cons e rest ih =>
    by_cases hn : entryName e = some name
    · simp [upsertNamed, entryName_swapEntry, hn, swapEntry_assign_value]
    · simp [upsertNamed, entryName_swapEntry, hn, ih]

theorem plainName_swapEntry_of_named {e : Json} (h : (entryName e).isSome = true) :
    plainName (swapEntry e) = true :=
  plainName_of_isSome (by rw [entryName_swapEntry]; exact h)

/-! ## Splitting and joining lines -/

theorem not_mem_of_mem_splitList {sep : Char} {l : List Char} :
    ∀ piece ∈ splitList sep l, sep ∉ piece := by
  induction l with
  | nil => simp [splitList]
  | cons c cs ih =>
    by_cases hc : c = sep
    · simp only [splitList, hc, if_true, List.mem_cons]
      rintro piece (rfl | h)
      · simp
      · exact ih piece h
    · simp only [splitList, hc, if_false]
      cases hs : splitList sep cs with
      | nil => simp [Ne.symm hc]
      | cons p ps =>
        rw [hs] at ih
        simp only [List.mem_cons]
        rintro piece (rfl | h)
        · simp only [List.mem_cons, not_or]
          exact ⟨Ne.symm hc, ih p (List.mem_cons_self _ _)⟩
        · exact ih piece (List.mem_cons_of_mem _ h)

theorem splitList_ne_nil (sep : Char) (l : List Char) : splitList sep l ≠ [] := by
  induction l with
  | nil => simp [splitList]
  | cons c cs ih =>
    by_cases hc : c = sep
    · simp [splitList, hc]
    · simp only [splitList, hc, if_false]
      cases hs : splitList sep cs <;> simp

theorem splitList_append_sep {sep : Char} {a : List Char} (h : sep ∉ a) (b : List Char) :
    splitList sep (a ++ sep :: b) = a :: splitList sep b := by
  induction a with
  | nil => simp [splitList]
  | cons c cs ih =>
    simp only [List.mem_cons, not_or] at h
    simp [splitList, Ne.symm h.1, ih h.2]

theorem splitList_eq_singleton_nil {sep : Char} {l : List Char}
    (h : splitList sep l = [[]]) : l = [] := by
  cases l with
  | nil => rfl
  | cons c cs =>
    exfalso
    by_cases hc : c = sep
    · simp only [splitList, hc, if_true, List.cons.injEq, true_and] at h
      exact splitList_ne_nil sep cs h
    · simp only [splitList, hc, if_false] at h
      cases hs : splitList sep cs <;> simp [hs] at h

theorem not_mem_of_mem_split {sep : Char} {s : String} :
    ∀ line ∈ split s sep, sep ∉ line.data := by
  intro line hl
  simp only [split, List.mem_map] at hl
  obtain ⟨piece, hp, rfl⟩ := hl
  exact not_mem_of_mem_splitList piece hp

theorem split_joinLines {sep : Char} (hsep : sep = '\n') (lines : List String)
    (hne : lines ≠ []) (hno : ∀ line ∈ lines, sep ∉ line.data) :
    split (joinLines lines) sep = lines := by
  induction lines with
  | nil => exact absurd rfl hne
  | cons line rest ih =>
    cases rest with
    | nil => exact split_of_not_mem (hno line (List.mem_cons_self _ _))
    | cons line2 rest2 =>
      have hrest := ih (by simp) (fun l hl => hno l (List.mem_cons_of_mem _ hl))
      have hdata : (joinLines (line :: line2 :: rest2)).data
          = line.data ++ sep :: (joinLines (line2 :: rest2)).data := by
        subst hsep
        simp [joinLines, String.data_append]
      simp only [split] at hrest ⊢
      rw [hdata, splitList_append_sep (hno line (List.mem_cons_self _ _)), List.map_cons,
        hrest]

theorem mem_of_mem_trim {c : Char} {s : String} (h : c ∈ (trim s).data) : c ∈ s.data := by
  by_contra hc
  exact not_mem_trim hc h

theorem not_mem_trimParts {line : String} (h : '\n' ∉ line.data) :
    '\n' ∉ (trimParts line).data := by
  unfold trimParts
  cases hi : indexOf (trim line) '=' with
  | none => exact h
  | some i =>
    simp only [String.data_append, List.mem_append, not_or]
    refine ⟨⟨?_, by decide⟩, ?_⟩
    · intro hc
      exact h (mem_of_mem_trim (List.mem_of_mem_take (mem_of_mem_trim hc)))
    · intro hc
      exact h (mem_of_mem_trim (List.mem_of_mem_drop (mem_of_mem_trim hc)))

theorem split_trimPartsSpec (spec : String) :
    split (trimPartsSpec spec) '\n' = (split spec '\n').map trimParts := by
  unfold trimPartsSpec
  apply split_joinLines rfl
  · simp only [split, ne_eq, List.map_eq_nil_iff]
    exact splitList_ne_nil _ _
  · intro line hl
    obtain ⟨l, hl1, rfl⟩ := List.mem_map.mp hl
    exact not_mem_trimParts (not_mem_of_mem_split l hl1)

theorem trimParts_of_not_mem {line : String} (h : '=' ∉ line.data) : trimParts line = line := by
  have hi : indexOf (trim line) '=' = none := indexOfList_eq_none.mpr (not_mem_trim h)
  simp [trimParts, hi]

theorem trimParts_of_blank {line : String} (h : isBlank line = true) :
    trimParts line = line := by
  apply trimParts_of_not_mem
  intro hmem
  rw [isBlank_of_mem hmem] at h
  simp at h

theorem trimPartsSpec_eq_empty {spec : String} : trimPartsSpec spec = "" ↔ spec = "" := by
  constructor
  · intro h
    have hs := split_trimPartsSpec spec
    rw [h] at hs
    have h0 : split "" '\n' = [""] := rfl
    rw [h0] at hs
    cases hl : split spec '\n' with
    | nil => simp [hl] at hs
    | cons l ls =>
      rw [hl] at hs
      simp only [List.map_cons, List.cons.injEq, List.map_eq_nil_iff] at hs
      obtain ⟨h1, h2⟩ := hs
      have h3 : ls = [] := List.map_eq_nil_iff.mp h2.symm
      subst h3
      have hl0 : l = "" := by
        by_cases hmem : '=' ∈ l.data
        · exfalso
          have hi : ∃ i, indexOf (trim l) '=' = some i := by
            cases hi : indexOf (trim l) '=' with
            | none =>
              exact absurd (mem_trim_of_mem isWhiteSpace_eq hmem) (indexOfList_eq_none.mp hi)
            | some i => exact ⟨i, rfl⟩
          obtain ⟨i, hi⟩ := hi
          have hd := congrArg String.data h1
          simp [trimParts, hi, String.data_append] at hd
        · rw [← trimParts_of_not_mem hmem]
          exact h1.symm
      subst hl0
      simp only [split, List.map_eq_cons_iff, List.map_eq_nil_iff] at hl
      obtain ⟨piece, pieces, hsp, hpiece, rfl⟩ := hl
      have hp : piece = [] := by
        have := congrArg String.data hpiece
        simpa using this
      subst hp
      apply String.ext
      exact splitList_eq_singleton_nil hsp
  · rintro rfl
    decide

/-! ## The secrets loop against the environment loop -/

theorem named_upsertNamed (valueKey : String) (hk : valueKey ≠ "name") (name value : String)
    (entries : List Json) (h : ∀ e ∈ entries, (entryName e).isSome = true) :
    ∀ e ∈ upsertNamed valueKey name value entries, (entryName e).isSome = true :=
  named_mergeNamed valueKey hk entries [(name, value)] h

theorem ne_null_of_named {e : Json} (h : (entryName e).isSome = true) : e ≠ .null := by
  rintro rfl
  simp [entryName] at h

/-- Line by line, the secrets loop on the renamed entries does what the environment
loop does on the entries, for the lines with their parts trimmed. -/
theorem foldlM_secretStep_refines (coerceEq : Json → String → Option Bool) (lines : List String)
    (entries : List Json) (hnamed : ∀ e ∈ entries, (entryName e).isSome = true) :
    lines.foldlM secretStep (entries.map swapEntry)
      = asSecretOutcome ((lines.map trimParts).foldlM (envStep coerceEq) entries) := by
  induction lines generalizing entries with
  | nil => rfl
  | cons line rest ih =>
    simp only [List.map_cons, List.foldlM_cons]
    cases hb : isBlank line with
    | true =>
      rw [trimParts_of_blank hb]
      simp only [secretStep, envStep, parseSecretLine_blank hb, parseEnvLine_blank hb, bind,
        Except.bind]
      exact ih entries hnamed
    | false =>
      by_cases heq : '=' ∈ line.data
      · obtain ⟨i, hi, hps⟩ := parseSecretLine_of_mem heq
        have htp : trimParts line
            = trim (substringTo (trim line) i) ++ "="
              ++ trim (substringFrom (trim line) (i + 1)) := by
          simp [trimParts, hi]
        have hx : '=' ∉ (trim (substringTo (trim line) i)).data :=
          not_mem_trim (indexOfList_some hi).2
        have hplain : ∀ e ∈ entries, plainName e = true :=
          fun e he => plainName_of_isSome (hnamed e he)
        have hnull : ∀ e ∈ entries.map swapEntry, e ≠ .null := by
          intro e he
          obtain ⟨x, hx1, rfl⟩ := List.mem_map.mp he
          exact ne_null_of_named (by rw [entryName_swapEntry]; exact hnamed x hx1)
        rw [htp]
        simp only [secretStep, envStep, hps, parseEnvLine_of_trimmed _ _ hx,
          upsertSecret_eq_upsertNamed _ _ hnull, upsertEnv_eq_upsertNamed coerceEq _ _ hplain,
          bind, Except.bind, upsertNamed_map_swapEntry]
        exact ih _ (named_upsertNamed "value" (by decide) _ _ entries hnamed)
      · rw [trimParts_of_not_mem heq]
        simp only [secretStep, envStep, parseSecretLine_of_not_mem hb heq,
          parseEnvLine_of_not_mem hb heq, bind, Except.bind]
        rfl

/-! ## Searching and upserting in a list put together from two -/

theorem envStep_eq_stepWith (coerceEq : Json → String → Option Bool) :
    envStep coerceEq = stepWith parseEnvLine (nameLooselyIs coerceEq) "value" := by
  funext entries line
  simp only [envStep, stepWith]
  cases parseEnvLine line with
  | error err => rfl
  | ok r =>
    cases r with
    | none => rfl
    | some nv => rfl

theorem secretStep_eq_stepWith : secretStep = stepWith parseSecretLine nameIs "valueFrom" := by
  funext entries line
  simp only [secretStep, stepWith]
  cases parseSecretLine line with
  | error err => rfl
  | ok r =>
    cases r with
    | none => rfl
    | some nv => rfl

theorem stable_nameLooselyIs (coerceEq : Json → String → Option Bool) :
    Stable (nameLooselyIs coerceEq) "value" where
  assign_eq := by
    intro name e x
    cases e with
    | obj kvs =>
      simp [nameLooselyIs, assign, getProp, lookup_setKey_ne (show "name" ≠ "value" by decide)]
    | _ => rfl
  entry_ok := by
    intro name value
    simp [nameLooselyIs, entry, getProp, lookup, looseEqStr]
  truthy_of_ok := by
    intro name e h
    cases e with
    | null => simp [nameLooselyIs, getProp] at h
    | obj kvs => rfl
    | _ => simp [nameLooselyIs, getProp, looseEqStr] at h
  key_ne := by decide

theorem stable_nameIs : Stable nameIs "valueFrom" where
  assign_eq := by
    intro name e x
    cases e with
    | obj kvs =>
      simp [nameIs, assign, getProp, lookup_setKey_ne (show "name" ≠ "valueFrom" by decide)]
    | _ => rfl
  entry_ok := by
    intro name value
    simp [nameIs, entry, getProp, lookup, strictEqStr]
  truthy_of_ok := by
    intro name e h
    obtain ⟨kvs, rfl, -⟩ := nameIs_true h
    rfl
  key_ne := by decide

theorem find_cons_false {p : Json → Except Err Bool} {e : Json} (hp : p e = .ok false)
    (rest : List Json) :
    find p (e :: rest)
      = match find p rest with
        | .error err => .error err
        | .ok none => .ok none
        | .ok (some (i, x)) => .ok (some (i + 1, x)) := by
  simp [find, hp]

/-- Where the search finds an entry, the list splits into the entries it passed, the
entry, and the rest. -/
theorem find_split {p : Json → Except Err Bool} {entries : List Json} {i : Nat} {e : Json}
    (h : find p entries = .ok (some (i, e))) :
    ∃ a b, entries = a ++ e :: b ∧ find p a = .ok none ∧ p e = .ok true := by
  induction entries generalizing i with
  | nil => simp [find] at h
  | cons x rest ih =>
    cases hp : p x with
    | error err => simp [find, hp] at h
    | ok b =>
      cases b with
      | true =>
        simp only [find, hp, Except.ok.injEq, Option.some.injEq, Prod.mk.injEq] at h
        obtain ⟨-, rfl⟩ := h
        exact ⟨[], rest, rfl, rfl, hp⟩
      | false =>
        rw [find_cons_false hp] at h
        cases hf : find p rest with
        | error err => simp [hf] at h
        | ok r =>
          cases r with
          | none => simp [hf] at h
          | some kx =>
            obtain ⟨k, y⟩ := kx
            simp only [hf, Except.ok.injEq, Option.some.injEq, Prod.mk.injEq] at h
            obtain ⟨-, rfl⟩ := h
            obtain ⟨a, b, hab, ha, hy⟩ := ih hf
            refine ⟨x :: a, b, by rw [hab]; rfl, ?_, hy⟩
            rw [find_cons_false hp, ha]

theorem upsertWith_append_of_none {p : Json → Except Err Bool} {a : List Json}
    (h : find p a = .ok none) (valueKey name value : String) (rest : List Json) :
    upsertWith p valueKey name value (a ++ rest)
      = (upsertWith p valueKey name value rest).map (a ++ ·) := by
  induction a with
  | nil =>
    rw [List.nil_append]
    cases upsertWith p valueKey name value rest <;> simp [Except.map]
  | cons x xs ih =>
    have hx : p x = .ok false := find_none.mp h x (List.mem_cons_self _ _)
    have hxs : find p xs = .ok none :=
      find_none.mpr (fun y hy => find_none.mp h y (List.mem_cons_of_mem _ hy))
    rw [List.cons_append, upsertWith_cons_false hx, ih hxs]
    cases upsertWith p valueKey name value rest <;> rfl

theorem upsertWith_append_of_found {p : Json → Except Err Bool} {a : List Json}
    {found : Nat × Json} (h : find p a = .ok (some found))
    (ht : ∀ e, p e = .ok true → truthy e = true)
    (valueKey name value : String) (rest : List Json) :
    ∃ a1, upsertWith p valueKey name value a = .ok a1 ∧ a1.length = a.length
      ∧ upsertWith p valueKey name value (a ++ rest) = .ok (a1 ++ rest) := by
  obtain ⟨i, e⟩ := found
  obtain ⟨u, v, rfl, hu, he⟩ := find_split h
  refine ⟨u ++ assign e valueKey (.str value) :: v, ?_, by simp, ?_⟩
  · rw [upsertWith_append_of_none hu, upsertWith_cons_true he (ht e he)]
    rfl
  · rw [List.append_assoc, upsertWith_append_of_none hu, List.cons_append,
      upsertWith_cons_true he (ht e he)]
    simp [Except.map]

theorem upsertWith_of_none {p : Json → Except Err Bool} {entries : List Json}
    (h : find p entries = .ok none) (valueKey name value : String) :
    upsertWith p valueKey name value entries
      = .ok (entries ++ [entry valueKey name value]) := by
  simp [upsertWith, h]

/-! ## Running a loop again on its own result -/

theorem sameUpToValue_refl (p : String → Json → Except Err Bool) (valueKey : String)
    (x : Json) : SameUpToValue p valueKey x x :=
  ⟨fun _ => rfl, fun _ => rfl⟩

theorem sameUpToValue_assign {p : String → Json → Except Err Bool} {valueKey : String}
    (hs : Stable p valueKey) (e v : Json) :
    SameUpToValue p valueKey e (assign e valueKey v) :=
  ⟨fun name => (hs.assign_eq name e v).symm, fun w => (assign_assign e valueKey v w).symm⟩

theorem find_append_of_error {p : Json → Except Err Bool} {a : List Json} {err : Err}
    (h : find p a = .error err) (rest : List Json) : find p (a ++ rest) = .error err := by
  induction a with
  | nil => simp [find] at h
  | cons x xs ih =>
    cases hp : p x with
    | error e2 =>
      simp only [find, hp, Except.error.injEq] at h
      simp [find, hp, h]
    | ok b =>
      cases b with
      | true => simp [find, hp] at h
      | false =>
        rw [find_cons_false hp] at h
        rw [List.cons_append, find_cons_false hp]
        cases hf : find p xs with
        | error e2 =>
          simp only [hf, Except.error.injEq] at h
          rw [ih (by rw [hf, h])]
        | ok r => cases r <;> simp [hf] at h

theorem upsertWith_append_of_error {p : Json → Except Err Bool} {a : List Json} {err : Err}
    (h : find p a = .error err) (valueKey name value : String) (rest : List Json) :
    upsertWith p valueKey name value (a ++ rest) = .error err := by
  simp [upsertWith, find_append_of_error h]

/-- One upsert on two lists that differ in one entry, up to its value: the results
again differ in that entry only, up to its value; they are equal when the upsert
wrote that entry. -/
theorem upsertWith_congr {p : String → Json → Except Err Bool} {valueKey : String}
    (hs : Stable p valueKey) {x y : Json} (hxy : SameUpToValue p valueKey x y)
    (a b : List Json) (name value : String) {n : List Json}
    (h : upsertWith (p name) valueKey name value (a ++ x :: b) = .ok n) :
    ∃ a1 x1 y1 b1, n = a1 ++ x1 :: b1
      ∧ upsertWith (p name) valueKey name value (a ++ y :: b) = .ok (a1 ++ y1 :: b1)
      ∧ SameUpToValue p valueKey x1 y1 ∧ a1.length = a.length
      ∧ (find (p name) a = .ok none → p name x = .ok true → x1 = y1) := by
  cases hf : find (p name) a with
  | error err =>
    rw [upsertWith_append_of_error hf] at h
    simp at h
  | ok r =>
    cases r with
    | some found =>
      obtain ⟨a1, -, hlen, happ⟩ := upsertWith_append_of_found hf (hs.truthy_of_ok name)
        valueKey name value (x :: b)
      obtain ⟨a2, h2, -, happ2⟩ := upsertWith_append_of_found hf (hs.truthy_of_ok name)
        valueKey name value (y :: b)
      obtain ⟨a3, h3, -, -⟩ := upsertWith_append_of_found hf (hs.truthy_of_ok name)
        valueKey name value (x :: b)
      rw [happ] at h
      simp only [Except.ok.injEq] at h
      have ha : a2 = a1 := by
        obtain ⟨a4, h4, -, h5⟩ := upsertWith_append_of_found hf (hs.truthy_of_ok name)
          valueKey name value (x :: b)
        rw [h2] at h4
        rw [happ] at h5
        simp only [Except.ok.injEq] at h4 h5
        rw [h4]
        exact (List.append_cancel_right h5).symm
      subst ha
      exact ⟨a2, x, y, b, h.symm, happ2, hxy, hlen, fun hnone => by simp at hnone⟩
    | none =>
      rw [upsertWith_append_of_none hf] at h
      rw [upsertWith_append_of_none hf]
      cases hp : p name x with
      | error err =>
        rw [upsertWith_cons_error hp] at h
        simp [Except.map] at h
      | ok c =>
        cases c with
        | true =>
          have hpy : p name y = .ok true := by rw [← hxy.1 name, hp]
          rw [upsertWith_cons_true hp (hs.truthy_of_ok name x hp)] at h
          rw [upsertWith_cons_true hpy (hs.truthy_of_ok name y hpy)]
          simp only [Except.map, Except.ok.injEq] at h ⊢
          refine ⟨a, assign x valueKey (.str value), assign y valueKey (.str value), b,
            h.symm, rfl, ?_, rfl, fun _ _ => hxy.2 _⟩
          rw [hxy.2]
          exact sameUpToValue_refl p valueKey _
        | false =>
          have hpy : p name y = .ok false := by rw [← hxy.1 name, hp]
          rw [upsertWith_cons_false hp] at h
          rw [upsertWith_cons_false hpy]
          cases hu : upsertWith (p name) valueKey name value b with
          | error err => simp [hu, Except.map] at h
          | ok b1 =>
            simp only [hu, Except.map, Except.ok.injEq] at h ⊢
            exact ⟨a, x, y, b1, h.symm, rfl, hxy, rfl, fun _ hpx => by simp at hpx⟩

theorem stepWith_congr (parse : String → Except Err (Option (String × String)))
    {p : String → Json → Except Err Bool} {valueKey : String}
    (hs : Stable p valueKey) {x y : Json} (hxy : SameUpToValue p valueKey x y)
    (a b : List Json) (line : String) {n : List Json}
    (h : stepWith parse p valueKey (a ++ x :: b) line = .ok n) :
    ∃ a1 x1 y1 b1, n = a1 ++ x1 :: b1
      ∧ stepWith parse p valueKey (a ++ y :: b) line = .ok (a1 ++ y1 :: b1)
      ∧ SameUpToValue p valueKey x1 y1 ∧ a1.length = a.length := by
  unfold stepWith at h ⊢
  cases hp : parse line with
  | error err => simp [hp] at h
  | ok r =>
    cases r with
    | none =>
      simp only [hp, Except.ok.injEq] at h
      exact ⟨a, x, y, b, h.symm, rfl, hxy, rfl⟩
    | some nv =>
      simp only [hp] at h
      obtain ⟨a1, x1, y1, b1, h1, h2, h3, h4, -⟩ := upsertWith_congr hs hxy a b nv.1 nv.2 h
      exact ⟨a1, x1, y1, b1, h1, h2, h3, h4⟩

theorem foldlM_stepWith_congr (parse : String → Except Err (Option (String × String)))
    {p : String → Json → Except Err Bool} {valueKey : String}
    (hs : Stable p valueKey) (lines : List String) {x y : Json}
    (hxy : SameUpToValue p valueKey x y) (a b : List Json) {n : List Json}
    (h : lines.foldlM (stepWith parse p valueKey) (a ++ x :: b) = .ok n) :
    ∃ a1 x1 y1 b1, n = a1 ++ x1 :: b1
      ∧ lines.foldlM (stepWith parse p valueKey) (a ++ y :: b) = .ok (a1 ++ y1 :: b1)
      ∧ SameUpToValue p valueKey x1 y1 ∧ a1.length = a.length := by
  induction lines generalizing x y a b with
  | nil =>
    simp only [List.foldlM_nil, pure, Except.pure, Except.ok.injEq] at h
    exact ⟨a, x, y, b, h.symm, rfl, hxy, rfl⟩
  | cons line rest ih =>
    simp only [List.foldlM_cons, bind, Except.bind] at h ⊢
    cases hstep : stepWith parse p valueKey (a ++ x :: b) line with
    | error err => simp [hstep] at h
    | ok m =>
      simp only [hstep] at h
      obtain ⟨a1, x1, y1, b1, rfl, h2, h3, h4⟩ := stepWith_congr parse hs hxy a b line hstep
      obtain ⟨a2, x2, y2, b2, h5, h6, h7, h8⟩ := ih h3 a1 b1 h
      simp only [h2]
      exact ⟨a2, x2, y2, b2, h5, h6, h7, h8.trans h4⟩

theorem upsertWith_length {p : Json → Except Err Bool} {valueKey name value : String}
    {entries merged : List Json}
    (h : upsertWith p valueKey name value entries = .ok merged) :
    (merged.length = entries.length ∧ ∃ found, find p entries = .ok (some found))
      ∨ (merged.length = entries.length + 1) := by
  unfold upsertWith at h
  cases hf : find p entries with
  | error err => simp [hf] at h
  | ok r =>
    cases r with
    | none =>
      simp only [hf, Except.ok.injEq] at h
      rw [← h]
      exact Or.inr (by simp)
    | some found =>
      simp only [hf] at h
      split at h
      · simp only [Except.ok.injEq] at h
        rw [← h]
        exact Or.inl ⟨by simp, found, rfl⟩
      · simp only [Except.ok.injEq] at h
        rw [← h]
        exact Or.inr (by simp)

theorem stepWith_length {parse : String → Except Err (Option (String × String))}
    {p : String → Json → Except Err Bool} {valueKey : String} {entries merged : List Json}
    {line : String} (h : stepWith parse p valueKey entries line = .ok merged) :
    entries.length ≤ merged.length := by
  unfold stepWith at h
  cases hp : parse line with
  | error err => simp [hp] at h
  | ok r =>
    cases r with
    | none =>
      simp only [hp, Except.ok.injEq] at h
      rw [h]
    | some nv =>
      simp only [hp] at h
      rcases upsertWith_length h with ⟨h1, -⟩ | h1 <;> omega

theorem foldlM_stepWith_length {parse : String → Except Err (Option (String × String))}
    {p : String → Json → Except Err Bool} {valueKey : String} (lines : List String)
    {entries merged : List Json}
    (h : lines.foldlM (stepWith parse p valueKey) entries = .ok merged) :
    entries.length ≤ merged.length := by
  induction lines generalizing entries with
  | nil =>
    simp only [List.foldlM_nil, pure, Except.pure, Except.ok.injEq] at h
    rw [h]
  | cons line rest ih =>
    simp only [List.foldlM_cons, bind, Except.bind] at h
    cases hstep : stepWith parse p valueKey entries line with
    | error err => simp [hstep] at h
    | ok m =>
      simp only [hstep] at h
      exact Nat.le_trans (stepWith_length hstep) (ih h)

/-- A step that appends nothing does the same in front of further entries. -/
theorem stepWith_append {parse : String → Except Err (Option (String × String))}
    {p : String → Json → Except Err Bool} {valueKey : String} (hs : Stable p valueKey)
    {entries merged : List Json} {line : String}
    (h : stepWith parse p valueKey entries line = .ok merged)
    (hlen : merged.length = entries.length) (rest : List Json) :
    stepWith parse p valueKey (entries ++ rest) line = .ok (merged ++ rest) := by
  unfold stepWith at h ⊢
  cases hp : parse line with
  | error err => simp [hp] at h
  | ok r =>
    cases r with
    | none =>
      simp only [hp, Except.ok.injEq] at h
      simp [h]
    | some nv =>
      simp only [hp] at h ⊢
      rcases upsertWith_length h with ⟨-, found, hf⟩ | h1
      · obtain ⟨a1, h2, -, h3⟩ := upsertWith_append_of_found hf (hs.truthy_of_ok nv.1)
          valueKey nv.1 nv.2 rest
        rw [h] at h2
        simp only [Except.ok.injEq] at h2
        rw [h3, h2]
      · omega

theorem foldlM_stepWith_append {parse : String → Except Err (Option (String × String))}
    {p : String → Json → Except Err Bool} {valueKey : String} (hs : Stable p valueKey)
    (lines : List String) {entries merged : List Json}
    (h : lines.foldlM (stepWith parse p valueKey) entries = .ok merged)
    (hlen : merged.length = entries.length) (rest : List Json) :
    lines.foldlM (stepWith parse p valueKey) (entries ++ rest) = .ok (merged ++ rest) := by
  induction lines generalizing entries with
  | nil =>
    simp only [List.foldlM_nil, pure, Except.pure, Except.ok.injEq] at h
    rw [h]
    rfl
  | cons line tail ih =>
    simp only [List.foldlM_cons, bind, Except.bind] at h ⊢
    cases hstep : stepWith parse p valueKey entries line with
    | error err => simp [hstep] at h
    | ok m =>
      simp only [hstep] at h
      have h1 := stepWith_length hstep
      have h2 := foldlM_stepWith_length tail h
      rw [stepWith_append hs hstep (by omega) rest]
      exact ih h (by omega)

theorem foldlM_snoc_ok {σ : Type} {f : σ → String → Except Err σ} {lines : List String}
    {line : String} {s s1 s2 : σ} (h1 : lines.foldlM f s = .ok s1) (h2 : f s1 line = .ok s2) :
    (lines ++ [line]).foldlM f s = .ok s2 := by
  simp [List.foldlM_append, h1, h2, bind, Except.bind, pure, Except.pure]

theorem foldlM_snoc_inv {σ : Type} {f : σ → String → Except Err σ} {lines : List String}
    {line : String} {s s2 : σ} (h : (lines ++ [line]).foldlM f s = .ok s2) :
    ∃ s1, lines.foldlM f s = .ok s1 ∧ f s1 line = .ok s2 := by
  simp only [List.foldlM_append, List.foldlM_cons, List.foldlM_nil, bind, Except.bind, pure,
    Except.pure] at h
  cases h1 : lines.foldlM f s with
  | error err => simp [h1] at h
  | ok s1 =>
    simp only [h1] at h
    cases h2 : f s1 line with
    | error err => simp [h2] at h
    | ok s3 =>
      simp only [h2, Except.ok.injEq] at h
      exact ⟨s1, rfl, by rw [h2, h]⟩

/-- The loop absorbs its own result: run on the array it produced, it produces that
array again. -/
theorem foldlM_stepWith_idempotent (parse : String → Except Err (Option (String × String)))
    {p : String → Json → Except Err Bool} {valueKey : String} (hs : Stable p valueKey)
    (lines : List String) {entries merged : List Json}
    (h : lines.foldlM (stepWith parse p valueKey) entries = .ok merged) :
    lines.foldlM (stepWith parse p valueKey) merged = .ok merged := by
  induction lines using List.reverseRecOn generalizing merged with
  | nil => rfl
  | append_singleton ls line ih =>
    obtain ⟨before, hfold, hlast⟩ := foldlM_snoc_inv h
    have hbefore := ih hfold
    have hstep := hlast
    unfold stepWith at hlast
    cases hp : parse line with
    | error err => simp [hp] at hlast
    | ok r =>
      cases r with
      | none =>
        simp only [hp, Except.ok.injEq] at hlast
        subst hlast
        exact foldlM_snoc_ok hbefore hstep
      | some nv =>
        simp only [hp] at hlast
        cases hf : find (p nv.1) before with
        | error err => simp [upsertWith, hf] at hlast
        | ok r =>
          cases r with
          | none =>
            rw [upsertWith_of_none hf] at hlast
            simp only [Except.ok.injEq] at hlast
            subst hlast
            refine foldlM_snoc_ok (foldlM_stepWith_append hs ls hbefore rfl _) ?_
            simp only [stepWith, hp]
            rw [upsertWith_append_of_none hf,
              upsertWith_cons_true (hs.entry_ok nv.1 nv.2)
                (hs.truthy_of_ok _ _ (hs.entry_ok nv.1 nv.2)),
              assign_entry hs.key_ne]
            rfl
          | some found =>
            obtain ⟨i, e⟩ := found
            obtain ⟨a, b, rfl, ha, he⟩ := find_split hf
            have hm : merged = a ++ assign e valueKey (.str nv.2) :: b := by
              rw [upsertWith_append_of_none ha,
                upsertWith_cons_true he (hs.truthy_of_ok _ _ he)] at hlast
              simpa [Except.map] using hlast.symm
            obtain ⟨a1, x1, y1, b1, h1, h2, h3, h4⟩ := foldlM_stepWith_congr parse hs ls
              (sameUpToValue_assign hs e (.str nv.2)) a b hbefore
            obtain ⟨ha1, hrest⟩ := List.append_inj h1 h4.symm
            simp only [List.cons.injEq] at hrest
            obtain ⟨hx1, hb1⟩ := hrest
            subst ha1 hx1 hb1
            obtain ⟨a2, x2, y2, b2, g1, g2, -, -, g5⟩ :=
              upsertWith_congr hs h3 a b nv.1 nv.2 hlast
            have hxy := g5 ha he
            subst hxy
            rw [← hm] at h2
            refine foldlM_snoc_ok h2 ?_
            simp only [stepWith, hp]
            rw [g2, g1]

/-! ## Running a merge again on its own result -/

theorem foldlM_envStep_idempotent (coerceEq : Json → String → Option Bool) (lines : List String)
    {entries merged : List Json}
    (h : lines.foldlM (envStep coerceEq) entries = .ok merged) :
    lines.foldlM (envStep coerceEq) merged = .ok merged := by
  rw [envStep_eq_stepWith] at h ⊢
  exact foldlM_stepWith_idempotent parseEnvLine (stable_nameLooselyIs coerceEq) lines h

theorem foldlM_secretStep_idempotent (lines : List String) {entries merged : List Json}
    (h : lines.foldlM secretStep entries = .ok merged) :
    lines.foldlM secretStep merged = .ok merged := by
  rw [secretStep_eq_stepWith] at h ⊢
  exact foldlM_stepWith_idempotent parseSecretLine stable_nameIs lines h

theorem map_ok_inv {α β : Type} {f : α → β} {r : Except Err α} {b : β}
    (h : r.map f = .ok b) : ∃ a, r = .ok a ∧ f a = b := by
  cases r with
  | error err => simp [Except.map] at h
  | ok a =>
    simp only [Except.map, Except.ok.injEq] at h
    exact ⟨a, rfl, h⟩

/-- The environment merge, run again on a record that holds the `environment` array it
produced, leaves that record as it is. -/
theorem mergeEnvironment_again (coerceEq : Json → String → Option Bool)
    {a0 a1 a2 : List (String × Json)} {spec : String}
    (h : mergeEnvironment coerceEq (.record a0) spec = .ok (.record a1))
    (hkeep : lookup "environment" a2 = lookup "environment" a1) :
    mergeEnvironment coerceEq (.record a2) spec = .ok (.record a2) := by
  rw [mergeEnvironment_record] at h ⊢
  by_cases hs : spec = ""
  · simp [hs]
  · rw [if_neg hs] at h ⊢
    obtain ⟨m, hm, ha1⟩ := map_ok_inv h
    simp only [Target.record.injEq] at ha1
    have hl : lookup "environment" a2 = some (.arr m) := by
      rw [hkeep, ← ha1, lookup_setKey_self]
    have hf : fieldEntries "environment" a2 = m := by simp [fieldEntries, hl]
    rw [hf, foldlM_envStep_idempotent coerceEq _ hm]
    simp [Except.map, setKey_of_lookup hl]

theorem secretLine_of_not_array {t t1 : Target} {line : String}
    (hget : ∀ entries, t.get "secrets" ≠ some (.arr entries))
    (h : secretLine t line = .ok t1) : t1 = t := by
  unfold secretLine at h
  split at h
  · simp at h
  · simp only [Except.ok.injEq] at h
    exact h.symm
  · split at h
    · next entries hg => exact absurd hg (hget entries)
    · simp at h

theorem foldlM_secretLine_of_not_array {t t1 : Target} (lines : List String)
    (hget : ∀ entries, t.get "secrets" ≠ some (.arr entries))
    (h : lines.foldlM secretLine t = .ok t1) : t1 = t := by
  induction lines with
  | nil =>
    simp only [List.foldlM_nil, pure, Except.pure, Except.ok.injEq] at h
    exact h.symm
  | cons line rest ih =>
    simp only [List.foldlM_cons, bind, Except.bind] at h
    cases hstep : secretLine t line with
    | error err => simp [hstep] at h
    | ok t2 =>
      simp only [hstep] at h
      have h2 := secretLine_of_not_array hget hstep
      subst h2
      exact ih h

/-- The secret merge, run again on the record it produced, leaves it as it is. -/
theorem mergeSecrets_again {a1 a2 : List (String × Json)} {spec : String}
    (h : mergeSecrets (.record a1) spec = .ok (.record a2)) :
    mergeSecrets (.record a2) spec = .ok (.record a2) := by
  by_cases hs : spec = ""
  · simp [mergeSecrets, hs]
  · by_cases hfield : ∀ v, lookup "secrets" a1 = some v →
        truthy v = false ∨ ∃ entries, v = .arr entries
    · rw [mergeSecrets_record a1 spec hfield, if_neg hs] at h
      obtain ⟨m, hm, ha2⟩ := map_ok_inv h
      simp only [Target.record.injEq] at ha2
      have hl : lookup "secrets" a2 = some (.arr m) := by
        rw [← ha2, lookup_setKey_self]
      have hf : fieldEntries "secrets" a2 = m := by simp [fieldEntries, hl]
      rw [mergeSecrets_record a2 spec (by
          intro v hv
          rw [hl] at hv
          exact Or.inr ⟨m, (Option.some.inj hv).symm⟩),
        if_neg hs, hf, foldlM_secretStep_idempotent _ hm]
      simp [Except.map, setKey_of_lookup hl]
    · simp only [not_forall, not_or, not_exists, Classical.not_imp] at hfield
      obtain ⟨v, hv, htruthy, hnarr⟩ := hfield
      have htr : truthy v = true := by simpa using htruthy
      have hprep : mergeSecrets (.record a1) spec
          = (split spec '\n').foldlM secretLine (.record a1) := by
        simp [mergeSecrets, hs, Target.get, hv, htr, Target.set, setKey_of_lookup hv]
      rw [hprep] at h
      have ha : Target.record a2 = Target.record a1 :=
        foldlM_secretLine_of_not_array _ (by
          intro entries hg
          simp only [Target.get, hv, Option.some.injEq] at hg
          exact hnarr entries hg) h
      rw [ha, hprep]
      rw [ha] at h
      exact h

theorem find_set_of_first {p : Json → Except Err Bool} {entries : List Json} {i : Nat}
    {y : Json} (hi : i < entries.length)
    (hbefore : ∀ j, j < i → ∃ x, entries[j]? = some x ∧ p x = .ok false)
    (hy : p y = .ok true) : find p (entries.set i y) = .ok (some (i, y)) := by
  induction entries generalizing i with
  | nil => simp at hi
  | cons x rest ih =>
    cases i with
    | zero => simp [find, hy]
    | succ k =>
      obtain ⟨x0, hx0, hpx⟩ := hbefore 0 (Nat.succ_pos k)
      simp only [List.getElem?_cons_zero, Option.some.injEq] at hx0
      subst hx0
      rw [List.set_cons_succ, find_cons_false hpx,
        ih (by simpa using hi) (by
          intro j hj
          obtain ⟨z, hz, hpz⟩ := hbefore (j + 1) (Nat.succ_lt_succ hj)
          exact ⟨z, by simpa using hz, hpz⟩)]

theorem toJson_set_of_not_obj {e : Json} (h : ∀ kvs, e ≠ .obj kvs) (key : String) (v : Json) :
    ((toTarget e).set key v).toJson = e ∧ ∀ kvs, (toTarget e).set key v ≠ .record kvs := by
  cases e with
  | obj kvs => exact absurd rfl (h kvs)
  | _ => exact ⟨rfl, fun kvs hk => by simp [toTarget, Target.set] at hk⟩

/-! ## The names along a merge -/

theorem nameOf_assign {valueKey : String} (hk : valueKey ≠ "name") (e x : Json) :
    nameOf (assign e valueKey x) = nameOf e := by
  cases e with
  | obj kvs => simp [assign, nameOf, lookup_setKey_ne (Ne.symm hk)]
  | _ => rfl

theorem nameOf_entry (valueKey name value : String) :
    nameOf (entry valueKey name value) = some (.str name) := by
  simp [entry, nameOf, lookup]

theorem nameOf_ne_of_nameIs_false {name : String} {e : Json}
    (h : nameIs name e = .ok false) : nameOf e ≠ some (.str name) := by
  cases e with
  | obj kvs =>
    intro hn
    simp [nameIs, getProp, nameOf] at h hn
    simp [hn, strictEqStr] at h
  | _ => simp [nameOf]

theorem nameOf_ne_of_nameLooselyIs_false {coerceEq : Json → String → Option Bool} {name : String}
    {e : Json} (h : nameLooselyIs coerceEq name e = .ok false) :
    nameOf e ≠ some (.str name) := by
  cases e with
  | obj kvs =>
    intro hn
    simp [nameLooselyIs, getProp, nameOf] at h hn
    simp [hn, looseEqStr] at h
  | _ => simp [nameOf]

theorem set_of_getElem? {α : Type} {l : List α} {i : Nat} {x : α} (h : l[i]? = some x) :
    l.set i x = l := by
  induction l generalizing i with
  | nil => rfl
  | cons y rest ih =>
    cases i with
    | zero =>
      simp only [List.getElem?_cons_zero, Option.some.injEq] at h
      simp [h]
    | succ k =>
      simp only [List.getElem?_cons_succ] at h
      simp [ih h]

/-- One upsert keeps the names of the old entries in place, and keeps them pairwise
distinct if they were. -/
theorem upsertWith_names {p : String → Json → Except Err Bool} {valueKey : String}
    (hs : Stable p valueKey)
    (hfalse : ∀ name e, p name e = .ok false → nameOf e ≠ some (.str name))
    {name value : String} {entries merged : List Json}
    (h : upsertWith (p name) valueKey name value entries = .ok merged) :
    entries.map nameOf <+: merged.map nameOf
      ∧ ((merged.map nameOf).Nodup ↔ (entries.map nameOf).Nodup) := by
  unfold upsertWith at h
  cases hf : find (p name) entries with
  | error err => simp [hf] at h
  | ok r =>
    cases r with
    | none =>
      simp only [hf, Except.ok.injEq] at h
      subst h
      have hnot : some (Json.str name) ∉ entries.map nameOf := by
        intro hm
        obtain ⟨e, he, hne⟩ := List.mem_map.mp hm
        exact hfalse name e (find_none.mp hf e he) hne
      rw [List.map_append, List.map_singleton, nameOf_entry]
      refine ⟨List.prefix_append _ _, ?_⟩
      rw [List.nodup_append]
      simp [hnot]
    | some ix =>
      obtain ⟨i, found⟩ := ix
      obtain ⟨hi, hp, -⟩ := find_some hf
      simp only [hf, hs.truthy_of_ok name found hp, if_true, Except.ok.injEq] at h
      subst h
      have hsame : (entries.set i (assign found valueKey (.str value))).map nameOf
          = entries.map nameOf := by
        rw [List.map_set, nameOf_assign hs.key_ne]
        exact set_of_getElem? (by simp [List.getElem?_map, hi])
      rw [hsame]
      exact ⟨List.prefix_refl _, Iff.rfl⟩

theorem foldlM_stepWith_names (parse : String → Except Err (Option (String × String)))
    {p : String → Json → Except Err Bool} {valueKey : String} (hs : Stable p valueKey)
    (hfalse : ∀ name e, p name e = .ok false → nameOf e ≠ some (.str name))
    (lines : List String) {entries merged : List Json}
    (h : lines.foldlM (stepWith parse p valueKey) entries = .ok merged) :
    entries.map nameOf <+: merged.map nameOf
      ∧ ((merged.map nameOf).Nodup ↔ (entries.map nameOf).Nodup) := by
  induction lines generalizing entries with
  | nil =>
    simp only [List.foldlM_nil, pure, Except.pure, Except.ok.injEq] at h
    subst h
    exact ⟨List.prefix_refl _, Iff.rfl⟩
  | cons line rest ih =>
    simp only [List.foldlM_cons, bind, Except.bind] at h
    cases hstep : stepWith parse p valueKey entries line with
    | error err => simp [hstep] at h
    | ok m =>
      simp only [hstep] at h
      obtain ⟨h1, h2⟩ := ih h
      have hm : entries.map nameOf <+: m.map nameOf
          ∧ ((m.map nameOf).Nodup ↔ (entries.map nameOf).Nodup) := by
        unfold stepWith at hstep
        cases hparse : parse line with
        | error err => simp [hparse] at hstep
        | ok r =>
          cases r with
          | none =>
            simp only [hparse, Except.ok.injEq] at hstep
            subst hstep
            exact ⟨List.prefix_refl _, Iff.rfl⟩
          | some nv =>
            obtain ⟨name, value⟩ := nv
            simp only [hparse] at hstep
            exact upsertWith_names hs hfalse hstep
      exact ⟨hm.1.trans h1, h2.trans hm.2⟩

/-- A successful environment merge of a record keeps the names of the old entries in
place and keeps them pairwise distinct if they were. -/
theorem mergeEnvironment_names (coerceEq : Json → String → Option Bool) {kvs : List (String × Json)}
    {spec : String} {t1 : Target}
    (h : mergeEnvironment coerceEq (.record kvs) spec = .ok t1) :
    ∃ kvs1, t1 = .record kvs1
      ∧ (fieldEntries "environment" kvs).map nameOf
          <+: (fieldEntries "environment" kvs1).map nameOf
      ∧ (((fieldEntries "environment" kvs1).map nameOf).Nodup
          ↔ ((fieldEntries "environment" kvs).map nameOf).Nodup) := by
  rw [mergeEnvironment_record] at h
  by_cases hs : spec = ""
  · simp only [hs, if_true, Except.ok.injEq] at h
    exact ⟨kvs, h.symm, List.prefix_refl _, Iff.rfl⟩
  · rw [if_neg hs] at h
    obtain ⟨m, hm, rfl⟩ := map_ok_inv h
    rw [envStep_eq_stepWith] at hm
    have hf : fieldEntries "environment" (setKey "environment" (.arr m) kvs) = m := by
      simp [fieldEntries, lookup_setKey_self]
    refine ⟨_, rfl, ?_⟩
    rw [hf]
    exact foldlM_stepWith_names parseEnvLine (stable_nameLooselyIs coerceEq)
      (fun _ _ => nameOf_ne_of_nameLooselyIs_false) _ hm

/-- A successful secret merge of a record keeps the names of the old entries in place
and keeps them pairwise distinct if they were. -/
theorem mergeSecrets_names {kvs : List (String × Json)} {spec : String} {t1 : Target}
    (h : mergeSecrets (.record kvs) spec = .ok t1) :
    ∃ kvs1, t1 = .record kvs1
      ∧ (fieldEntries "secrets" kvs).map nameOf <+: (fieldEntries "secrets" kvs1).map nameOf
      ∧ (((fieldEntries "secrets" kvs1).map nameOf).Nodup
          ↔ ((fieldEntries "secrets" kvs).map nameOf).Nodup) := by
  by_cases hs : spec = ""
  · simp only [mergeSecrets, hs, if_true, Except.ok.injEq] at h
    exact ⟨kvs, h.symm, List.prefix_refl _, Iff.rfl⟩
  · by_cases hfield : ∀ v, lookup "secrets" kvs = some v →
        truthy v = false ∨ ∃ entries, v = .arr entries
    · rw [mergeSecrets_record kvs spec hfield, if_neg hs] at h
      obtain ⟨m, hm, rfl⟩ := map_ok_inv h
      rw [secretStep_eq_stepWith] at hm
      have hf : fieldEntries "secrets" (setKey "secrets" (.arr m) kvs) = m := by
        simp [fieldEntries, lookup_setKey_self]
      refine ⟨_, rfl, ?_⟩
      rw [hf]
      exact foldlM_stepWith_names parseSecretLine stable_nameIs
        (fun _ _ => nameOf_ne_of_nameIs_false) _ hm
    · simp only [not_forall, not_or, not_exists, Classical.not_imp] at hfield
      obtain ⟨v, hv, htruthy, hnarr⟩ := hfield
      have htr : truthy v = true := by simpa using htruthy
      have hprep : mergeSecrets (.record kvs) spec
          = (split spec '\n').foldlM secretLine (.record kvs) := by
        simp [mergeSecrets, hs, Target.get, hv, htr, Target.set, setKey_of_lookup hv]
      rw [hprep] at h
      have ht : t1 = .record kvs :=
        foldlM_secretLine_of_not_array _ (by
          intro entries hg
          simp only [Target.get, hv, Option.some.injEq] at hg
          exact hnarr entries hg) h
      exact ⟨kvs, ht, List.prefix_refl _, Iff.rfl⟩

/-- The secret merge of a record succeeds on a parsable spec when `secrets` is missing,
falsy or an array none of whose entries is `null`. -/
theorem mergeSecrets_parsable {kvs : List (String × Json)} {spec : String}
    (hfield : ∀ v, lookup "secrets" kvs = some v →
      truthy v = false ∨ ∃ entries, v = .arr entries)
    (hnn : ∀ e ∈ fieldEntries "secrets" kvs, e ≠ .null) (hp : Parsable spec) :
    ∃ kvs1, mergeSecrets (.record kvs) spec = .ok (.record kvs1) := by
  rw [mergeSecrets_record kvs spec hfield]
  by_cases hs : spec = ""
  · exact ⟨kvs, by simp [hs]⟩
  · obtain ⟨m, hm, -⟩ := foldlM_total secretStep
      (fun line => isBlank line = true ∨ '=' ∈ line.data)
      (fun entries => ∀ e ∈ entries, e ≠ .null)
      (fun entries line hinv hgood => secretStep_total hinv hgood)
      (split spec '\n') _ hnn (good_of_parsable hp)
    exact ⟨setKey "secrets" (.arr m) kvs, by simp [hs, hm, Except.map]⟩

/-! ## A line that cannot be parsed fails the run -/

theorem foldlM_error_of_mem {σ : Type} (step : σ → String → Except Err σ) {bad : String}
    (hbad : ∀ s, ∃ err, step s bad = .error err) {lines : List String} (hmem : bad ∈ lines)
    (s : σ) : ∃ err, lines.foldlM step s = .error err := by
  induction lines generalizing s with
  | nil => simp at hmem
  | cons line rest ih =>
    cases hstep : step s line with
    | error err => exact ⟨err, by simp [List.foldlM_cons, hstep, bind, Except.bind]⟩
    | ok s1 =>
      rcases List.mem_cons.mp hmem with h | h
      · subst h
        obtain ⟨err, he⟩ := hbad s
        rw [he] at hstep
        simp at hstep
      · obtain ⟨err, he⟩ := ih h s1
        exact ⟨err, by simp [List.foldlM_cons, hstep, bind, Except.bind, he]⟩

theorem ne_empty_of_bad_line {spec bad : String} (hmem : bad ∈ split spec '\n')
    (hb : isBlank bad = false) : spec ≠ "" := by
  obtain ⟨before, after, hsplit⟩ := List.append_of_mem hmem
  exact split_ne_of_bad_line hsplit hb

/-- The environment merge fails on a spec with a line that is not blank and has no `=`,
whatever the target holds. -/
theorem mergeEnvironment_fails (coerceEq : Json → String → Option Bool) (t : Target)
    {spec bad : String} (hmem : bad ∈ split spec '\n') (hb : isBlank bad = false)
    (hne : '=' ∉ bad.data) : ∃ err, mergeEnvironment coerceEq t spec = .error err := by
  unfold mergeEnvironment
  rw [if_neg (ne_empty_of_bad_line hmem hb)]
  exact foldlM_error_of_mem (envLine coerceEq)
    (fun s => ⟨.envParse (trim bad), by simp [envLine, parseEnvLine_of_not_mem hb hne]⟩)
    hmem _

/-- The secret merge fails on a spec with a line that is not blank and has no `=`,
whatever the target holds. -/
theorem mergeSecrets_fails (t : Target) {spec bad : String}
    (hmem : bad ∈ split spec '\n') (hb : isBlank bad = false) (hne : '=' ∉ bad.data) :
    ∃ err, mergeSecrets t spec = .error err := by
  unfold mergeSecrets
  rw [if_neg (ne_empty_of_bad_line hmem hb)]
  exact foldlM_error_of_mem secretLine
    (fun s => ⟨.secretParse (trim bad),
      by simp [secretLine, parseSecretLine_of_not_mem hb hne]⟩) hmem _

theorem run_error_of_environment (coerceEq : Json → String → Option Bool) (doc : Json)
    (containerName imageURI environmentVariables secretVariables : String)
    (h : ∀ t, ∃ err, mergeEnvironment coerceEq t environmentVariables = .error err) :
    ∃ err, run coerceEq doc containerName imageURI environmentVariables secretVariables
      = .error err := by
  unfold run
  split
  · exact ⟨_, rfl⟩
  · split
    · exact ⟨_, rfl⟩
    · next i t hr =>
      obtain ⟨err, he⟩ := h (t.set "image" (.str imageURI))
      exact ⟨err, by simp [he]⟩
  · exact ⟨_, rfl⟩

theorem run_error_of_secrets (coerceEq : Json → String → Option Bool) (doc : Json)
    (containerName imageURI environmentVariables secretVariables : String)
    (h : ∀ t, ∃ err, mergeSecrets t secretVariables = .error err) :
    ∃ err, run coerceEq doc containerName imageURI environmentVariables secretVariables
      = .error err := by
  unfold run
  split
  · exact ⟨_, rfl⟩
  · split
    · exact ⟨_, rfl⟩
    · next i t hr =>
      split
      · exact ⟨_, rfl⟩
      · next t1 h1 =>
        obtain ⟨err, he⟩ := h t1
        exact ⟨err, by simp [he]⟩
  · exact ⟨_, rfl⟩

/-! ## What `getInput` returns -/

theorem isWhiteSpace_of_blank {line : String} (h : isBlank line = true) :
    ∀ c ∈ line.data, isWhiteSpace c = true := by
  intro c hc
  by_contra hn
  have hc2 : c ∈ (trim line).data := mem_trim_of_mem (by simpa using hn) hc
  have hlen0 : (trim line).length = 0 := by simpa [isBlank] using h
  have hlen : (trim line).data = [] := List.length_eq_zero.mp hlen0
  rw [hlen] at hc2
  simp at hc2

theorem mem_splitList_of_mem {sep c : Char} {l : List Char} (hc : c ∈ l) (hsep : c ≠ sep) :
    ∃ piece ∈ splitList sep l, c ∈ piece := by
  induction l with
  | nil => simp at hc
  | cons d ds ih =>
    by_cases hd : d = sep
    · rcases List.mem_cons.mp hc with h | h
      · exact absurd (h.trans hd) hsep
      · obtain ⟨piece, hp, hcp⟩ := ih h
        exact ⟨piece, by simp [splitList, hd, hp], hcp⟩
    · cases hs : splitList sep ds with
      | nil => exact absurd hs (splitList_ne_nil sep ds)
      | cons piece pieces =>
        rcases List.mem_cons.mp hc with h | h
        · exact ⟨d :: piece, by simp [splitList, hd, hs], by simp [h]⟩
        · obtain ⟨q, hq, hcq⟩ := ih h
          rw [hs] at hq
          rcases List.mem_cons.mp hq with hq1 | hq1
          · exact ⟨d :: piece, by simp [splitList, hd, hs], by simp [← hq1, hcq]⟩
          · exact ⟨q, by simp [splitList, hd, hs, hq1], hcq⟩

theorem isWhiteSpace_newline : isWhiteSpace '\n' = true := by decide

/-- A string all of whose lines are blank consists of whitespace. -/
theorem isWhiteSpace_of_blank_lines {s : String}
    (h : ∀ line ∈ split s '\n', isBlank line = true) :
    ∀ c ∈ s.data, isWhiteSpace c = true := by
  intro c hc
  by_cases hn : c = '\n'
  · rw [hn]
    exact isWhiteSpace_newline
  · obtain ⟨piece, hp, hcp⟩ := mem_splitList_of_mem hc hn
    exact isWhiteSpace_of_blank (h ⟨piece⟩ (List.mem_map_of_mem String.mk hp)) c hcp

theorem trim_of_whiteSpace {s : String} (h : ∀ c ∈ s.data, isWhiteSpace c = true) :
    trim s = "" := by
  have hd : s.data.dropWhile isWhiteSpace = [] := List.dropWhile_eq_nil_iff.mpr h
  simp only [trim, hd]
  rfl

/-- A value all of whose lines are blank is read as the empty string. -/
theorem getInput_of_blank_lines {raw : String}
    (h : ∀ line ∈ split raw '\n', isBlank line = true) : getInput raw = "" :=
  trim_of_whiteSpace (isWhiteSpace_of_blank_lines h)

theorem trim_trim (s : String) : trim (trim s) = trim s :=
  trim_eq_self (head?_trim s) (getLast?_trim s)

theorem getInput_getInput (raw : String) : getInput (getInput raw) = getInput raw :=
  trim_trim raw

/-- A value that is read as a non-empty string is read as a string whose first line is
not blank. -/
theorem first_line_of_getInput {raw : String} (h : getInput raw ≠ "") :
    ∃ first rest, split (getInput raw) '\n' = first :: rest ∧ isBlank first = false := by
  cases hd : (getInput raw).data with
  | nil =>
    exact absurd (String.ext hd) h
  | cons c cs =>
    have hc : isWhiteSpace c = false := head?_trim raw c (by
      show (getInput raw).data.head? = some c
      rw [hd]
      rfl)
    have hne : c ≠ '\n' := by
      rintro rfl
      rw [isWhiteSpace_newline] at hc
      simp at hc
    cases hs : splitList '\n' cs with
    | nil => exact absurd hs (splitList_ne_nil _ _)
    | cons piece pieces =>
      refine ⟨⟨c :: piece⟩, pieces.map String.mk,
        by simp [split, hd, splitList, hne, hs], ?_⟩
      rw [isBlank_eq_false]
      intro hlen
      have hmem : c ∈ (trim ⟨c :: piece⟩).data := mem_trim_of_mem hc (by simp)
      have hnil : (trim ⟨c :: piece⟩).data = [] := List.length_eq_zero.mp hlen
      rw [hnil] at hmem
      simp at hmem

/-! ## The claims -/

/-- C1. For a document whose `containerDefinitions` contains a record named
`containerName`, a successful run yields a document in which the matched record (the
first record with that name, at index `i`) has `image` equal to the image string,
whatever it held before, and every other position of `containerDefinitions` holds
what it held in the input; the array keeps its length. -/
theorem image_set_on_matched_container (coerceEq : Json → String → Option Bool) (doc result : Json)
    (cds : List Json) (named : List (String × Json))
    (containerName imageURI environmentVariables secretVariables : String)
    (hdoc : getProp doc "containerDefinitions" = .ok (some (.arr cds)))
    (hmem : Json.obj named ∈ cds)
    (hname : lookup "name" named = some (.str containerName))
    (hrun : run coerceEq doc containerName imageURI environmentVariables secretVariables
      = .ok result) :
    ∃ (i : Nat) (before after : List (String × Json)) (cds1 : List Json),
      cds[i]? = some (.obj before)
        ∧ lookup "name" before = some (.str containerName)
        ∧ (∀ j, j < i → ∀ r, cds[j]? = some (.obj r) →
            lookup "name" r ≠ some (.str containerName))
        ∧ getProp result "containerDefinitions" = .ok (some (.arr cds1))
        ∧ cds1.length = cds.length
        ∧ cds1[i]? = some (.obj after)
        ∧ lookup "image" after = some (.str imageURI)
        ∧ ∀ j, j ≠ i → cds1[j]? = cds[j]? := by
  obtain ⟨kvs, cds0, i, t, t1, t2, rfl, hl, hres, h1, h2, rfl⟩ := run_ok hrun
  simp only [getProp, hl, Except.ok.injEq, Option.some.injEq, Json.arr.injEq] at hdoc
  subst hdoc
  rcases resolveContainer_ok hres with ⟨before, hf, rfl, hn⟩ | ⟨e, hf, -, -, -, -⟩
  · obtain ⟨hi, -, hlt⟩ := find_some hf
    obtain ⟨f1, -, f3, -⟩ := merges_frame h1 h2
    obtain ⟨after, rfl⟩ := f3 _ rfl
    have hlen := lt_length_of_getElem? hi
    obtain ⟨s1, s2, s3⟩ := getElem?_set_toJson hlen (Target.toJson (.record after))
    refine ⟨i, before, after, _, hi, hn, ?_, ?_, s1, s2, ?_, s3⟩
    · intro j hj r hr hnr
      obtain ⟨x, hx1, hx2⟩ := hlt j hj
      rw [hr] at hx1
      simp only [Option.some.injEq] at hx1
      subst hx1
      exact nameIs_obj_false.mp hx2 hnr
    · simp [getProp, lookup_setKey_self]
    · have := f1 "image" (by decide) (by decide)
      simpa [Target.get, Target.set, lookup_setKey_self] using this
  · exact absurd (find_none.mp hf _ hmem) (by
      rw [nameIs_obj_true.mpr hname]
      simp)

/-- C1 at the sample document: the second container is the one named `app`. -/
theorem image_set_on_matched_container_witness :
    ∃ (i : Nat) (before after : List (String × Json)) (cds1 : List Json),
      sampleContainers[i]? = some (.obj before)
        ∧ lookup "name" before = some (.str "app")
        ∧ (∀ j, j < i → ∀ r, sampleContainers[j]? = some (.obj r) →
            lookup "name" r ≠ some (.str "app"))
        ∧ getProp sampleRendered "containerDefinitions" = .ok (some (.arr cds1))
        ∧ cds1.length = sampleContainers.length
        ∧ cds1[i]? = some (.obj after)
        ∧ lookup "image" after = some (.str "repo/img:1")
        ∧ ∀ j, j ≠ i → cds1[j]? = sampleContainers[j]? :=
  image_set_on_matched_container noCoercion sampleDoc sampleRendered sampleContainers
    [("name", .str "app"), ("image", .str "old")] "app" "repo/img:1" "" ""
    rfl (by simp [sampleContainers]) rfl rfl

/-- C2. Let every non-blank line of the environment spec contain exactly one `=`, and
let the container have no `environment` or an empty one.  Then the merge succeeds, and
in the resulting `environment` array: the names are the names of the spec lines, each
once, in order of first occurrence (so they are pairwise distinct), and every entry is
`{ name, value }` with `value` the value of the last spec line carrying that name. -/
theorem environment_merged_into_empty (coerceEq : Json → String → Option Bool)
    (kvs : List (String × Json)) (spec : String)
    (hempty : lookup "environment" kvs = none ∨ lookup "environment" kvs = some (.arr []))
    (hone : ∀ line ∈ split spec '\n', isBlank line = false → line.data.count '=' = 1) :
    ∃ kvs1, mergeEnvironment coerceEq (.record kvs) spec = .ok (.record kvs1)
      ∧ (fieldEntries "environment" kvs1).map entryName
          = (firstOccurrences ((envPairs spec).map Prod.fst)).map some
      ∧ ((fieldEntries "environment" kvs1).map entryName).Nodup
      ∧ (∀ name, some name ∈ (fieldEntries "environment" kvs1).map entryName
          ↔ name ∈ (envPairs spec).map Prod.fst)
      ∧ ∀ e ∈ fieldEntries "environment" kvs1, ∃ name value,
          e = .obj [("name", .str name), ("value", .str value)]
            ∧ lastValue name (envPairs spec) = some value := by
  have hfield : fieldEntries "environment" kvs = [] := by
    rcases hempty with h | h <;> simp [fieldEntries, h]
  have hp : Parsable spec := by
    intro line hl hb
    have := hone line hl hb
    exact List.count_pos_iff.mp (by omega)
  have hm := mergeEnvironment_eq_mergeNamed coerceEq kvs spec (by simp [hfield]) hp
  rw [hfield] at hm
  have hnames := map_entryName_mergeNamed "value" (by decide) [] (envPairs spec)
  simp only [List.map_nil, List.not_mem_nil, not_false_eq_true, decide_True,
    List.filter_true, List.nil_append] at hnames
  have key : ∀ merged kvs1, fieldEntries "environment" kvs1 = merged →
      merged = mergeNamed "value" [] (envPairs spec) →
      (fieldEntries "environment" kvs1).map entryName
          = (firstOccurrences ((envPairs spec).map Prod.fst)).map some
      ∧ ((fieldEntries "environment" kvs1).map entryName).Nodup
      ∧ (∀ name, some name ∈ (fieldEntries "environment" kvs1).map entryName
          ↔ name ∈ (envPairs spec).map Prod.fst)
      ∧ ∀ e ∈ fieldEntries "environment" kvs1, ∃ name value,
          e = .obj [("name", .str name), ("value", .str value)]
            ∧ lastValue name (envPairs spec) = some value := by
    intro merged kvs1 hf hmerged
    rw [hf, hmerged, hnames]
    refine ⟨rfl, ?_, ?_, ?_⟩
    · exact (nodup_firstOccurrences _).map (Option.some_injective _)
    · intro name
      rw [List.mem_map_of_injective (Option.some_injective _), mem_firstOccurrences]
    · intro e he
      obtain ⟨i, hi⟩ := List.getElem?_of_mem he
      exact getElem?_mergeNamed_of_ge (by decide) (Nat.zero_le i) hi
  by_cases hs : spec = ""
  · refine ⟨kvs, by rw [hm, if_pos hs], key [] kvs hfield ?_⟩
    rw [hs, envPairs_empty]
    rfl
  · refine ⟨_, by rw [hm, if_neg hs], key _ _ ?_ rfl⟩
    simp [fieldEntries, lookup_setKey_self]

/-- C2 at a spec that repeats the name `A`: the entry for `A` stays first and holds
the later value. -/
theorem environment_merged_into_empty_witness :
    mergeEnvironment noCoercion (.record [("name", .str "app")]) "A=1\nB=2\nA=3"
        = .ok (.record [("name", .str "app"), ("environment",
            .arr [.obj [("name", .str "A"), ("value", .str "3")],
              .obj [("name", .str "B"), ("value", .str "2")]])])
      ∧ firstOccurrences ((envPairs "A=1\nB=2\nA=3").map Prod.fst) = ["A", "B"]
      ∧ lastValue "A" (envPairs "A=1\nB=2\nA=3") = some "3"
      ∧ ∃ kvs1, mergeEnvironment noCoercion (.record [("name", .str "app")]) "A=1\nB=2\nA=3"
          = .ok (.record kvs1)
        ∧ (fieldEntries "environment" kvs1).map entryName
            = (firstOccurrences ((envPairs "A=1\nB=2\nA=3").map Prod.fst)).map some
        ∧ ((fieldEntries "environment" kvs1).map entryName).Nodup
        ∧ (∀ name, some name ∈ (fieldEntries "environment" kvs1).map entryName
            ↔ name ∈ (envPairs "A=1\nB=2\nA=3").map Prod.fst)
        ∧ ∀ e ∈ fieldEntries "environment" kvs1, ∃ name value,
            e = .obj [("name", .str name), ("value", .str value)]
              ∧ lastValue name (envPairs "A=1\nB=2\nA=3") = some value :=
  ⟨rfl, by decide, by decide,
    environment_merged_into_empty noCoercion [("name", .str "app")] "A=1\nB=2\nA=3"
      (Or.inl rfl) (by decide)⟩

/-- C3. Let the container have an `environment` array `existing` whose entries compare
plainly (every entry with a string `name` does), and let the spec be parsable.  Then
the merge succeeds with an array `merged` such that: `merged` is at least as long as
`existing`; its first entries carry the names of `existing` at the same indices; an
entry of `existing` whose name no spec line mentions is unchanged; the first entry
carrying a name that a spec line mentions has its `value` overwritten in place, by the
value of the last such line; every entry beyond the old ones was appended for a spec
name absent from `existing`, in order of first occurrence in the spec; and the final
length is the old length plus the number of distinct spec names absent from
`existing`. -/
theorem environment_upsert_on_existing (coerceEq : Json → String → Option Bool)
    (kvs : List (String × Json)) (existing : List Json) (spec : String)
    (henv : lookup "environment" kvs = some (.arr existing))
    (hplain : ∀ e ∈ existing, plainName e = true)
    (hp : Parsable spec) :
    ∃ merged : List Json,
      mergeEnvironment coerceEq (.record kvs) spec
          = .ok (.record (setKey "environment" (.arr merged) kvs))
        ∧ existing.length ≤ merged.length
        ∧ (merged.take existing.length).map entryName = existing.map entryName
        ∧ (∀ (i : Nat) (e : Json), existing[i]? = some e →
            (∀ p ∈ envPairs spec, entryName e ≠ some p.1) → merged[i]? = some e)
        ∧ (∀ (i : Nat) (e : Json) (name value : String), existing[i]? = some e →
            entryName e = some name →
            (∀ (j : Nat) (x : Json), j < i → existing[j]? = some x → entryName x ≠ some name) →
            lastValue name (envPairs spec) = some value →
            merged[i]? = some (assign e "value" (.str value)))
        ∧ (∀ (j : Nat) (name : String),
            (firstOccurrences (((envPairs spec).map Prod.fst).filter
              (fun name => decide (some name ∉ existing.map entryName))))[j]? = some name →
            ∃ value, lastValue name (envPairs spec) = some value
              ∧ merged[existing.length + j]?
                = some (.obj [("name", .str name), ("value", .str value)]))
        ∧ merged.length = existing.length
            + (((envPairs spec).map Prod.fst).filter
                (fun name => decide (some name ∉ existing.map entryName))).toFinset.card := by
  have hfield : fieldEntries "environment" kvs = existing := by simp [fieldEntries, henv]
  have hm := mergeEnvironment_eq_mergeNamed coerceEq kvs spec (by rw [hfield]; exact hplain) hp
  rw [hfield] at hm
  have hnames := map_entryName_mergeNamed "value" (by decide) existing (envPairs spec)
  have hlen : (mergeNamed "value" existing (envPairs spec)).length
      = existing.length + (firstOccurrences (((envPairs spec).map Prod.fst).filter
          (fun name => decide (some name ∉ existing.map entryName)))).length := by
    have := congrArg List.length hnames
    simpa using this
  refine ⟨mergeNamed "value" existing (envPairs spec), ?_, ?_, ?_, ?_, ?_, ?_, ?_⟩
  · rw [hm]
    by_cases hs : spec = ""
    · rw [if_pos hs, hs, envPairs_empty]
      simp [mergeNamed, setKey_of_lookup henv]
    · rw [if_neg hs]
  · omega
  · rw [List.map_take, hnames, List.take_left' (by simp)]
  · intro i e he hno
    exact getElem?_mergeNamed_of_unmentioned he hno
  · intro i e name value he hn hfirst hv
    apply getElem?_mergeNamed_of_first (by decide) he hn _ hv
    intro j hj hjn
    rw [List.getElem?_map] at hjn
    cases hx : existing[j]? with
    | none => simp [hx] at hjn
    | some x =>
      simp only [hx, Option.map_some', Option.some.injEq] at hjn
      exact hfirst j x hj hx hjn
  · intro j name hj
    have hjlt := lt_length_of_getElem? hj
    have hidx : existing.length + j < (mergeNamed "value" existing (envPairs spec)).length := by
      omega
    obtain ⟨e, he⟩ : ∃ e, (mergeNamed "value" existing (envPairs spec))[existing.length + j]?
        = some e := ⟨_, List.getElem?_eq_getElem hidx⟩
    obtain ⟨name1, value, h1, h2⟩ :=
      getElem?_mergeNamed_of_ge (by decide) (Nat.le_add_right _ _) he
    have hname : entryName e = some name := by
      have h3 := congrArg (fun l => l[existing.length + j]?) hnames
      simp only [List.getElem?_map, he, Option.map_some'] at h3
      rw [List.getElem?_append_right (by simp)] at h3
      simp only [List.length_map, Nat.add_sub_cancel_left, List.getElem?_map, hj,
        Option.map_some', Option.some.injEq] at h3
      exact h3
    rw [h1, entryName_entry] at hname
    simp only [Option.some.injEq] at hname
    subst hname
    exact ⟨value, h2, by rw [he, h1]; rfl⟩
  · rw [hlen]
    congr 1
    rw [← List.toFinset_card_of_nodup (nodup_firstOccurrences _)]
    congr 1
    ext name
    simp only [List.mem_toFinset, mem_firstOccurrences]

/-- C3 at a container with entries `A` and `B`: the spec overwrites `A` twice and
appends `C`. -/
theorem environment_upsert_on_existing_witness :
    mergeEnvironment noCoercion
        (.record [("environment", .arr [.obj [("name", .str "A"), ("value", .str "0")],
          .obj [("name", .str "B"), ("value", .str "0")]])]) "A=1\nC=2\nA=3"
        = .ok (.record [("environment", .arr [.obj [("name", .str "A"), ("value", .str "3")],
            .obj [("name", .str "B"), ("value", .str "0")],
            .obj [("name", .str "C"), ("value", .str "2")]])])
      ∧ ∃ merged : List Json,
        mergeEnvironment noCoercion
            (.record [("environment", .arr [.obj [("name", .str "A"), ("value", .str "0")],
              .obj [("name", .str "B"), ("value", .str "0")]])]) "A=1\nC=2\nA=3"
            = .ok (.record (setKey "environment" (.arr merged)
                [("environment", .arr [.obj [("name", .str "A"), ("value", .str "0")],
                  .obj [("name", .str "B"), ("value", .str "0")]])]))
          ∧ merged.length = 2 + 1 := by
  refine ⟨rfl, ?_⟩
  obtain ⟨merged, h1, -, -, -, -, -, h7⟩ := environment_upsert_on_existing noCoercion
    [("environment", .arr [.obj [("name", .str "A"), ("value", .str "0")],
      .obj [("name", .str "B"), ("value", .str "0")]])]
    [.obj [("name", .str "A"), ("value", .str "0")],
      .obj [("name", .str "B"), ("value", .str "0")]]
    "A=1\nC=2\nA=3" rfl (by decide) (by decide)
  exact ⟨merged, h1, by rw [h7]; decide⟩

/-- C4. Fallback: when `containerDefinitions` holds exactly one record and that
record has no `name`, then for every container name the resolution succeeds and
selects that record with `name` set to the supplied name; every successful run
yields a single record whose `name` is the supplied name and whose `image` is the
image string; and with no environment and secrets input the run succeeds. -/
theorem fallback_names_single_unnamed_container (coerceEq : Json → String → Option Bool) (doc : Json)
    (unnamed : List (String × Json))
    (containerName imageURI environmentVariables secretVariables : String)
    (hdoc : getProp doc "containerDefinitions" = .ok (some (.arr [.obj unnamed])))
    (hname : lookup "name" unnamed = none) :
    resolveContainer [.obj unnamed] containerName
        = .ok (0, .record (setKey "name" (.str containerName) unnamed))
      ∧ (∀ result,
          run coerceEq doc containerName imageURI environmentVariables secretVariables
            = .ok result →
          ∃ after, getProp result "containerDefinitions" = .ok (some (.arr [.obj after]))
            ∧ lookup "name" after = some (.str containerName)
            ∧ lookup "image" after = some (.str imageURI))
      ∧ run coerceEq doc containerName imageURI "" ""
          = .ok (assign doc "containerDefinitions"
              (.arr [.obj (setKey "image" (.str imageURI)
                (setKey "name" (.str containerName) unnamed))])) := by
  have hfind : find (nameIs containerName) [.obj unnamed] = .ok none := by
    rw [find_none]
    intro x hx
    simp only [List.mem_singleton] at hx
    subst hx
    exact nameIs_obj_false.mpr (by simp [hname])
  have hres : resolveContainer [.obj unnamed] containerName
      = .ok (0, .record (setKey "name" (.str containerName) unnamed)) := by
    rw [resolveContainer_single hfind]
    simp [getProp, hname, toTarget, Target.truthy, Target.set]
  cases doc with
  | obj kvs =>
    simp only [getProp, Except.ok.injEq] at hdoc
    refine ⟨hres, ?_, ?_⟩
    · intro result hrun
      obtain ⟨kvs0, cds0, i, t, t1, t2, hk, hl, hres0, h1, h2, rfl⟩ := run_ok hrun
      simp only [Json.obj.injEq] at hk
      subst hk
      rw [hdoc] at hl
      simp only [Option.some.injEq, Json.arr.injEq] at hl
      subst hl
      rw [hres] at hres0
      simp only [Except.ok.injEq, Prod.mk.injEq] at hres0
      obtain ⟨rfl, rfl⟩ := hres0
      obtain ⟨f1, -, f3, -⟩ := merges_frame h1 h2
      obtain ⟨after, rfl⟩ := f3 _ rfl
      refine ⟨after, by simp [getProp, lookup_setKey_self, Target.toJson], ?_, ?_⟩
      · have := f1 "name" (by decide) (by decide)
        simpa [Target.get, Target.set, lookup_setKey_self,
          lookup_setKey_ne (show "name" ≠ "image" by decide)] using this
      · have := f1 "image" (by decide) (by decide)
        simpa [Target.get, Target.set, lookup_setKey_self] using this
    · rw [run_obj coerceEq hdoc (by simp), hres]
      simp [mergeEnvironment, mergeSecrets, Target.set, Target.toJson, assign]
  | _ => simp [getProp] at hdoc

/-- C4 at a task definition whose only container has no name. -/
theorem fallback_names_single_unnamed_container_witness :
    resolveContainer [.obj [("cpu", .num 256)]] "app"
        = .ok (0, .record (setKey "name" (.str "app") [("cpu", .num 256)]))
      ∧ (∀ result, run noCoercion unnamedDoc "app" "repo/img:1" "A=1" "" = .ok result →
          ∃ after, getProp result "containerDefinitions" = .ok (some (.arr [.obj after]))
            ∧ lookup "name" after = some (.str "app")
            ∧ lookup "image" after = some (.str "repo/img:1"))
      ∧ run noCoercion unnamedDoc "app" "repo/img:1" "" ""
          = .ok (assign unnamedDoc "containerDefinitions"
              (.arr [.obj (setKey "image" (.str "repo/img:1")
                (setKey "name" (.str "app") [("cpu", .num 256)]))])) :=
  fallback_names_single_unnamed_container noCoercion unnamedDoc [("cpu", .num 256)]
    "app" "repo/img:1" "A=1" "" rfl rfl

theorem toJson_toTarget (e : Json) : (toTarget e).toJson = e := by
  cases e <;> rfl

/-- C5. Frame property of a successful run: the document is a record and so is the
result, with the same keys in the same order and the same value under every key other
than `containerDefinitions`; `containerDefinitions` keeps its length; every position
other than the target index `i` holds what it held; and the element at the target
index keeps the value of every field other than `image`, `environment`, `secrets` and
`name`, and keeps `name` as well when the container was found by name (that is, when
the fallback for a single unnamed container was not used). -/
theorem run_frame (coerceEq : Json → String → Option Bool) (doc result : Json)
    (containerName imageURI environmentVariables secretVariables : String)
    (hrun : run coerceEq doc containerName imageURI environmentVariables secretVariables
      = .ok result) :
    ∃ (kvs kvs1 : List (String × Json)) (cds cds1 : List Json) (i : Nat) (t : Target),
      doc = .obj kvs ∧ result = .obj kvs1
        ∧ kvs1.map Prod.fst = kvs.map Prod.fst
        ∧ (∀ key, key ≠ "containerDefinitions" → lookup key kvs1 = lookup key kvs)
        ∧ lookup "containerDefinitions" kvs = some (.arr cds)
        ∧ lookup "containerDefinitions" kvs1 = some (.arr cds1)
        ∧ cds1.length = cds.length
        ∧ resolveContainer cds containerName = .ok (i, t)
        ∧ i < cds.length
        ∧ (∀ j, j ≠ i → cds1[j]? = cds[j]?)
        ∧ ∃ e e1, cds[i]? = some e ∧ cds1[i]? = some e1
          ∧ (∀ key, key ∉ ["image", "environment", "secrets", "name"] →
              getProp e1 key = getProp e key)
          ∧ ((∃ found, find (nameIs containerName) cds = .ok (some found)) →
              getProp e1 "name" = getProp e "name") := by
  obtain ⟨kvs, cds, i, t, t1, t2, rfl, hl, hres, h1, h2, rfl⟩ := run_ok hrun
  obtain ⟨-, f2, -, -⟩ := merges_frame h1 h2
  have hi : ∃ e, cds[i]? = some e ∧
      (∀ key, key ∉ ["image", "environment", "secrets", "name"] →
        getProp t2.toJson key = getProp e key)
      ∧ ((∃ found, find (nameIs containerName) cds = .ok (some found)) →
        getProp t2.toJson "name" = getProp e "name") := by
    rcases resolveContainer_ok hres with ⟨before, hf, rfl, -⟩ | ⟨e, hf, rfl, rfl, -, rfl⟩
    · refine ⟨.obj before, (find_some hf).1, ?_, ?_⟩
      · intro key hk
        simp only [List.mem_cons, List.mem_singleton, List.not_mem_nil, or_false, not_or] at hk
        rw [f2 key hk.2.1 hk.2.2.1, Target.getProp_toJson_set_ne _ hk.1]
        rfl
      · intro _
        rw [f2 "name" (by decide) (by decide), Target.getProp_toJson_set_ne _ (by decide)]
        rfl
    · refine ⟨e, rfl, ?_, ?_⟩
      · intro key hk
        simp only [List.mem_cons, List.mem_singleton, List.not_mem_nil, or_false, not_or] at hk
        rw [f2 key hk.2.1 hk.2.2.1, Target.getProp_toJson_set_ne _ hk.1,
          Target.getProp_toJson_set_ne _ hk.2.2.2, toJson_toTarget]
      · rintro ⟨found, hfound⟩
        rw [hf] at hfound
        simp at hfound
  obtain ⟨e, he, hkeep, hnamed⟩ := hi
  have hlen := lt_length_of_getElem? he
  obtain ⟨s1, s2, s3⟩ := getElem?_set_toJson hlen t2.toJson
  exact ⟨kvs, _, cds, _, i, t, rfl, rfl, map_fst_setKey_of_lookup _ hl,
    fun key hk => lookup_setKey_ne hk _ _, hl, lookup_setKey_self _ _ _, s1, hres, hlen, s3,
    e, t2.toJson, he, s2, hkeep, hnamed⟩

/-- C5 at the sample document. -/
theorem run_frame_witness :
    ∃ (kvs kvs1 : List (String × Json)) (cds cds1 : List Json) (i : Nat) (t : Target),
      sampleDoc = .obj kvs ∧ sampleRendered = .obj kvs1
        ∧ kvs1.map Prod.fst = kvs.map Prod.fst
        ∧ (∀ key, key ≠ "containerDefinitions" → lookup key kvs1 = lookup key kvs)
        ∧ lookup "containerDefinitions" kvs = some (.arr cds)
        ∧ lookup "containerDefinitions" kvs1 = some (.arr cds1)
        ∧ cds1.length = cds.length
        ∧ resolveContainer cds "app" = .ok (i, t)
        ∧ i < cds.length
        ∧ (∀ j, j ≠ i → cds1[j]? = cds[j]?)
        ∧ ∃ e e1, cds[i]? = some e ∧ cds1[i]? = some e1
          ∧ (∀ key, key ∉ ["image", "environment", "secrets", "name"] →
              getProp e1 key = getProp e key)
          ∧ ((∃ found, find (nameIs "app") cds = .ok (some found)) →
              getProp e1 "name" = getProp e "name") :=
  run_frame noCoercion sampleDoc sampleRendered "app" "repo/img:1" "" "" rfl

/-- C6 as amended.  If the environment spec has a line that is not blank and contains
no `=`, the run fails, so there is no result document; the same holds for the secrets
spec.  When the target container resolves to a record on whose `environment` entries
the comparison of line 67 does not throw, the failure is the parse failure of the first
such line, and its message quotes that line with its leading and trailing whitespace
removed.  The same holds for the first such line of the secrets spec when moreover the
environment spec is parsable and `secrets` is missing, falsy or an array without
`null`. -/
theorem parse_failure_names_trimmed_line (coerceEq : Json → String → Option Bool) (doc : Json)
    (containerName imageURI environmentVariables secretVariables : String) :
    (∀ bad ∈ split environmentVariables '\n', isBlank bad = false → '=' ∉ bad.data →
        ∃ err, run coerceEq doc containerName imageURI environmentVariables secretVariables
          = .error err)
      ∧ (∀ bad ∈ split secretVariables '\n', isBlank bad = false → '=' ∉ bad.data →
        ∃ err, run coerceEq doc containerName imageURI environmentVariables secretVariables
          = .error err)
      ∧ (∀ (cds : List Json) (i : Nat) (kvs : List (String × Json)),
        getProp doc "containerDefinitions" = .ok (some (.arr cds)) →
        resolveContainer cds containerName = .ok (i, .record kvs) →
        (∀ e ∈ fieldEntries "environment" kvs, ∀ name,
          ∃ b, nameLooselyIs coerceEq name e = .ok b) →
        (∀ before bad after, split environmentVariables '\n' = before ++ bad :: after →
          (∀ line ∈ before, isBlank line = true ∨ '=' ∈ line.data) →
          isBlank bad = false → '=' ∉ bad.data →
          run coerceEq doc containerName imageURI environmentVariables secretVariables
              = .error (.envParse (trim bad))
            ∧ (Err.envParse (trim bad)).message
              = some ("Cannot parse the environment variable '" ++ trim bad
                ++ "'. Environment variable pairs must be of the form NAME=value."))
        ∧ ((∀ v, lookup "secrets" kvs = some v →
              truthy v = false
                ∨ ∃ entries, v = .arr entries ∧ ∀ e ∈ entries, e ≠ .null) →
          Parsable environmentVariables →
          ∀ before bad after, split secretVariables '\n' = before ++ bad :: after →
          (∀ line ∈ before, isBlank line = true ∨ '=' ∈ line.data) →
          isBlank bad = false → '=' ∉ bad.data →
          run coerceEq doc containerName imageURI environmentVariables secretVariables
              = .error (.secretParse (trim bad))
            ∧ (Err.secretParse (trim bad)).message
              = some ("Cannot parse the secret variable '" ++ trim bad
                ++ "'. Secret variable pairs must be of the form NAME=value."))) := by
  refine ⟨?_, ?_, ?_⟩
  · intro bad hmem hblank hnoeq
    exact run_error_of_environment coerceEq doc _ _ _ _
      (fun t => mergeEnvironment_fails coerceEq t hmem hblank hnoeq)
  · intro bad hmem hblank hnoeq
    exact run_error_of_secrets coerceEq doc _ _ _ _
      (fun t => mergeSecrets_fails t hmem hblank hnoeq)
  intro cds i kvs hdoc hres henv
  have hne : cds ≠ [] := by
    rintro rfl
    simp [resolveContainer, find] at hres
  cases doc with
  | obj top =>
    simp only [getProp, Except.ok.injEq] at hdoc
    have henv1 : ∀ e ∈ fieldEntries "environment" (setKey "image" (.str imageURI) kvs),
        ∀ name, ∃ b, nameLooselyIs coerceEq name e = .ok b := by
      rw [fieldEntries_setKey_ne (by decide)]
      exact henv
    constructor
    · intro before bad after hsplit hgood hblank hnoeq
      refine ⟨?_, rfl⟩
      rw [run_obj coerceEq hdoc hne, hres]
      simp only [Target.set]
      rw [mergeEnvironment_record, if_neg (split_ne_of_bad_line hsplit hblank), hsplit,
        foldlM_fails_at (envStep coerceEq)
          (fun line => isBlank line = true ∨ '=' ∈ line.data)
          (fun entries => ∀ e ∈ entries, ∀ name, ∃ b, nameLooselyIs coerceEq name e = .ok b)
          (fun entries line hinv hg => envStep_total coerceEq hinv hg)
          bad (.envParse (trim bad))
          (fun entries => by simp [envStep, parseEnvLine_of_not_mem hblank hnoeq])
          before after _ henv1 hgood]
      rfl
    · intro hsec hpars before bad after hsplit hgood hblank hnoeq
      refine ⟨?_, rfl⟩
      obtain ⟨kvs1, hm, hkeep⟩ := mergeEnvironment_parsable coerceEq henv1 hpars
      have hsecrets : lookup "secrets" kvs1 = lookup "secrets" kvs := by
        rw [hkeep "secrets" (by decide), lookup_setKey_ne (by decide)]
      have hsec1 : ∀ e ∈ fieldEntries "secrets" kvs1, e ≠ .null := by
        intro e he
        simp only [fieldEntries, hsecrets] at he
        cases hl : lookup "secrets" kvs with
        | none => simp [hl] at he
        | some v =>
          simp only [hl] at he
          rcases hsec v hl with hfalsy | ⟨entries, rfl, hnn⟩
          · cases v <;> simp_all [truthy]
          · exact hnn e he
      rw [run_obj coerceEq hdoc hne, hres]
      simp only [Target.set]
      rw [hm]
      simp only
      rw [mergeSecrets_record kvs1 _ (by
          intro v hv
          rw [hsecrets] at hv
          rcases hsec v hv with hfalsy | ⟨entries, rfl, -⟩
          · exact Or.inl hfalsy
          · exact Or.inr ⟨entries, rfl⟩),
        if_neg (split_ne_of_bad_line hsplit hblank), hsplit,
        foldlM_fails_at secretStep
          (fun line => isBlank line = true ∨ '=' ∈ line.data)
          (fun entries => ∀ e ∈ entries, e ≠ .null)
          (fun entries line hinv hg => secretStep_total hinv hg)
          bad (.secretParse (trim bad))
          (fun entries => by simp [secretStep, parseSecretLine_of_not_mem hblank hnoeq])
          before after _ hsec1 hgood]
      rfl
  | _ => simp [getProp] at hdoc

set_option maxRecDepth 8000 in
/-- C6 as stated fails.  The container `app` of the sample document resolves, and the
second line of the spec, written ` FOO ` with a blank on each side, is not blank and
contains no `=`; `getInput` returns the spec as it is given, the run fails with a
message that quotes `FOO`, and there is no failure of the run whose message contains
the line as it was written. -/
theorem parse_failure_message_not_verbatim :
    resolveContainer sampleContainers "app"
        = .ok (1, .record [("name", .str "app"), ("image", .str "old")])
      ∧ getInput "A=1\n FOO \nB=2" = "A=1\n FOO \nB=2"
      ∧ split "A=1\n FOO \nB=2" '\n' = ["A=1", " FOO ", "B=2"]
      ∧ isBlank " FOO " = false
      ∧ '=' ∉ " FOO ".data
      ∧ run noCoercion sampleDoc "app" "repo/img:1" "A=1\n FOO \nB=2" ""
          = .error (.envParse "FOO")
      ∧ (Err.envParse "FOO").message
          = some ("Cannot parse the environment variable 'FOO'. "
            ++ "Environment variable pairs must be of the form NAME=value.")
      ∧ ¬ ∃ err text, run noCoercion sampleDoc "app" "repo/img:1" "A=1\n FOO \nB=2" ""
            = .error err
          ∧ err.message = some text ∧ " FOO ".data <:+: text.data := by
  refine ⟨rfl, by decide, rfl, by decide, by decide, rfl, rfl, ?_⟩
  rintro ⟨err, text, hrun, htext, hin⟩
  have herr : err = .envParse "FOO" := by
    have h : run noCoercion sampleDoc "app" "repo/img:1" "A=1\n FOO \nB=2" ""
        = .error (.envParse "FOO") := rfl
    rw [h] at hrun
    exact (Except.error.inj hrun).symm
  subst herr
  simp only [Err.message, Option.some.injEq] at htext
  subst htext
  revert hin
  decide

/-- C6 as amended, at the sample document with the spec of the counterexample. -/
theorem parse_failure_names_trimmed_line_witness :
    run noCoercion sampleDoc "app" "repo/img:1" "A=1\n FOO \nB=2" ""
        = .error (.envParse (trim " FOO "))
      ∧ (Err.envParse (trim " FOO ")).message
        = some ("Cannot parse the environment variable '" ++ trim " FOO "
          ++ "'. Environment variable pairs must be of the form NAME=value.") :=
  ((parse_failure_names_trimmed_line noCoercion sampleDoc "app" "repo/img:1"
    "A=1\n FOO \nB=2" "").2.2 sampleContainers 1
    [("name", .str "app"), ("image", .str "old")] rfl rfl
    (by simp [fieldEntries, lookup])).1
    ["A=1"] " FOO " ["B=2"] rfl (by decide) (by decide) (by decide)

/-- A run that got past the validation of `containerDefinitions` does not end with
the failure of that validation. -/
theorem run_ne_invalidFormat_of_valid (coerceEq : Json → String → Option Bool)
    {kvs : List (String × Json)} {cds : List Json}
    (hl : lookup "containerDefinitions" kvs = some (.arr cds)) (hne : cds ≠ [])
    (containerName imageURI environmentVariables secretVariables : String) :
    run coerceEq (.obj kvs) containerName imageURI environmentVariables secretVariables
      ≠ .error .invalidFormat := by
  intro hrun
  rw [run_obj coerceEq hl hne] at hrun
  cases hr : resolveContainer cds containerName with
  | error err =>
    simp only [hr, Except.error.injEq] at hrun
    rcases resolveContainer_error hr with h | h <;> rw [h] at hrun <;> simp at hrun
  | ok it =>
    simp only [hr] at hrun
    cases h1 : mergeEnvironment coerceEq (it.2.set "image" (.str imageURI))
        environmentVariables with
    | error err =>
      simp only [h1, Except.error.injEq] at hrun
      rcases mergeEnvironment_error h1 with h | ⟨l, h⟩ <;> rw [h] at hrun <;> simp at hrun
    | ok t1 =>
      simp only [h1] at hrun
      cases h2 : mergeSecrets t1 secretVariables with
      | error err =>
        simp only [h2, Except.error.injEq] at hrun
        rcases mergeSecrets_error h2 with h | ⟨l, h⟩ <;> rw [h] at hrun <;> simp at hrun
      | ok t2 => simp [h2] at hrun

/-- C7. For a document (any loaded value other than `null`; a task definition is a
record), `containerDefinitions` is missing, is not an array or is an empty array
exactly when the run fails with the validation error about `containerDefinitions`,
whatever the container name, image, environment spec and secrets spec; and such a
document yields no result document. -/
theorem invalid_containerDefinitions_iff (coerceEq : Json → String → Option Bool) (doc : Json)
    (containerName imageURI environmentVariables secretVariables : String)
    (hdoc : doc ≠ .null) :
    ((getProp doc "containerDefinitions" = .ok none
        ∨ (∃ v, getProp doc "containerDefinitions" = .ok (some v) ∧ ∀ xs, v ≠ .arr xs)
        ∨ getProp doc "containerDefinitions" = .ok (some (.arr [])))
      ↔ run coerceEq doc containerName imageURI environmentVariables secretVariables
          = .error .invalidFormat)
    ∧ ((getProp doc "containerDefinitions" = .ok none
        ∨ (∃ v, getProp doc "containerDefinitions" = .ok (some v) ∧ ∀ xs, v ≠ .arr xs)
        ∨ getProp doc "containerDefinitions" = .ok (some (.arr []))) →
      ∀ result,
        run coerceEq doc containerName imageURI environmentVariables secretVariables
          ≠ .ok result) := by
  have hfwd : (getProp doc "containerDefinitions" = .ok none
        ∨ (∃ v, getProp doc "containerDefinitions" = .ok (some v) ∧ ∀ xs, v ≠ .arr xs)
        ∨ getProp doc "containerDefinitions" = .ok (some (.arr []))) →
      run coerceEq doc containerName imageURI environmentVariables secretVariables
          = .error .invalidFormat := by
    rintro (h | ⟨v, h, hv⟩ | h)
    · simp [run, h]
    · cases v with
      | arr xs => exact absurd rfl (hv xs)
      | _ => simp [run, h]
    · simp [run, h]
  refine ⟨⟨hfwd, ?_⟩, ?_⟩
  · intro hrun
    cases doc with
    | null => exact absurd rfl hdoc
    | obj kvs =>
      simp only [getProp, Except.ok.injEq, Option.some.injEq]
      cases hl : lookup "containerDefinitions" kvs with
      | none => exact Or.inl rfl
      | some v =>
        cases v with
        | arr xs =>
          cases xs with
          | nil => exact Or.inr (Or.inr rfl)
          | cons c cs =>
            exact absurd hrun
              (run_ne_invalidFormat_of_valid coerceEq hl (by simp) _ _ _ _)
        | _ => exact Or.inr (Or.inl ⟨_, rfl, by simp⟩)
    | _ => exact Or.inl rfl
  · intro hbad result hres
    rw [hfwd hbad] at hres
    simp at hres

/-- C7 at a document without `containerDefinitions`. -/
theorem invalid_containerDefinitions_iff_witness :
    run noCoercion (.obj [("family", .str "web")]) "app" "repo/img:1" "A=1" "B=arn"
        = .error .invalidFormat
      ∧ ∀ result,
        run noCoercion (.obj [("family", .str "web")]) "app" "repo/img:1" "A=1" "B=arn"
          ≠ .ok result :=
  ⟨(invalid_containerDefinitions_iff noCoercion (.obj [("family", .str "web")])
      "app" "repo/img:1" "A=1" "B=arn" (by simp)).1.mp (Or.inl rfl),
    (invalid_containerDefinitions_iff noCoercion (.obj [("family", .str "web")])
      "app" "repo/img:1" "A=1" "B=arn" (by simp)).2 (Or.inl rfl)⟩

/-- Reading `containerDefinitions` from the document `null` throws, and the run
reports that fault instead of the validation message. -/
theorem run_null (coerceEq : Json → String → Option Bool)
    (containerName imageURI environmentVariables secretVariables : String) :
    run coerceEq .null containerName imageURI environmentVariables secretVariables
      = .error .typeError := rfl

/-- A run that resolved its container does not end with the not-found failure. -/
theorem run_ne_notFound_of_resolved (coerceEq : Json → String → Option Bool)
    {kvs : List (String × Json)} {cds : List Json}
    (hl : lookup "containerDefinitions" kvs = some (.arr cds)) (hne : cds ≠ [])
    {containerName : String} {i : Nat} {t : Target}
    (hres : resolveContainer cds containerName = .ok (i, t))
    (imageURI environmentVariables secretVariables : String) :
    run coerceEq (.obj kvs) containerName imageURI environmentVariables secretVariables
      ≠ .error .notFound := by
  intro hrun
  rw [run_obj coerceEq hl hne, hres] at hrun
  simp only at hrun
  cases h1 : mergeEnvironment coerceEq (t.set "image" (.str imageURI))
      environmentVariables with
  | error err =>
    simp only [h1, Except.error.injEq] at hrun
    rcases mergeEnvironment_error h1 with h | ⟨l, h⟩ <;> rw [h] at hrun <;> simp at hrun
  | ok t1 =>
    simp only [h1] at hrun
    cases h2 : mergeSecrets t1 secretVariables with
    | error err =>
      simp only [h2, Except.error.injEq] at hrun
      rcases mergeSecrets_error h2 with h | ⟨l, h⟩ <;> rw [h] at hrun <;> simp at hrun
    | ok t2 => simp [h2] at hrun

/-- C8. For a document whose `containerDefinitions` is a non-empty array of records,
the run fails with the container-not-found error exactly when no record is named
`containerName` and the array is not a single record without a `name` field. -/
theorem container_not_found_iff (coerceEq : Json → String → Option Bool) (doc : Json)
    (cds : List Json) (containerName imageURI environmentVariables secretVariables : String)
    (hdoc : getProp doc "containerDefinitions" = .ok (some (.arr cds)))
    (hne : cds ≠ [])
    (hrec : ∀ e ∈ cds, ∃ r, e = Json.obj r) :
    run coerceEq doc containerName imageURI environmentVariables secretVariables
        = .error .notFound
      ↔ (∀ r, Json.obj r ∈ cds → lookup "name" r ≠ some (.str containerName))
        ∧ ¬ ∃ r, cds = [.obj r] ∧ lookup "name" r = none := by
  cases doc with
  | obj kvs =>
    simp only [getProp, Except.ok.injEq] at hdoc
    obtain ⟨found, hf⟩ : ∃ found, find (nameIs containerName) cds = .ok found := by
      apply find_total
      intro x hx
      obtain ⟨r, rfl⟩ := hrec x hx
      exact ⟨_, nameIs_eq (by simp) _⟩
    cases found with
    | some ie =>
      obtain ⟨i, e⟩ := ie
      obtain ⟨r, rfl, hn, hres⟩ := resolveContainer_of_found hf
      have hmem : Json.obj r ∈ cds := List.getElem?_mem (find_some hf).1
      constructor
      · intro hrun
        exact absurd hrun (run_ne_notFound_of_resolved coerceEq hdoc hne hres _ _ _)
      · rintro ⟨hall, -⟩
        exact absurd hn (hall r hmem)
    | none =>
      have hnone : ∀ r, Json.obj r ∈ cds → lookup "name" r ≠ some (.str containerName) :=
        fun r hr => nameIs_obj_false.mp (find_none.mp hf _ hr)
      by_cases hlen : cds.length = 1
      · obtain ⟨e, rfl⟩ := List.length_eq_one.mp hlen
        obtain ⟨r, rfl⟩ := hrec e (List.mem_singleton_self e)
        have hres := resolveContainer_single hf
        simp only [getProp] at hres
        cases hname : lookup "name" r with
        | none =>
          simp only [hname, toTarget, Target.truthy, if_true] at hres
          constructor
          · intro hrun
            exact absurd hrun (run_ne_notFound_of_resolved coerceEq hdoc hne hres _ _ _)
          · rintro ⟨-, hno⟩
            exact absurd ⟨r, rfl, hname⟩ hno
        | some v =>
          simp only [hname] at hres
          constructor
          · intro _
            refine ⟨hnone, ?_⟩
            rintro ⟨r2, h2, hn2⟩
            simp only [List.cons.injEq, Json.obj.injEq, and_true] at h2
            subst h2
            rw [hname] at hn2
            simp at hn2
          · intro _
            rw [run_obj coerceEq hdoc hne, hres]
      · have hres := resolveContainer_of_none hf hlen
        constructor
        · intro _
          refine ⟨hnone, ?_⟩
          rintro ⟨r2, h2, -⟩
          rw [h2] at hlen
          simp at hlen
        · intro _
          rw [run_obj coerceEq hdoc hne, hres]
  | _ => simp [getProp] at hdoc

/-- C8 at a single record with a different name: the run is rejected. -/
theorem container_not_found_iff_witness :
    run noCoercion
        (.obj [("containerDefinitions", .arr [.obj [("name", .str "db")]])])
        "app" "repo/img:1" "" "" = .error .notFound
      ↔ (∀ r, Json.obj r ∈ [Json.obj [("name", .str "db")]] →
          lookup "name" r ≠ some (.str "app"))
        ∧ ¬ ∃ r, [Json.obj [("name", .str "db")]] = [.obj r] ∧ lookup "name" r = none :=
  container_not_found_iff noCoercion
    (.obj [("containerDefinitions", .arr [.obj [("name", .str "db")]])])
    [.obj [("name", .str "db")]] "app" "repo/img:1" "" "" rfl (by simp) (by simp)

/-- C9. Trimming asymmetry.  For a line containing `=` (and, being one line, no
newline), with `i` the position of the first `=` in the trimmed line: the environment
parse yields the text before position `i` and the text after it as they stand, the
secret parse yields both parts trimmed; and merged into a record without `environment`
and `secrets`, the line stores exactly those parts as `name`/`value` and as
`name`/`valueFrom`. -/
theorem trimming_asymmetry (coerceEq : Json → String → Option Bool) (line : String)
    (kvs : List (String × Json))
    (heq : '=' ∈ line.data) (hline : '\n' ∉ line.data)
    (henv : lookup "environment" kvs = none) (hsec : lookup "secrets" kvs = none) :
    ∃ i, indexOf (trim line) '=' = some i
      ∧ parseEnvLine line
          = .ok (some (substringTo (trim line) i, substringFrom (trim line) (i + 1)))
      ∧ parseSecretLine line
          = .ok (some (trim (substringTo (trim line) i),
              trim (substringFrom (trim line) (i + 1))))
      ∧ mergeEnvironment coerceEq (.record kvs) line
          = .ok (.record (setKey "environment"
              (.arr [.obj [("name", .str (substringTo (trim line) i)),
                ("value", .str (substringFrom (trim line) (i + 1)))]]) kvs))
      ∧ mergeSecrets (.record kvs) line
          = .ok (.record (setKey "secrets"
              (.arr [.obj [("name", .str (trim (substringTo (trim line) i))),
                ("valueFrom", .str (trim (substringFrom (trim line) (i + 1))))]]) kvs)) := by
  obtain ⟨i, hi, hpe⟩ := parseEnvLine_of_mem heq
  obtain ⟨j, hj, hps⟩ := parseSecretLine_of_mem heq
  rw [hi] at hj
  simp only [Option.some.injEq] at hj
  subst hj
  have hne : line ≠ "" := by
    rintro rfl
    simp at heq
  refine ⟨i, hi, hpe, hps, ?_, ?_⟩
  · rw [mergeEnvironment_record, if_neg hne, split_of_not_mem hline]
    simp [fieldEntries, henv, envStep, hpe, upsertEnv, find, Except.map, bind, Except.bind,
      pure, Except.pure]
  · rw [mergeSecrets_record _ _ (by simp [hsec]), if_neg hne, split_of_not_mem hline]
    simp [fieldEntries, hsec, secretStep, hps, upsertSecret, find, Except.map, bind,
      Except.bind, pure, Except.pure]

/-- C9 at the line ` FOO = bar `: the environment entry keeps the blanks next to the
`=`, the secret entry does not. -/
theorem trimming_asymmetry_witness :
    parseEnvLine " FOO = bar " = .ok (some ("FOO ", " bar"))
      ∧ parseSecretLine " FOO = bar " = .ok (some ("FOO", "bar"))
      ∧ mergeEnvironment noCoercion (.record []) " FOO = bar "
          = .ok (.record [("environment",
              .arr [.obj [("name", .str "FOO "), ("value", .str " bar")]])])
      ∧ mergeSecrets (.record []) " FOO = bar "
          = .ok (.record [("secrets",
              .arr [.obj [("name", .str "FOO"), ("valueFrom", .str "bar")]])])
      ∧ ∃ i, indexOf (trim " FOO = bar ") '=' = some i
        ∧ parseEnvLine " FOO = bar "
            = .ok (some (substringTo (trim " FOO = bar ") i,
                substringFrom (trim " FOO = bar ") (i + 1)))
        ∧ parseSecretLine " FOO = bar "
            = .ok (some (trim (substringTo (trim " FOO = bar ") i),
                trim (substringFrom (trim " FOO = bar ") (i + 1))))
        ∧ mergeEnvironment noCoercion (.record []) " FOO = bar "
            = .ok (.record (setKey "environment"
                (.arr [.obj [("name", .str (substringTo (trim " FOO = bar ") i)),
                  ("value", .str (substringFrom (trim " FOO = bar ") (i + 1)))]]) []))
        ∧ mergeSecrets (.record []) " FOO = bar "
            = .ok (.record (setKey "secrets"
                (.arr [.obj [("name", .str (trim (substringTo (trim " FOO = bar ") i))),
                  ("valueFrom",
                    .str (trim (substringFrom (trim " FOO = bar ") (i + 1))))]]) [])) :=
  ⟨rfl, rfl, rfl, rfl,
    trimming_asymmetry noCoercion " FOO = bar " [] (by decide) (by decide) rfl rfl⟩

/-- C10. Split at the first `=`: an environment line containing `=` is not blank and
parses to a name and a value such that the name contains no `=`, and name, `=` and
value put together are the trimmed line; so the value keeps every later `=`, and a
trimmed line starting with `=` gives the empty name. -/
theorem env_line_split_at_first_separator (line : String) (heq : '=' ∈ line.data) :
    ∃ name value, isBlank line = false
      ∧ parseEnvLine line = .ok (some (name, value))
      ∧ '=' ∉ name.data
      ∧ name ++ "=" ++ value = trim line
      ∧ ((trim line).data.head? = some '=' → name = "") := by
  obtain ⟨i, hi, hp⟩ := parseEnvLine_of_mem heq
  obtain ⟨h1, h2⟩ := indexOfList_some hi
  refine ⟨_, _, isBlank_of_mem heq, hp, h2, ?_, ?_⟩
  · apply String.ext
    simp only [String.data_append, substringTo, substringFrom]
    rw [List.append_assoc]
    exact h1.symm
  · intro hhead
    cases i with
    | zero => rfl
    | succ k =>
      exfalso
      apply h2
      cases hd : (trim line).data with
      | nil => simp [hd] at hhead
      | cons c cs =>
        simp only [hd, List.head?_cons, Option.some.injEq] at hhead
        simp [hhead]

/-- C10 at `A=b=c` and at `=x`. -/
theorem env_line_split_at_first_separator_witness :
    parseEnvLine "A=b=c" = .ok (some ("A", "b=c"))
      ∧ parseEnvLine "=x" = .ok (some ("", "x"))
      ∧ ∃ name value, isBlank "A=b=c" = false
        ∧ parseEnvLine "A=b=c" = .ok (some (name, value))
        ∧ '=' ∉ name.data
        ∧ name ++ "=" ++ value = trim "A=b=c"
        ∧ ((trim "A=b=c").data.head? = some '=' → name = "") :=
  ⟨rfl, rfl, env_line_split_at_first_separator "A=b=c" (by decide)⟩

/-- The shapes a run can take: a failure report alone; or, after a successful
transformation, the created file followed by a failure report, the created and written
file followed by a failure report, or the created and written file followed by the
output. -/
theorem runAction_cases (coerceEq : Json → String → Option Bool) (w : World) :
    (∃ message, runAction coerceEq w = [.setFailed message])
      ∨ ∃ taskDefinitionFile containerName imageURI taskDefPath taskDefContents result name,
          w.taskDefinition = .ok taskDefinitionFile ∧ w.containerName = .ok containerName
            ∧ w.image = .ok imageURI
            ∧ w.load taskDefPath = .ok taskDefContents
            ∧ run coerceEq taskDefContents containerName imageURI
                (getInput w.environmentVariables) (getInput w.secrets) = .ok result
            ∧ ((runAction coerceEq w = [.createFile name, .writeFile name result,
                  .setOutput "task-definition" name])
              ∨ (∃ message, runAction coerceEq w = [.createFile name, .setFailed message])
              ∨ ∃ message, runAction coerceEq w
                  = [.createFile name, .writeFile name result, .setFailed message]) := by
  cases h1 : w.taskDefinition with
  | error m => exact Or.inl ⟨m, by simp [runAction, tryBlock, h1]⟩
  | ok taskDefinitionFile =>
  cases h2 : w.containerName with
  | error m => exact Or.inl ⟨m, by simp [runAction, tryBlock, h1, h2]⟩
  | ok containerName =>
  cases h3 : w.image with
  | error m => exact Or.inl ⟨m, by simp [runAction, tryBlock, h1, h2, h3]⟩
  | ok imageURI =>
  cases h4 : (if w.isAbsolute taskDefinitionFile then Except.ok taskDefinitionFile
      else w.joinWorkspace taskDefinitionFile) with
  | error m => exact Or.inl ⟨m, by simp [runAction, tryBlock, h1, h2, h3, h4]⟩
  | ok taskDefPath =>
  cases h5 : w.fileExists taskDefPath with
  | false =>
    exact Or.inl ⟨"Task definition file does not exist: " ++ taskDefinitionFile,
      by simp [runAction, tryBlock, h1, h2, h3, h4, h5]⟩
  | true =>
  cases h6 : w.load taskDefPath with
  | error m => exact Or.inl ⟨m, by simp [runAction, tryBlock, h1, h2, h3, h4, h5, h6]⟩
  | ok taskDefContents =>
  cases h7 : run coerceEq taskDefContents containerName imageURI
      (getInput w.environmentVariables) (getInput w.secrets) with
  | error err =>
    exact Or.inl ⟨err.message.getD w.faultMessage,
      by simp [runAction, tryBlock, h1, h2, h3, h4, h5, h6, h7]⟩
  | ok result =>
  cases h8 : w.tmpFile with
  | error m =>
    exact Or.inl ⟨m, by simp [runAction, tryBlock, h1, h2, h3, h4, h5, h6, h7, h8]⟩
  | ok name =>
  refine Or.inr ⟨taskDefinitionFile, containerName, imageURI, taskDefPath, taskDefContents,
    result, name, rfl, rfl, rfl, h6, h7, ?_⟩
  cases h9 : w.write name result with
  | error m =>
    exact Or.inr (Or.inl
      ⟨m, by simp [runAction, tryBlock, h1, h2, h3, h4, h5, h6, h7, h8, h9]⟩)
  | ok u =>
  cases h10 : w.setOutput "task-definition" name with
  | error m =>
    exact Or.inr (Or.inr
      ⟨m, by simp [runAction, tryBlock, h1, h2, h3, h4, h5, h6, h7, h8, h9, h10]⟩)
  | ok u2 =>
    exact Or.inl (by simp [runAction, tryBlock, h1, h2, h3, h4, h5, h6, h7, h8, h9, h10])

/-- C11. Atomicity of the whole run.  (1) Every run ends with exactly one report: its
last effect is `core.setFailed` or `core.setOutput('task-definition', …)`, and no
earlier effect is a report.  (2) When the inputs are read, the file is loaded and
the transformation fails (bad `containerDefinitions`, container not found, unparsable
environment or secret line, or a `TypeError` of the engine), the only effect is
`core.setFailed` with the message of that failure: no file is created or written and
no output is set.  (3) A file is created or written only after the transformation
succeeded, that is after all merges; the trace is then the created file, the written
file and the output, or it ends in a failure report after the file was created or
after it was written (when `fs.writeFileSync` or `core.setOutput` throws), and an
output is set only after the file was written. -/
theorem run_is_atomic (coerceEq : Json → String → Option Bool) (w : World) :
    (∃ before last, runAction coerceEq w = before ++ [last]
        ∧ (∀ e ∈ before, e.isReport = false)
        ∧ ((∃ message, last = .setFailed message)
          ∨ ∃ name, last = .setOutput "task-definition" name))
      ∧ (∀ taskDefinitionFile containerName imageURI taskDefPath taskDefContents err,
          w.taskDefinition = .ok taskDefinitionFile → w.containerName = .ok containerName →
          w.image = .ok imageURI →
          (if w.isAbsolute taskDefinitionFile then .ok taskDefinitionFile
            else w.joinWorkspace taskDefinitionFile) = .ok taskDefPath →
          w.fileExists taskDefPath = true → w.load taskDefPath = .ok taskDefContents →
          run coerceEq taskDefContents containerName imageURI
            (getInput w.environmentVariables) (getInput w.secrets) = .error err →
          runAction coerceEq w = [.setFailed (err.message.getD w.faultMessage)])
      ∧ ((∃ e ∈ runAction coerceEq w,
            e.touchesFile = true ∨ ∃ key value, e = .setOutput key value) →
          ∃ taskDefinitionFile containerName imageURI taskDefPath taskDefContents result name,
            w.taskDefinition = .ok taskDefinitionFile ∧ w.containerName = .ok containerName
              ∧ w.image = .ok imageURI
              ∧ w.load taskDefPath = .ok taskDefContents
              ∧ run coerceEq taskDefContents containerName imageURI
                  (getInput w.environmentVariables) (getInput w.secrets) = .ok result
              ∧ ((runAction coerceEq w = [.createFile name, .writeFile name result,
                    .setOutput "task-definition" name])
                ∨ (∃ message, runAction coerceEq w
                    = [.createFile name, .setFailed message])
                ∨ ∃ message, runAction coerceEq w
                    = [.createFile name, .writeFile name result, .setFailed message])) := by
  refine ⟨?_, ?_, ?_⟩
  · rcases runAction_cases coerceEq w with
      ⟨m, h⟩ | ⟨f, c, i, p, d, r, name, -, -, -, -, -, h⟩
    · exact ⟨[], _, h, by simp, Or.inl ⟨m, rfl⟩⟩
    · rcases h with h | ⟨m, h⟩ | ⟨m, h⟩
      · exact ⟨[.createFile name, .writeFile name r], _, h, by simp [Effect.isReport],
          Or.inr ⟨name, rfl⟩⟩
      · exact ⟨[.createFile name], _, h, by simp [Effect.isReport], Or.inl ⟨m, rfl⟩⟩
      · exact ⟨[.createFile name, .writeFile name r], _, h, by simp [Effect.isReport],
          Or.inl ⟨m, rfl⟩⟩
  · intro f c i p d err e1 e2 e3 e4 e5 e6 e7
    simp [runAction, tryBlock, e1, e2, e3, e4, e5, e6, e7]
  · rintro ⟨e, he, hkind⟩
    rcases runAction_cases coerceEq w with ⟨m, h⟩ | h
    · rw [h] at he
      simp only [List.mem_singleton] at he
      subst he
      simp [Effect.touchesFile] at hkind
    · exact h

/-- C11 at the sample document: a second environment line without `=` fails the run
after the first line was merged in memory, and the only effect is the failure
report; with empty specs the file is created, written, and reported; and when
`core.setOutput` throws, the run ends in a failure report after the file was
written. -/
theorem run_is_atomic_witness :
    runAction noCoercion (sampleWorld sampleDoc "A=1\nFOO" "")
        = [.setFailed ("Cannot parse the environment variable 'FOO'. "
            ++ "Environment variable pairs must be of the form NAME=value.")]
      ∧ runAction noCoercion (sampleWorld sampleDoc "" "")
        = [.createFile "/tmp/task-definition-1.json",
            .writeFile "/tmp/task-definition-1.json" sampleRendered,
            .setOutput "task-definition" "/tmp/task-definition-1.json"]
      ∧ runAction noCoercion (outputFailsWorld sampleDoc)
        = [.createFile "/tmp/task-definition-1.json",
            .writeFile "/tmp/task-definition-1.json" sampleRendered,
            .setFailed "Unable to find environment variable for file command"]
      ∧ runAction noCoercion (sampleWorld sampleDoc "A=1\nFOO" "")
        = [.setFailed ((Err.envParse "FOO").message.getD
            (sampleWorld sampleDoc "A=1\nFOO" "").faultMessage)] :=
  ⟨rfl, rfl, rfl, (run_is_atomic noCoercion (sampleWorld sampleDoc "A=1\nFOO" "")).2.1
    "/work/taskdef.json" "app" "repo/img:1" "/work/taskdef.json" sampleDoc
    (.envParse "FOO") rfl rfl rfl rfl rfl rfl rfl⟩

/-- C12. An empty environment spec makes the environment merge a no-op, whatever the
target holds: the target, and with it its `environment` field, is returned as it was
(a missing field stays missing); the same holds for an empty secrets spec and the
secret merge.  With both specs empty a successful run returns the document with the
target replaced by the resolved target with its image set: the element at the target
index keeps every field other than `image` and `name` (so `environment` and `secrets`
too), and keeps `name` as well when the container was found by name; all other
positions and all other top-level keys are as in the input. -/
theorem empty_specs_are_no_ops (coerceEq : Json → String → Option Bool) (target : Target) :
    mergeEnvironment coerceEq target "" = .ok target
      ∧ mergeSecrets target "" = .ok target
      ∧ ∀ (doc result : Json) (containerName imageURI : String),
        run coerceEq doc containerName imageURI "" "" = .ok result →
        ∃ (kvs : List (String × Json)) (cds : List Json) (i : Nat) (t : Target),
          doc = .obj kvs
            ∧ lookup "containerDefinitions" kvs = some (.arr cds)
            ∧ resolveContainer cds containerName = .ok (i, t)
            ∧ result = .obj (setKey "containerDefinitions"
                (.arr (cds.set i (t.set "image" (.str imageURI)).toJson)) kvs)
            ∧ ∃ e, cds[i]? = some e
              ∧ (∀ key, key ≠ "image" → key ≠ "name" →
                  getProp (t.set "image" (.str imageURI)).toJson key = getProp e key)
              ∧ ((∃ found, find (nameIs containerName) cds = .ok (some found)) →
                  getProp (t.set "image" (.str imageURI)).toJson "name"
                    = getProp e "name") := by
  refine ⟨rfl, rfl, ?_⟩
  intro doc result containerName imageURI hrun
  obtain ⟨kvs, cds, i, t, t1, t2, rfl, hl, hres, h1, h2, rfl⟩ := run_ok hrun
  have e1 : t1 = t.set "image" (.str imageURI) := by
    simpa [mergeEnvironment] using h1.symm
  have e2 : t2 = t1 := by
    simpa [mergeSecrets] using h2.symm
  subst e2
  subst e1
  refine ⟨kvs, cds, i, t, rfl, hl, hres, rfl, ?_⟩
  rcases resolveContainer_ok hres with ⟨before, hf, rfl, -⟩ | ⟨e, hf, rfl, rfl, -, rfl⟩
  · refine ⟨.obj before, (find_some hf).1, ?_, ?_⟩
    · intro key hk _
      rw [Target.getProp_toJson_set_ne _ hk]
      rfl
    · intro _
      rw [Target.getProp_toJson_set_ne _ (by decide)]
      rfl
  · refine ⟨e, rfl, ?_, ?_⟩
    · intro key hk hn
      rw [Target.getProp_toJson_set_ne _ hk, Target.getProp_toJson_set_ne _ hn,
        toJson_toTarget]
    · rintro ⟨found, hfound⟩
      rw [hf] at hfound
      simp at hfound

/-- C12 at the sample document: with both specs empty only the image of `app`
changes. -/
theorem empty_specs_are_no_ops_witness :
    run noCoercion sampleDoc "app" "repo/img:1" "" "" = .ok sampleRendered
      ∧ mergeEnvironment noCoercion (.record [("name", .str "app")]) ""
          = .ok (.record [("name", .str "app")])
      ∧ mergeSecrets (.record [("name", .str "app")]) ""
          = .ok (.record [("name", .str "app")]) :=
  ⟨rfl, (empty_specs_are_no_ops noCoercion (.record [("name", .str "app")])).1,
    (empty_specs_are_no_ops noCoercion (.record [("name", .str "app")])).2.1⟩

theorem foldlM_blank {f : Target → String → Except Err Target}
    (hf : ∀ t line, isBlank line = true → f t line = .ok t) (lines : List String)
    (hblank : ∀ line ∈ lines, isBlank line = true) (t : Target) :
    lines.foldlM f t = .ok t := by
  induction lines with
  | nil => rfl
  | cons line rest ih =>
    simp only [List.foldlM_cons, hf t line (hblank line (List.mem_cons_self _ _)), bind,
      Except.bind]
    exact ih (fun l hl => hblank l (List.mem_cons_of_mem _ hl))

theorem envLine_blank (coerceEq : Json → String → Option Bool) (t : Target) (line : String)
    (h : isBlank line = true) : envLine coerceEq t line = .ok t := by
  simp [envLine, parseEnvLine_blank h]

theorem secretLine_blank (t : Target) (line : String) (h : isBlank line = true) :
    secretLine t line = .ok t := by
  simp [secretLine, parseSecretLine_blank h]

/-- The merges on an arbitrary string all of whose lines are blank.  The guards of lines
41 and 79 test the string itself: the empty string leaves the record as it was; an
`environment` that is an array is left as it was; otherwise a non-empty string sets
`environment` to the empty array.  Likewise for the secrets: the empty string and a
truthy `secrets` leave the record as it was; otherwise a non-empty string sets
`secrets` to the empty array. -/
theorem blank_spec_merges (coerceEq : Json → String → Option Bool) (kvs : List (String × Json))
    (spec : String) (hblank : ∀ line ∈ split spec '\n', isBlank line = true) :
    (spec = "" → mergeEnvironment coerceEq (.record kvs) spec = .ok (.record kvs))
      ∧ (∀ entries, lookup "environment" kvs = some (.arr entries) →
          mergeEnvironment coerceEq (.record kvs) spec = .ok (.record kvs))
      ∧ (spec ≠ "" → (∀ entries, lookup "environment" kvs ≠ some (.arr entries)) →
          mergeEnvironment coerceEq (.record kvs) spec
            = .ok (.record (setKey "environment" (.arr []) kvs)))
      ∧ (spec = "" → mergeSecrets (.record kvs) spec = .ok (.record kvs))
      ∧ (∀ v, lookup "secrets" kvs = some v → truthy v = true →
          mergeSecrets (.record kvs) spec = .ok (.record kvs))
      ∧ (spec ≠ "" →
          (lookup "secrets" kvs = none
            ∨ ∃ v, lookup "secrets" kvs = some v ∧ truthy v = false) →
          mergeSecrets (.record kvs) spec
            = .ok (.record (setKey "secrets" (.arr []) kvs))) := by
  have henv : ∀ t : Target, (split spec '\n').foldlM (envLine coerceEq) t = .ok t :=
    foldlM_blank (envLine_blank coerceEq) _ hblank
  have hsec : ∀ t : Target, (split spec '\n').foldlM secretLine t = .ok t :=
    foldlM_blank secretLine_blank _ hblank
  refine ⟨?_, ?_, ?_, ?_, ?_, ?_⟩
  · intro hs
    simp [mergeEnvironment, hs]
  · intro entries hl
    by_cases hs : spec = ""
    · simp [mergeEnvironment, hs]
    · simp [mergeEnvironment, hs, Target.get, hl, henv]
  · intro hs hno
    simp only [mergeEnvironment, hs, if_false, Target.get, henv]
    cases hl : lookup "environment" kvs with
    | none => rfl
    | some v =>
      cases v with
      | arr entries => exact absurd hl (hno entries)
      | _ => rfl
  · intro hs
    simp [mergeSecrets, hs]
  · intro v hl hv
    by_cases hs : spec = ""
    · simp [mergeSecrets, hs]
    · simp [mergeSecrets, hs, Target.get, hl, hv, hsec, Target.set, setKey_of_lookup hl]
  · intro hs hno
    simp only [mergeSecrets, hs, if_false, Target.get, hsec]
    rcases hno with hl | ⟨v, hl, hv⟩
    · simp [hl, Target.set]
    · simp [hl, hv, Target.set]

/-- The guards of lines 41 and 79 on strings that still carry whitespace, which
`getInput` never returns: a single space or a single newline, merged into a record
without `environment`, would create `environment` as the empty array, and likewise for
the secrets. -/
theorem blank_spec_creates_field :
    (∀ line ∈ split " " '\n', isBlank line = true)
      ∧ (∀ line ∈ split "\n" '\n', isBlank line = true)
      ∧ (Target.record [("name", .str "app")]).get "environment" = none
      ∧ mergeEnvironment noCoercion (.record [("name", .str "app")]) " "
          = .ok (.record [("name", .str "app"), ("environment", .arr [])])
      ∧ mergeEnvironment noCoercion (.record [("name", .str "app")]) "\n"
          = .ok (.record [("name", .str "app"), ("environment", .arr [])])
      ∧ mergeSecrets (.record [("name", .str "app")]) " "
          = .ok (.record [("name", .str "app"), ("secrets", .arr [])])
      ∧ run noCoercion
          (.obj [("containerDefinitions", .arr [.obj [("name", .str "app")]])])
          "app" "repo/img:1" " " "\n"
          = .ok (.obj [("containerDefinitions", .arr [.obj [("name", .str "app"),
              ("image", .str "repo/img:1"), ("environment", .arr []),
              ("secrets", .arr [])]])])
      ∧ ¬ ∃ t, mergeEnvironment noCoercion (.record [("name", .str "app")]) " " = .ok t
          ∧ t.get "environment" = (Target.record [("name", .str "app")]).get "environment" := by
  refine ⟨by decide, by decide, rfl, rfl, rfl, rfl, rfl, ?_⟩
  rintro ⟨t, ht, hget⟩
  have h : mergeEnvironment noCoercion (.record [("name", .str "app")]) " "
      = .ok (.record [("name", .str "app"), ("environment", .arr [])]) := rfl
  rw [h] at ht
  simp only [Except.ok.injEq] at ht
  subst ht
  simp [Target.get, lookup] at hget

/-- C13. Blank lines are skipped and the arrays are initialised only when a line that
is not blank is processed.  Let `raw` be the value given to the input
`environment-variables` or `secrets`, read through `getInput`.  (1) If every line of
`raw` is blank (a single space, a single newline), the program receives the empty
string and both merges return the target as it was, so a container without
`environment` or `secrets` still has none.  (2) The same holds when every line of the
string the program receives is blank.  (3) Whenever the program receives a non-empty
string, its first line is not blank, so the array is initialised only in a run that
processes such a line. -/
theorem blank_spec_leaves_fields (coerceEq : Json → String → Option Bool) (target : Target)
    (raw : String) :
    ((∀ line ∈ split raw '\n', isBlank line = true) →
        getInput raw = ""
          ∧ mergeEnvironment coerceEq target (getInput raw) = .ok target
          ∧ mergeSecrets target (getInput raw) = .ok target)
      ∧ ((∀ line ∈ split (getInput raw) '\n', isBlank line = true) →
        getInput raw = ""
          ∧ mergeEnvironment coerceEq target (getInput raw) = .ok target
          ∧ mergeSecrets target (getInput raw) = .ok target)
      ∧ (getInput raw ≠ "" →
        ∃ first rest, split (getInput raw) '\n' = first :: rest ∧ isBlank first = false) := by
  have key : getInput raw = "" →
      getInput raw = ""
        ∧ mergeEnvironment coerceEq target (getInput raw) = .ok target
        ∧ mergeSecrets target (getInput raw) = .ok target := by
    intro h
    rw [h]
    exact ⟨rfl, rfl, rfl⟩
  refine ⟨fun h => key (getInput_of_blank_lines h), ?_, first_line_of_getInput⟩
  intro h
  have h2 := getInput_of_blank_lines h
  rw [getInput_getInput] at h2
  exact key h2

/-- C13 at a container without `environment` and `secrets`, for the values of a single
space and of a single newline. -/
theorem blank_spec_leaves_fields_witness :
    (∀ line ∈ split " " '\n', isBlank line = true)
      ∧ (∀ line ∈ split "\n" '\n', isBlank line = true)
      ∧ mergeEnvironment noCoercion (.record [("name", .str "app")]) (getInput " ")
        = .ok (.record [("name", .str "app")])
      ∧ mergeSecrets (.record [("name", .str "app")]) (getInput "\n")
        = .ok (.record [("name", .str "app")])
      ∧ (Target.record [("name", .str "app")]).get "environment" = none
      ∧ (Target.record [("name", .str "app")]).get "secrets" = none :=
  ⟨by decide, by decide,
    ((blank_spec_leaves_fields noCoercion (.record [("name", .str "app")]) " ").1
      (by decide)).2.1,
    ((blank_spec_leaves_fields noCoercion (.record [("name", .str "app")]) "\n").1
      (by decide)).2.2,
    rfl, rfl⟩

/-- C14. The worked example: for the document `{"containerDefinitions":[{"name":"app"}]}`,
container name `app`, image `repo/img:1`, the environment spec with the two lines
`FOO=bar` and `BAZ=qux` and no secrets spec, the run succeeds, and the only container
of the result is exactly `name`, `image` and an `environment` of the two entries
`FOO`/`bar` and `BAZ`/`qux`, with no `secrets` and no other field. -/
theorem worked_example (coerceEq : Json → String → Option Bool) :
    run coerceEq (.obj [("containerDefinitions", .arr [.obj [("name", .str "app")]])])
        "app" "repo/img:1" "FOO=bar\nBAZ=qux" ""
      = .ok (.obj [("containerDefinitions", .arr [.obj [("name", .str "app"),
          ("image", .str "repo/img:1"),
          ("environment", .arr [.obj [("name", .str "FOO"), ("value", .str "bar")],
            .obj [("name", .str "BAZ"), ("value", .str "qux")]])]])]) := by
  rfl

/-- C15. The secret merge is the environment merge up to trimming of the parts and
renaming `value` to `valueFrom`.  Let `environment` and `secrets` each be missing or
an array, let the entries have string names, and let the `secrets` entries be the
`environment` entries renamed.  Then for every spec, merging it as secrets leaves the
entries that merging the spec with trimmed parts as environment leaves, renamed; or
both fail, on the same line, each with its own parse message quoting that line. -/
theorem secret_merge_refines_environment_merge (coerceEq : Json → String → Option Bool)
    (kvs : List (String × Json)) (spec : String)
    (henv : lookup "environment" kvs = none
      ∨ ∃ entries, lookup "environment" kvs = some (.arr entries))
    (hsec : lookup "secrets" kvs = none
      ∨ ∃ entries, lookup "secrets" kvs = some (.arr entries))
    (hnamed : ∀ e ∈ fieldEntries "environment" kvs, (entryName e).isSome = true)
    (hsame : fieldEntries "secrets" kvs = (fieldEntries "environment" kvs).map swapEntry) :
    mergedEntries "secrets" (mergeSecrets (.record kvs) spec)
      = asSecretOutcome (mergedEntries "environment"
          (mergeEnvironment coerceEq (.record kvs) (trimPartsSpec spec))) := by
  have hfield : ∀ v, lookup "secrets" kvs = some v →
      truthy v = false ∨ ∃ entries, v = .arr entries := by
    intro v hv
    rcases hsec with h | ⟨entries, h⟩
    · rw [h] at hv
      simp at hv
    · rw [h] at hv
      exact Or.inr ⟨entries, (Option.some.inj hv).symm⟩
  rw [mergeSecrets_record kvs spec hfield, mergeEnvironment_record]
  by_cases hs : spec = ""
  · have hs2 : trimPartsSpec spec = "" := trimPartsSpec_eq_empty.mpr hs
    rw [if_pos hs, if_pos hs2]
    have e1 : mergedEntries "secrets" (.ok (.record kvs)) = .ok (fieldEntries "secrets" kvs) := by
      simp only [mergedEntries, Target.get, fieldEntries]
      rcases hsec with h | ⟨entries, h⟩ <;> simp [h]
    have e2 : mergedEntries "environment" (.ok (.record kvs))
        = .ok (fieldEntries "environment" kvs) := by
      simp only [mergedEntries, Target.get, fieldEntries]
      rcases henv with h | ⟨entries, h⟩ <;> simp [h]
    rw [e1, e2, hsame]
    rfl
  · have hs2 : ¬ trimPartsSpec spec = "" := fun h => hs (trimPartsSpec_eq_empty.mp h)
    rw [if_neg hs, if_neg hs2, split_trimPartsSpec, hsame,
      foldlM_secretStep_refines coerceEq _ _ hnamed]
    cases (List.map trimParts (split spec '\n')).foldlM (envStep coerceEq)
        (fieldEntries "environment" kvs) with
    | error err => rfl
    | ok merged =>
      simp [asSecretOutcome, mergedEntries, Except.map, Target.get, lookup_setKey_self]

/-- C15 at a container holding `A` in both arrays: the spec overwrites `A`, appends
`B`, both written with blanks around the parts. -/
theorem secret_merge_refines_environment_merge_witness :
    mergedEntries "secrets" (mergeSecrets
        (.record [("environment", .arr [.obj [("name", .str "A"), ("value", .str "0")]]),
          ("secrets", .arr [.obj [("name", .str "A"), ("valueFrom", .str "0")]])])
        " A = 1 \n B = 2 ")
      = .ok [.obj [("name", .str "A"), ("valueFrom", .str "1")],
          .obj [("name", .str "B"), ("valueFrom", .str "2")]]
      ∧ trimPartsSpec " A = 1 \n B = 2 " = "A=1\nB=2"
      ∧ mergedEntries "secrets" (mergeSecrets
          (.record [("environment", .arr [.obj [("name", .str "A"), ("value", .str "0")]]),
            ("secrets", .arr [.obj [("name", .str "A"), ("valueFrom", .str "0")]])])
          " A = 1 \n B = 2 ")
        = asSecretOutcome (mergedEntries "environment"
            (mergeEnvironment noCoercion
              (.record [("environment", .arr [.obj [("name", .str "A"), ("value", .str "0")]]),
                ("secrets", .arr [.obj [("name", .str "A"), ("valueFrom", .str "0")]])])
              (trimPartsSpec " A = 1 \n B = 2 "))) :=
  ⟨rfl, by decide,
    secret_merge_refines_environment_merge noCoercion
      [("environment", .arr [.obj [("name", .str "A"), ("value", .str "0")]]),
        ("secrets", .arr [.obj [("name", .str "A"), ("valueFrom", .str "0")]])]
      " A = 1 \n B = 2 " (Or.inr ⟨_, rfl⟩) (Or.inr ⟨_, rfl⟩) (by decide) rfl⟩

theorem find_eq_of_first {p : Json → Except Err Bool} {xs : List Json} {i : Nat} {e : Json}
    {found : Nat × Json} (hfind : find p xs = .ok (some found)) (he : xs[i]? = some e)
    (hp : p e = .ok true)
    (hfirst : ∀ j x, j < i → xs[j]? = some x → p x ≠ .ok true) : found = (i, e) := by
  obtain ⟨k, x⟩ := found
  obtain ⟨h1, h2, h3⟩ := find_some hfind
  have hki : k = i := by
    rcases Nat.lt_trichotomy k i with h | h | h
    · exact absurd h2 (hfirst k x h h1)
    · exact h
    · obtain ⟨y, hy1, hy2⟩ := h3 i h
      rw [he] at hy1
      simp only [Option.some.injEq] at hy1
      subst hy1
      rw [hp] at hy2
      simp at hy2
  subst hki
  rw [he] at h1
  simp only [Option.some.injEq] at h1
  rw [h1]

/-- C16. First match wins: let `i` be the smallest index of a record named
`containerName`.  Then a successful run resolved the record at `i`; the result holds
at `i` that record after the image assignment and the two merges, and every later
record with the same name, like every other position, is exactly what the input
held. -/
theorem first_match_wins (coerceEq : Json → String → Option Bool) (doc result : Json)
    (cds : List Json) (i : Nat) (first : List (String × Json))
    (containerName imageURI environmentVariables secretVariables : String)
    (hdoc : getProp doc "containerDefinitions" = .ok (some (.arr cds)))
    (hi : cds[i]? = some (.obj first))
    (hfirstName : lookup "name" first = some (.str containerName))
    (hmin : ∀ k r, k < i → cds[k]? = some (.obj r) →
      lookup "name" r ≠ some (.str containerName))
    (hrun : run coerceEq doc containerName imageURI environmentVariables secretVariables
      = .ok result) :
    ∃ (cds1 : List Json) (t1 t2 : Target),
      resolveContainer cds containerName = .ok (i, .record first)
        ∧ mergeEnvironment coerceEq (.record (setKey "image" (.str imageURI) first))
            environmentVariables = .ok t1
        ∧ mergeSecrets t1 secretVariables = .ok t2
        ∧ getProp result "containerDefinitions" = .ok (some (.arr cds1))
        ∧ cds1[i]? = some t2.toJson
        ∧ getProp t2.toJson "image" = .ok (some (.str imageURI))
        ∧ (∀ (j : Nat) (later : List (String × Json)), i < j →
            cds[j]? = some (.obj later) →
            lookup "name" later = some (.str containerName) →
            cds1[j]? = some (.obj later))
        ∧ ∀ k, k ≠ i → cds1[k]? = cds[k]? := by
  obtain ⟨kvs, cds0, i0, t, t1, t2, rfl, hl, hres, h1, h2, rfl⟩ := run_ok hrun
  simp only [getProp, hl, Except.ok.injEq, Option.some.injEq, Json.arr.injEq] at hdoc
  subst hdoc
  rcases resolveContainer_ok hres with ⟨before, hf, rfl, hn⟩ | ⟨e, hf, -, -, -, -⟩
  · have hfound := find_eq_of_first hf hi (nameIs_obj_true.mpr hfirstName) (by
      intro k x hk hx hpx
      obtain ⟨r, rfl, hr⟩ := nameIs_true hpx
      exact hmin k r hk hx hr)
    simp only [Prod.mk.injEq, Json.obj.injEq] at hfound
    obtain ⟨rfl, rfl⟩ := hfound
    obtain ⟨-, f2, f3, -⟩ := merges_frame h1 h2
    obtain ⟨s1, s2, s3⟩ := getElem?_set_toJson (lt_length_of_getElem? hi) t2.toJson
    refine ⟨_, t1, t2, hres, h1, h2, by simp [getProp, lookup_setKey_self], s2, ?_, ?_, s3⟩
    · rw [f2 "image" (by decide) (by decide)]
      simp [Target.set, Target.toJson, getProp, lookup_setKey_self]
    · intro j later hij hj _
      rw [s3 j (Nat.ne_of_gt hij), hj]
  · exact absurd (find_none.mp hf _ (List.getElem?_mem hi)) (by
      rw [nameIs_obj_true.mpr hfirstName]
      simp)

/-- C16 at two containers both named `app`: only the first one is rendered. -/
theorem first_match_wins_witness :
    run noCoercion
        (.obj [("containerDefinitions", .arr [.obj [("name", .str "app"), ("cpu", .num 1)],
          .obj [("name", .str "app"), ("cpu", .num 2)]])])
        "app" "repo/img:1" "A=1" ""
      = .ok (.obj [("containerDefinitions", .arr [.obj [("name", .str "app"), ("cpu", .num 1),
            ("image", .str "repo/img:1"),
            ("environment", .arr [.obj [("name", .str "A"), ("value", .str "1")]])],
          .obj [("name", .str "app"), ("cpu", .num 2)]])])
      ∧ ∃ (cds1 : List Json) (t1 t2 : Target),
        resolveContainer [.obj [("name", .str "app"), ("cpu", .num 1)],
            .obj [("name", .str "app"), ("cpu", .num 2)]] "app"
          = .ok (0, .record [("name", .str "app"), ("cpu", .num 1)])
        ∧ mergeEnvironment noCoercion
            (.record (setKey "image" (.str "repo/img:1")
              [("name", .str "app"), ("cpu", .num 1)])) "A=1" = .ok t1
        ∧ mergeSecrets t1 "" = .ok t2
        ∧ getProp (.obj [("containerDefinitions", .arr [.obj [("name", .str "app"),
              ("cpu", .num 1), ("image", .str "repo/img:1"),
              ("environment", .arr [.obj [("name", .str "A"), ("value", .str "1")]])],
            .obj [("name", .str "app"), ("cpu", .num 2)]])]) "containerDefinitions"
          = .ok (some (.arr cds1))
        ∧ cds1[0]? = some t2.toJson
        ∧ getProp t2.toJson "image" = .ok (some (.str "repo/img:1"))
        ∧ (∀ (j : Nat) (later : List (String × Json)), 0 < j →
            [Json.obj [("name", .str "app"), ("cpu", .num 1)],
              Json.obj [("name", .str "app"), ("cpu", .num 2)]][j]? = some (.obj later) →
            lookup "name" later = some (.str "app") →
            cds1[j]? = some (.obj later))
        ∧ ∀ k, k ≠ 0 → cds1[k]?
            = [Json.obj [("name", .str "app"), ("cpu", .num 1)],
                Json.obj [("name", .str "app"), ("cpu", .num 2)]][k]? :=
  ⟨rfl, first_match_wins noCoercion
    (.obj [("containerDefinitions", .arr [.obj [("name", .str "app"), ("cpu", .num 1)],
      .obj [("name", .str "app"), ("cpu", .num 2)]])])
    (.obj [("containerDefinitions", .arr [.obj [("name", .str "app"), ("cpu", .num 1),
        ("image", .str "repo/img:1"),
        ("environment", .arr [.obj [("name", .str "A"), ("value", .str "1")]])],
      .obj [("name", .str "app"), ("cpu", .num 2)]])])
    [.obj [("name", .str "app"), ("cpu", .num 1)], .obj [("name", .str "app"), ("cpu", .num 2)]]
    0 [("name", .str "app"), ("cpu", .num 1)]
    "app" "repo/img:1" "A=1" "" rfl rfl rfl
    (fun k _ hk => absurd hk (Nat.not_lt_zero k)) rfl⟩

/-- The record a successful run leaves at the resolved position is resolved again, and
the image assignment and both merges leave it as it is. -/
theorem rerun_on_record (coerceEq : Json → String → Option Bool) (kvs : List (String × Json))
    {cds : List Json} {i : Nat} {a a2 : List (String × Json)} {t1 : Target}
    {containerName imageURI environmentVariables secretVariables : String}
    (hi : i < cds.length)
    (hbefore : ∀ j, j < i → ∃ x, cds[j]? = some x ∧ nameIs containerName x = .ok false)
    (hname : lookup "name" a = some (.str containerName))
    (h1 : mergeEnvironment coerceEq (.record (setKey "image" (.str imageURI) a))
      environmentVariables = .ok t1)
    (h2 : mergeSecrets t1 secretVariables = .ok (.record a2)) :
    run coerceEq (.obj (setKey "containerDefinitions" (.arr (cds.set i (.obj a2))) kvs))
        containerName imageURI environmentVariables secretVariables
      = .ok (.obj (setKey "containerDefinitions" (.arr (cds.set i (.obj a2))) kvs)) := by
  obtain ⟨a1, rfl⟩ : ∃ a1, t1 = .record a1 := by
    rcases mergeEnvironment_frame h1 with h | ⟨v, h⟩
    · exact ⟨_, h⟩
    · exact ⟨_, h⟩
  obtain ⟨f1, -, -, -⟩ := merges_frame h1 h2
  have hname2 : lookup "name" a2 = some (.str containerName) := by
    have h := f1 "name" (by decide) (by decide)
    simp only [Target.get] at h
    rw [h, lookup_setKey_ne (by decide), hname]
  have himage2 : lookup "image" a2 = some (.str imageURI) := by
    have h := f1 "image" (by decide) (by decide)
    simp only [Target.get] at h
    rw [h, lookup_setKey_self]
  have henv2 : lookup "environment" a2 = lookup "environment" a1 := by
    rcases mergeSecrets_frame h2 with h | ⟨v, h⟩
    · simp only [Target.record.injEq] at h
      rw [h]
    · simp only [Target.set, Target.record.injEq] at h
      rw [h, lookup_setKey_ne (by decide)]
  have hfind : find (nameIs containerName) (cds.set i (.obj a2)) = .ok (some (i, .obj a2)) :=
    find_set_of_first hi hbefore (nameIs_obj_true.mpr hname2)
  obtain ⟨r, hr, -, hres⟩ := resolveContainer_of_found hfind
  simp only [Json.obj.injEq] at hr
  subst hr
  have hne : cds.set i (.obj a2) ≠ [] := by
    intro h
    have hlen := congrArg List.length h
    simp only [List.length_set, List.length_nil] at hlen
    omega
  rw [run_obj coerceEq (lookup_setKey_self _ _ _) hne, hres]
  simp only [Target.set, setKey_of_lookup himage2, mergeEnvironment_again coerceEq h1 henv2,
    mergeSecrets_again h2, Target.toJson, List.set_set, setKey_setKey]

/-- C17. Idempotence: whenever the run succeeds on a document with result `result`, the
run on `result` with the same container name, image, environment spec and secrets spec
succeeds as well and returns `result` again.  This covers the fallback to a single
unnamed container and specs whose lines repeat a name. -/
theorem run_idempotent (coerceEq : Json → String → Option Bool) (doc result : Json)
    (containerName imageURI environmentVariables secretVariables : String)
    (hrun : run coerceEq doc containerName imageURI environmentVariables secretVariables
      = .ok result) :
    run coerceEq result containerName imageURI environmentVariables secretVariables
      = .ok result := by
  obtain ⟨kvs, cds, i, t, t1, t2, rfl, hl, hres, h1, h2, rfl⟩ := run_ok hrun
  rcases resolveContainer_ok hres with ⟨a, hf, rfl, hn⟩ | ⟨e, hf, rfl, rfl, hg, rfl⟩
  · obtain ⟨hi, -, hbefore⟩ := find_some hf
    obtain ⟨a2, rfl⟩ := (merges_frame h1 h2).2.2.1 _ rfl
    exact rerun_on_record coerceEq kvs (lt_length_of_getElem? hi) hbefore hn h1 h2
  · by_cases hobj : ∃ r, e = .obj r
    · obtain ⟨r, rfl⟩ := hobj
      obtain ⟨a2, rfl⟩ := (merges_frame h1 h2).2.2.1 _ rfl
      exact rerun_on_record coerceEq kvs (by simp)
        (fun j hj => absurd hj (Nat.not_lt_zero j)) (lookup_setKey_self _ _ _) h1 h2
    · have hnot : ∀ r, e ≠ .obj r := fun r hr => hobj ⟨r, hr⟩
      obtain ⟨hjson, hrec⟩ := toJson_set_of_not_obj hnot "name" (.str containerName)
      have hrec0 : ∀ r, ((toTarget e).set "name" (.str containerName)).set "image"
          (.str imageURI) ≠ .record r := by
        intro r hr
        cases e with
        | obj r0 => exact hnot r0 rfl
        | _ => simp [toTarget, Target.set] at hr
      have hsame : t2.toJson = e := by
        rw [(merges_frame h1 h2).2.2.2 hrec0]
        cases e with
        | obj r0 => exact absurd rfl (hnot r0)
        | _ => rfl
      have hdoc : Json.obj (setKey "containerDefinitions" (.arr ([e].set 0 t2.toJson)) kvs)
          = .obj kvs := by
        rw [hsame]
        simp [setKey_of_lookup hl]
      rw [hdoc] at hrun ⊢
      exact hrun

/-- C17 on the single unnamed container, with spec lines that repeat the names `A`
and `S`: the first run names the container and merges, the second changes nothing. -/
theorem run_idempotent_witness :
    run noCoercion unnamedDoc "app" "repo/img:1" "A=1\nB=2\nA=3" "S=arn:1\nS=arn:2"
        = .ok (.obj [("family", .str "web"), ("containerDefinitions", .arr [.obj
            [("cpu", .num 256), ("name", .str "app"), ("image", .str "repo/img:1"),
              ("environment", .arr [.obj [("name", .str "A"), ("value", .str "3")],
                .obj [("name", .str "B"), ("value", .str "2")]]),
              ("secrets", .arr [.obj [("name", .str "S"), ("valueFrom", .str "arn:2")]])]])])
      ∧ run noCoercion (.obj [("family", .str "web"), ("containerDefinitions", .arr [.obj
            [("cpu", .num 256), ("name", .str "app"), ("image", .str "repo/img:1"),
              ("environment", .arr [.obj [("name", .str "A"), ("value", .str "3")],
                .obj [("name", .str "B"), ("value", .str "2")]]),
              ("secrets", .arr [.obj [("name", .str "S"), ("valueFrom", .str "arn:2")]])]])])
          "app" "repo/img:1" "A=1\nB=2\nA=3" "S=arn:1\nS=arn:2"
        = .ok (.obj [("family", .str "web"), ("containerDefinitions", .arr [.obj
            [("cpu", .num 256), ("name", .str "app"), ("image", .str "repo/img:1"),
              ("environment", .arr [.obj [("name", .str "A"), ("value", .str "3")],
                .obj [("name", .str "B"), ("value", .str "2")]]),
              ("secrets", .arr [.obj [("name", .str "S"), ("valueFrom", .str "arn:2")]])]])]) :=
  ⟨rfl, run_idempotent noCoercion unnamedDoc _ "app" "repo/img:1" "A=1\nB=2\nA=3"
    "S=arn:1\nS=arn:2" rfl⟩

/-- C18. Name-uniqueness is an invariant of the upsert.  Whenever the environment merge
of a record succeeds, the names of the old `environment` entries are the first names of
the merged array (no entry is removed, so duplicates stay), and the merged names are
pairwise distinct exactly when the old names were; on a parsable spec the merge does
succeed when the comparison `e.name == name` of line 67 throws on no old entry, as it
does not when the old entries are objects with string names.  The same holds for the
secret merge, which succeeds on a parsable spec when `secrets` is missing, falsy or an
array without `null` (the comparison `===` of line 101 throws on nothing else). -/
theorem upsert_keeps_names_distinct (coerceEq : Json → String → Option Bool)
    (kvs : List (String × Json)) (spec : String) (hp : Parsable spec) :
    (∀ t1, mergeEnvironment coerceEq (.record kvs) spec = .ok t1 →
        ∃ kvs1, t1 = .record kvs1
          ∧ (fieldEntries "environment" kvs).map nameOf
              <+: (fieldEntries "environment" kvs1).map nameOf
          ∧ (((fieldEntries "environment" kvs1).map nameOf).Nodup
              ↔ ((fieldEntries "environment" kvs).map nameOf).Nodup))
      ∧ ((∀ e ∈ fieldEntries "environment" kvs, ∀ name,
            ∃ b, nameLooselyIs coerceEq name e = .ok b) →
          ∃ kvs1, mergeEnvironment coerceEq (.record kvs) spec = .ok (.record kvs1))
      ∧ ((∀ e ∈ fieldEntries "environment" kvs, ∃ name, entryName e = some name) →
          ∃ kvs1, mergeEnvironment coerceEq (.record kvs) spec = .ok (.record kvs1))
      ∧ (∀ t1, mergeSecrets (.record kvs) spec = .ok t1 →
        ∃ kvs1, t1 = .record kvs1
          ∧ (fieldEntries "secrets" kvs).map nameOf
              <+: (fieldEntries "secrets" kvs1).map nameOf
          ∧ (((fieldEntries "secrets" kvs1).map nameOf).Nodup
              ↔ ((fieldEntries "secrets" kvs).map nameOf).Nodup))
      ∧ ((∀ v, lookup "secrets" kvs = some v →
            truthy v = false ∨ ∃ entries, v = .arr entries) →
          (∀ e ∈ fieldEntries "secrets" kvs, e ≠ .null) →
          ∃ kvs1, mergeSecrets (.record kvs) spec = .ok (.record kvs1)) := by
  refine ⟨fun t1 h => mergeEnvironment_names coerceEq h, ?_, ?_,
    fun t1 h => mergeSecrets_names h, fun hfield hnn => mergeSecrets_parsable hfield hnn hp⟩
  · intro hcmp
    obtain ⟨kvs1, h, -⟩ := mergeEnvironment_parsable coerceEq hcmp hp
    exact ⟨kvs1, h⟩
  · intro hnamed
    obtain ⟨kvs1, h, -⟩ := mergeEnvironment_parsable coerceEq
      (fun e he name => by
        obtain ⟨n, hn⟩ := hnamed e he
        exact nameLooselyIs_total coerceEq (plainName_of_entryName hn) name) hp
    exact ⟨kvs1, h⟩

/-- C18 at a container with the distinct names `A`, `B` in both arrays, and a spec that
overwrites `B` and mentions the new name `C` twice. -/
theorem upsert_keeps_names_distinct_witness :
    Parsable "B=1\nC=2\nC=3"
      ∧ mergeEnvironment noCoercion
        (.record [("environment", .arr [.obj [("name", .str "A"), ("value", .str "0")],
            .obj [("name", .str "B"), ("value", .str "0")]]),
          ("secrets", .arr [.obj [("name", .str "A"), ("valueFrom", .str "0")],
            .obj [("name", .str "B"), ("valueFrom", .str "0")]])]) "B=1\nC=2\nC=3"
        = .ok (.record [("environment", .arr [.obj [("name", .str "A"), ("value", .str "0")],
            .obj [("name", .str "B"), ("value", .str "1")],
            .obj [("name", .str "C"), ("value", .str "3")]]),
          ("secrets", .arr [.obj [("name", .str "A"), ("valueFrom", .str "0")],
            .obj [("name", .str "B"), ("valueFrom", .str "0")]])])
      ∧ ((fieldEntries "environment" [("environment", .arr [.obj [("name", .str "A"),
            ("value", .str "0")], .obj [("name", .str "B"), ("value", .str "1")],
            .obj [("name", .str "C"), ("value", .str "3")]]),
          ("secrets", .arr [.obj [("name", .str "A"), ("valueFrom", .str "0")],
            .obj [("name", .str "B"), ("valueFrom", .str "0")]])]).map nameOf).Nodup := by
  have hmerge : mergeEnvironment noCoercion
      (.record [("environment", .arr [.obj [("name", .str "A"), ("value", .str "0")],
          .obj [("name", .str "B"), ("value", .str "0")]]),
        ("secrets", .arr [.obj [("name", .str "A"), ("valueFrom", .str "0")],
          .obj [("name", .str "B"), ("valueFrom", .str "0")]])]) "B=1\nC=2\nC=3"
      = .ok (.record [("environment", .arr [.obj [("name", .str "A"), ("value", .str "0")],
          .obj [("name", .str "B"), ("value", .str "1")],
          .obj [("name", .str "C"), ("value", .str "3")]]),
        ("secrets", .arr [.obj [("name", .str "A"), ("valueFrom", .str "0")],
          .obj [("name", .str "B"), ("valueFrom", .str "0")]])]) := rfl
  refine ⟨by decide, hmerge, ?_⟩
  obtain ⟨kvs1, h1, -, h3⟩ := (upsert_keeps_names_distinct noCoercion _ "B=1\nC=2\nC=3"
    (by decide)).1 _ hmerge
  simp only [Target.record.injEq] at h1
  subst h1
  exact h3.mpr (by simp [fieldEntries, lookup, nameOf])

end RenderTaskDef
